import Mathlib

/-!
# Strided views and worker partitioning of the MIOpen dispatch core

Shallow embedding of
* `src/include/miopen/tensor_view_utils.hpp` (`get_inner_expanded_tv`, `slice_tv`, `permute_tv`),
* `driver/mloRReLUHost.hpp` (worker count, work split, generator states and draws of
  `mloRReLUForward5dRunHost`, the loop of `mloRReLUBackward5dRunHost`),
* `driver/smooth_l1loss_driver.hpp` and `driver/tripletmarginloss_driver.hpp` (`GetStrides`,
  the workspace test of `AllocateBuffersAndCopy`),
* `src/smoothl1loss/problem_description.cpp` (the five checks and `MakeNetworkConfig`),
* `src/include/miopen/bcelogitsloss/problem_description.hpp` (`IsSameType`, `IsRightLength`),
* `src/solver/bcelogitsloss/backward_bcelogitsloss.cpp` and
  `src/solver/smoothl1loss/backward_smooth_l1loss.cpp` (`IsApplicable`, `make_hip_kernel`, the
  views of the invokers),
* `src/tripletmarginloss.cpp` (the two workspace size queries),
together with the properties the specification states about them.

Conventions of the embedding.
* `uint64_t` / `size_t` values are naturals below `2^64`; `int32_t` / `int` values are integers
  in `[-2^31, 2^31)`.  Arithmetic on them is written out with the explicit reductions
  `wrapUInt64` and `wrapInt32` (two's complement wrap-around).
* A C array of `N` entries is a function `Fin N → Nat`; a `std::vector` is a `List`.
* An access outside an array or vector, a division by zero and a shift by at least the width of
  the type have no defined result: the embedding returns `none` there.
* A thrown exception is the `error` case of `Except`.
* The build switch `MIOPEN_BUILD_DEV || !MIOPEN_NDEBUG` is a parameter `dev : Bool`.
* A function whose definition is not among the sources is a parameter of the functions that
  call it, or is modelled from the specification and marked so.
-/

namespace MIOpen

/-! ## Machine integers -/

/-- Value of an integer after conversion to `int32_t` (two's complement wrap-around). -/
def wrapInt32 (x : Int) : Int := (x + 2 ^ 31) % 2 ^ 32 - 2 ^ 31

/-- Value of an integer after conversion to `uint64_t` / `size_t` (reduction modulo `2^64`). -/
def wrapUInt64 (x : Int) : Nat := (x % 2 ^ 64).toNat

/-! ## Data model -/

/-- Modelled from the spec: `miopen::TensorDescriptor` (declared in `miopen/tensor.hpp`, which is
not part of the sources at hand) is an ordered sequence of axis sizes, an ordered sequence of axis
strides and an element type tag. -/
structure TensorDescriptor where
  lens : List Nat
  strides : List Nat
  type : Nat
deriving DecidableEq, Repr

/-- The accessor `TensorDescriptor::GetLengths`. -/
def TensorDescriptor.GetLengths (Desc : TensorDescriptor) : List Nat := Desc.lens

/-- The accessor `TensorDescriptor::GetStrides`. -/
def TensorDescriptor.GetStrides (Desc : TensorDescriptor) : List Nat := Desc.strides

/-- Modelled from the spec: `TensorDescriptor::GetElementSize`, the total element count, is the
product of the sizes. -/
def TensorDescriptor.GetElementSize (Desc : TensorDescriptor) : Nat := Desc.lens.prod

/-- Modelled from the spec: `tensor_view_t<N>` (declared in `kernels/tensor_view.hpp`, which is
not part of the sources at hand) holds two fixed-length arrays `stride[N]` and `size[N]` of
`uint64_t`. -/
structure tensor_view_t (N : Nat) where
  stride : Fin N → Nat
  size : Fin N → Nat

/-- Read `a[j]` from a C array of `N` entries with a signed index; `none` outside `0..N-1`. -/
def readArray {N : Nat} (a : Fin N → Nat) (j : Int) : Option Nat :=
  if h : 0 ≤ j ∧ j < (N : Int) then some (a ⟨j.toNat, by omega⟩) else none

/-- An array of `N` entries filled slot by slot: defined when every slot is. -/
def fillArray {N : Nat} {α : Type} (f : Fin N → Option α) : Option (Fin N → α) :=
  if h : ∀ i, (f i).isSome = true then some (fun i => (f i).get (h i)) else none

/-! ## `permute_tv` -/

/-- The three `MIOPEN_THROW_IF` sites of `permute_tv`. -/
inductive PermuteError where
  | size
  | range (idx : Int)
  | duplicate (idx : Int)
deriving DecidableEq, Repr

/-- The validation loop `for(auto idx : permute)` of `permute_tv`, with the running
`std::vector<bool> exist`. -/
def permute_tv_validate (N : Nat) : List Int → List Bool → Except PermuteError Unit
  | [], _ => .ok ()
  | idx :: rest, exist =>
    if idx < 0 ∨ (N : Int) ≤ idx then .error (.range idx)
    else if exist.getD idx.toNat false = true then .error (.duplicate idx)
    else permute_tv_validate N rest (exist.set idx.toNat true)

/-- The second loop of `permute_tv`: `new[i] = old[permute[i]]` for `i < N`. -/
def permute_tv_gather {N : Nat} (old : Fin N → Nat) (permute : List Int) : Option (Fin N → Nat) :=
  fillArray (fun i : Fin N => permute[i.val]?.bind (readArray old))

/-- The function `permute_tv<N, T>` for a signed index type `T`.  The outer `Except` carries the
thrown error, the inner `Option` is `none` on an out-of-bounds read. -/
def permute_tv {N : Nat} (tensor_view : tensor_view_t N) (permute : List Int) :
    Except PermuteError (Option (tensor_view_t N)) :=
  if permute.length ≠ N then .error .size
  else
    match permute_tv_validate N permute (List.replicate N false) with
    | .error e => .error e
    | .ok _ =>
      .ok (do
        let new_stride ← permute_tv_gather tensor_view.stride permute
        let new_size ← permute_tv_gather tensor_view.size permute
        pure { stride := new_stride, size := new_size })

/-- The ordering `p` is a bijection on `0..N-1`: right length, entries in range, no duplicates. -/
def IsOrdering (N : Nat) (p : List Int) : Prop :=
  p.length = N ∧ (∀ x ∈ p, 0 ≤ x ∧ x < (N : Int)) ∧ p.Nodup

/-! ## `slice_tv` -/

/-- One pass through the body of the loop of `slice_tv<N>`, for the `i`-th slice of the flat
array `slices` (four `int32_t` per slice: `dim`, `start`, `end`, `step`).  The sum
`len + step - 1` is evaluated left to right in `int32_t`; the quotient is the truncating C
division; the quotient is converted to `uint64_t` when stored, and `step` is converted to
`uint64_t` for the product with the stride. -/
def slice_tv_body {N : Nat} (tensor_view : tensor_view_t N) (slices : List Int) (i : Nat) :
    Option (tensor_view_t N) := do
  let dim ← slices[4 * i + 0]?
  let start ← slices[4 * i + 1]?
  let end_ ← slices[4 * i + 2]?
  let step ← slices[4 * i + 3]?
  if h : 0 ≤ dim ∧ dim < (N : Int) then
    let d : Fin N := ⟨dim.toNat, by omega⟩
    let end_ := if end_ > wrapInt32 (tensor_view.size d) then wrapInt32 (tensor_view.size d) else end_
    let len := wrapInt32 (end_ - start)
    let num := wrapInt32 (wrapInt32 (len + step) - 1)
    if step = 0 ∨ (num = -2 ^ 31 ∧ step = -1) then none
    else
      some
        { size := Function.update tensor_view.size d (wrapUInt64 (Int.tdiv num step))
          stride := Function.update tensor_view.stride d
            (wrapUInt64 ((tensor_view.stride d : Int) * step)) }
  else none

/-- The function `slice_tv<N>`: the loop `for(int32_t i = 0; i < sliceCount; i++)`. -/
def slice_tv {N : Nat} (tensor_view : tensor_view_t N) (sliceCount : Int) (slices : List Int) :
    Option (tensor_view_t N) :=
  (List.range sliceCount.toNat).foldlM (fun tv i => slice_tv_body tv slices i) tensor_view

/-! ## `get_inner_expanded_tv` -/

/-- The stride and size that the loop body of `get_inner_expanded_tv<N>` stores in slot `i`. -/
def get_inner_expanded_tv_slot (dims strides : List Nat) (i : Nat) : Option (Nat × Nat) :=
  if i < dims.length then do
    let s ← strides[i]?
    let d ← dims[i]?
    pure (s, d)
  else do
    let s ← if i = 0 then some 1 else strides[i - 1]?
    pure (s, 1)

/-- The function `get_inner_expanded_tv<N>` of `tensor_view_utils.hpp`. -/
def get_inner_expanded_tv (N : Nat) (Desc : TensorDescriptor) : Option (tensor_view_t N) := do
  let dims := Desc.GetLengths
  let strides := Desc.GetStrides
  let slots ← fillArray (fun i : Fin N => get_inner_expanded_tv_slot dims strides i.val)
  pure { stride := fun i => (slots i).1, size := fun i => (slots i).2 }

/-- The stride and size that the loop body of `get_inner_expanded_tv<N>` stores in slot `i` when
a read `strides[k]` past the end of the stride vector delivers the value `past k`: the slot as a
function of what such a read yields. -/
def get_inner_expanded_tv_slot_reading (past : Nat → Nat) (dims strides : List Nat) (i : Nat) :
    Nat × Nat :=
  if i < dims.length then (strides.getD i (past i), dims.getD i 0)
  else ((if i = 0 then 1 else strides.getD (i - 1) (past (i - 1))), 1)

/-- The view that `get_inner_expanded_tv<N>` builds when a read `strides[k]` past the end of the
stride vector delivers the value `past k`.  Where `get_inner_expanded_tv` reads inside the
vector only, this is the view it returns, whatever `past` is. -/
def get_inner_expanded_tv_reading (past : Nat → Nat) (N : Nat) (Desc : TensorDescriptor) :
    tensor_view_t N :=
  let dims := Desc.GetLengths
  let strides := Desc.GetStrides
  { stride := fun i => (get_inner_expanded_tv_slot_reading past dims strides i.val).1
    size := fun i => (get_inner_expanded_tv_slot_reading past dims strides i.val).2 }

/-! ## Flat index, coordinate and offset -/

/-- Size of axis `n` of a view, for a natural index (`1` past the last axis). -/
def tensor_view_t.sizeAt {N : Nat} (tensor_view : tensor_view_t N) (n : Nat) : Nat :=
  if h : n < N then tensor_view.size ⟨n, h⟩ else 1

/-- Quotient that remains of `idx` after the `j` innermost axes have been divided out, one after
the other. -/
def tensor_layout_rest {N : Nat} (tensor_view : tensor_view_t N) (idx : Nat) : Nat → Nat
  | 0 => idx
  | j + 1 => tensor_layout_rest tensor_view idx j / tensor_view.sizeAt (N - 1 - j)

/-- Modelled from the spec: the constructor `tensor_layout_t<N>(tensor_view, idx)` (declared in
`kernels/tensor_view.hpp`, which is not part of the sources at hand) decomposes a linear index into
per-axis coordinates using successive integer division by each axis size, row-major: the
innermost axis takes the remainder first and axis 0, the most significant, takes the quotient that
is left.  A division by a zero size has no defined result. -/
def tensor_layout_t {N : Nat} (tensor_view : tensor_view_t N) (idx : Nat) :
    Option (Fin N → Nat) :=
  if ∃ i : Fin N, 0 < i.val ∧ tensor_view.size i = 0 then none
  else
    some (fun k =>
      if k.val = 0 then tensor_layout_rest tensor_view idx (N - 1)
      else tensor_layout_rest tensor_view idx (N - 1 - k.val) % tensor_view.size k)

/-- Modelled from the spec: `tensor_view_t<N>::get_tensor_view_idx` (declared in
`kernels/tensor_view.hpp`, which is not part of the sources at hand) is the sum over the axes of
`coordinate[axis] * stride[axis]`, in `uint64_t`. -/
def tensor_view_t.get_tensor_view_idx {N : Nat} (tensor_view : tensor_view_t N)
    (layout : Fin N → Nat) : Nat :=
  (List.ofFn (fun i => tensor_view.stride i * layout i)).sum % 2 ^ 64

/-- A descriptor is contiguous (row-major packed): its strides have the length of its sizes and
the stride of every axis is the product of the sizes of the axes after it. -/
def IsContiguous (Desc : TensorDescriptor) : Prop :=
  Desc.strides.length = Desc.lens.length ∧
    ∀ k, k < Desc.lens.length → Desc.strides[k]? = some (Desc.lens.drop (k + 1)).prod

/-! ## Worker count of `mloRReLUForward5dRunHost` -/

/-- Modelled from the spec: `AlignUp(val, step)` (declared outside the sources at hand) rounds
`val` up to a multiple of `step`. -/
def AlignUp (val step : Int) : Int := (val + step - 1) / step * step

/-- The loop `while((1ul << divisor) * divisor <= size) ++divisor;` on `size_t`, started at
`divisor`; the result is the value of `divisor` when the loop is left.  A shift by 64 or more has
no defined result. -/
def num_threads_divisor (size : Nat) : Nat → Nat → Option Nat
  | 0, _ => none
  | fuel + 1, divisor =>
    if 64 ≤ divisor then none
    else if (2 ^ divisor % 2 ^ 64) * divisor % 2 ^ 64 ≤ size then
      num_threads_divisor size fuel (divisor + 1)
    else some divisor

/-- The worker count `num_threads` computed by `mloRReLUForward5dRunHost` from
`states.size()` and `GetElementSize()`: `int num_states`, `int num_threads`, `size_t size`,
`size_t divisor`. -/
def mloRReLUForward5dRunHost_num_threads (states_size size : Nat) : Option Int := do
  let num_states : Int := wrapInt32 states_size
  let num_threads ←
    if size ≤ wrapUInt64 num_states then some (wrapInt32 size)
    else do
      let divisor ← num_threads_divisor size 65 1
      let divisor := wrapUInt64 ((divisor : Int) - 1)
      if 64 ≤ divisor then none else some (wrapInt32 ((2 ^ divisor % 2 ^ 64 : Nat) : Int))
  pure (wrapInt32 (AlignUp num_threads 256))

/-- The worker count before alignment as the specification words it: the element count when it
does not exceed the pool size, otherwise `2^d` for the largest `d` with `2^d * d ≤ E`. -/
def specW0 (E S : Nat) : Nat :=
  if E ≤ S then E else 2 ^ Nat.findGreatest (fun d => 2 ^ d * d ≤ E) E

/-! ## Work split and backward pass of the RReLU host reference -/

/-- The loop `for(int i = gid; i < GetElementSize(); i += num_threads)` that worker `gid` of
`mloRReLUForward5dRunHost` runs, started at `i`: the list of the values of `i` for which the body
is executed.  In the comparison the `int` is converted to `size_t`; the increment is an `int`
addition.  The result is `none` when the fuel runs out before the loop is left. -/
def forward_worker_loop (size : Nat) (num_threads : Int) : Nat → Int → Option (List Int)
  | 0, _ => none
  | fuel + 1, i =>
    if wrapUInt64 i < size then
      (forward_worker_loop size num_threads fuel (wrapInt32 (i + num_threads))).map (fun l => i :: l)
    else some []

/-- The flat indices that worker `gid` of `mloRReLUForward5dRunHost` visits, for `size` elements
and `num_threads` workers. -/
def mloRReLUForward5dRunHost_worker (size : Nat) (num_threads gid : Int) : Option (List Int) :=
  forward_worker_loop size num_threads (size + 1) gid

/-- Modelled from the spec: `par_ford(n)(f)` (declared in `test/ford.hpp`, which is not part of
the sources at hand) runs the body `f` once for every index `0..n-1`; the workers are not ordered
among each other.  A schedule is an order in which the indices are taken. -/
def par_ford_schedule (n : Int) (order : List Nat) : Prop :=
  order.Perm (List.range n.toNat)

/-- The value `int size = GetElementSize()` of `mloRReLUBackward5dRunHost`. -/
def mloRReLUBackward5dRunHost_size (elementSize : Nat) : Int := wrapInt32 elementSize

/-- The body of the loop of `mloRReLUBackward5dRunHost` for the index `i`.  The two views are
those of the output-gradient and the input-gradient descriptor; `quot a b` stands for
`static_cast<Tcheck>(static_cast<float>(a) / b)`; the buffers are maps from offsets to values. -/
def mloRReLUBackward5dRunHost_body {Tgpu F Tcheck : Type} (quot : Tgpu → F → Tcheck)
    (doutput_tv dinput_tv : tensor_view_t 5) (noise : Nat → F) (doutput : Nat → Tgpu)
    (dinput_host : Nat → Tcheck) (i : Nat) : Option (Nat → Tcheck) := do
  let layout ← tensor_layout_t dinput_tv i
  let dIidx := dinput_tv.get_tensor_view_idx layout
  let dOidx := doutput_tv.get_tensor_view_idx layout
  pure (Function.update dinput_host dIidx (quot (doutput dOidx) (noise i)))

/-- The function `mloRReLUBackward5dRunHost` under a schedule of `par_ford(size)`: the buffer
`dinput_host` after the bodies have run in the order of the schedule. -/
def mloRReLUBackward5dRunHost {Tgpu F Tcheck : Type} (quot : Tgpu → F → Tcheck)
    (doutput_tv dinput_tv : tensor_view_t 5) (noise : Nat → F) (doutput : Nat → Tgpu)
    (dinput_host : Nat → Tcheck) (order : List Nat) : Option (Nat → Tcheck) :=
  order.foldlM (mloRReLUBackward5dRunHost_body quot doutput_tv dinput_tv noise doutput) dinput_host

/-- The input-gradient and output-gradient offsets of the coordinate of the flat index `i`, as
the body of the loop of `mloRReLUBackward5dRunHost` forms them. -/
def mloRReLUBackward5dRunHost_offsets (doutput_tv dinput_tv : tensor_view_t 5) (i : Nat) :
    Option (Nat × Nat) :=
  (tensor_layout_t dinput_tv i).map
    (fun layout => (dinput_tv.get_tensor_view_idx layout, doutput_tv.get_tensor_view_idx layout))

/-! ## Validation of problem descriptions -/

/-- The status codes that the sources at hand name. -/
inductive miopenStatus_t where
  | miopenStatusSuccess
  | miopenStatusBadParm
  | miopenStatusAllocFailed
deriving DecidableEq, Repr

/-- The accessor `TensorDescriptor::GetType`. -/
def TensorDescriptor.GetType (Desc : TensorDescriptor) : Nat := Desc.type

/-- Modelled from the spec: `TensorDescriptor::GetSize` (declared in `miopen/tensor.hpp`, which
is not part of the sources at hand) is the rank, the number of axis sizes. -/
def TensorDescriptor.GetSize (Desc : TensorDescriptor) : Nat := Desc.lens.length

/-- What a failed check does: under `MIOPEN_BUILD_DEV || !MIOPEN_NDEBUG` (`dev = true`) it is
`MIOPEN_THROW(miopenStatusBadParm, ...)`, otherwise `return false`. -/
def validationFailure (dev : Bool) : Except miopenStatus_t Bool :=
  if dev then .error .miopenStatusBadParm else .ok false

/-- The function `smoothl1loss::checkSameType`. -/
def smoothl1loss.checkSameType (dev : Bool) (x y : TensorDescriptor) : Except miopenStatus_t Bool :=
  if x.GetType ≠ y.GetType then validationFailure dev else .ok true

/-- The loop of `smoothl1loss::checkSameLength` over the indices still to visit. -/
def smoothl1loss.checkSameLength_loop (dev : Bool) (x y : TensorDescriptor) :
    List Nat → Except miopenStatus_t Bool
  | [] => .ok true
  | i :: rest =>
    if x.GetLengths[i]? ≠ y.GetLengths[i]? then validationFailure dev
    else smoothl1loss.checkSameLength_loop dev x y rest

/-- The function `smoothl1loss::checkSameLength`. -/
def smoothl1loss.checkSameLength (dev : Bool) (x y : TensorDescriptor) :
    Except miopenStatus_t Bool :=
  if x.GetSize ≠ y.GetSize then validationFailure dev
  else smoothl1loss.checkSameLength_loop dev x y (List.range x.GetSize)

/-- The loop of `smoothl1loss::checkSameStride` over the indices still to visit. -/
def smoothl1loss.checkSameStride_loop (dev : Bool) (x y : TensorDescriptor) :
    List Nat → Except miopenStatus_t Bool
  | [] => .ok true
  | i :: rest =>
    if x.GetStrides[i]? ≠ y.GetStrides[i]? then validationFailure dev
    else smoothl1loss.checkSameStride_loop dev x y rest

/-- The function `smoothl1loss::checkSameStride`.  The stride sequence of a descriptor has the
length of its size sequence, so that every index below `GetSize()` is in range. -/
def smoothl1loss.checkSameStride (dev : Bool) (x y : TensorDescriptor) :
    Except miopenStatus_t Bool :=
  if x.GetSize ≠ y.GetSize then validationFailure dev
  else smoothl1loss.checkSameStride_loop dev x y (List.range x.GetSize)

/-- The order of `std::pair<size_t, size_t>` that `std::sort` uses: lexicographic. -/
def pairLE (a b : Nat × Nat) : Prop := a.1 < b.1 ∨ (a.1 = b.1 ∧ a.2 ≤ b.2)

instance : DecidableRel pairLE := fun a b => by unfold pairLE; exact inferInstance

/-- The loop `for(int i = 1; i < p.size(); ++i)` of `smoothl1loss::checkRightStride` over the
indices still to visit; the product is formed in `size_t`. -/
def smoothl1loss.checkRightStride_loop (dev : Bool) (p : List (Nat × Nat)) :
    List Nat → Except miopenStatus_t Bool
  | [] => .ok true
  | i :: rest =>
    if (p[i]?.map Prod.fst) ≠ (p[i - 1]?.map (fun q => q.1 * q.2 % 2 ^ 64)) then
      validationFailure dev
    else smoothl1loss.checkRightStride_loop dev p rest

/-- The function `smoothl1loss::checkRightStride`: the pairs (stride, length) are sorted and
every stride but the first has to be the product of the pair before it. -/
def smoothl1loss.checkRightStride (dev : Bool) (x : TensorDescriptor) :
    Except miopenStatus_t Bool :=
  let strides := x.GetStrides
  let lengths := x.GetLengths
  let p := List.insertionSort pairLE (List.zip strides lengths)
  smoothl1loss.checkRightStride_loop dev p ((List.range p.length).drop 1)

/-- The loop of `smoothl1loss::checkContiguous` over the indices still to visit, from the last
axis down, with the running product `s` in `size_t`. -/
def smoothl1loss.checkContiguous_loop (dev : Bool) (x : TensorDescriptor) :
    List Nat → Nat → Except miopenStatus_t Bool
  | [], _ => .ok true
  | i :: rest, s =>
    if some s ≠ x.GetStrides[i]? then validationFailure dev
    else smoothl1loss.checkContiguous_loop dev x rest (s * x.GetLengths.getD i 0 % 2 ^ 64)

/-- The function `smoothl1loss::checkContiguous`. -/
def smoothl1loss.checkContiguous (dev : Bool) (x : TensorDescriptor) :
    Except miopenStatus_t Bool :=
  smoothl1loss.checkContiguous_loop dev x (List.range x.GetSize).reverse 1

/-- The two build modes agree on a check: the development build throws the bad-parameter error
exactly where the release build returns `false`, it returns `true` exactly where the release build
returns `true`, and the release build returns one of the two. -/
def ModesAgree (devResult releaseResult : Except miopenStatus_t Bool) : Prop :=
  (devResult = .error .miopenStatusBadParm ↔ releaseResult = .ok false) ∧
    (devResult = .ok true ↔ releaseResult = .ok true) ∧
    (releaseResult = .ok true ∨ releaseResult = .ok false)

/-! ## BCELogitsLoss problem descriptions -/

/-- The checks `bcelogitsloss::checkSameType` and `bcelogitsloss::checkSameLength`, which
`bcelogitsloss/problem_description.hpp` declares and whose definitions are not part of the
sources at hand: they are parameters of the embedding. -/
structure bcelogitsloss.Checks where
  checkSameType : TensorDescriptor → TensorDescriptor → Except miopenStatus_t Bool
  checkSameLength : TensorDescriptor → TensorDescriptor → Except miopenStatus_t Bool

/-- The data members of `bcelogitsloss::BCELogitsLossFwdProblemDescription`. -/
structure bcelogitsloss.BCELogitsLossFwdProblemDescription where
  iDesc : TensorDescriptor
  tDesc : TensorDescriptor
  wDesc : TensorDescriptor
  pwDesc : TensorDescriptor
  oDesc : TensorDescriptor

/-- The data members of `bcelogitsloss::BCELogitsLossBwdProblemDescription`. -/
structure bcelogitsloss.BCELogitsLossBwdProblemDescription where
  iDesc : TensorDescriptor
  tDesc : TensorDescriptor
  wDesc : TensorDescriptor
  pwDesc : TensorDescriptor
  doDesc : TensorDescriptor
  diDesc : TensorDescriptor
  dtDesc : TensorDescriptor

/-- The function `BCELogitsLossFwdProblemDescription::IsRightLength`. -/
def bcelogitsloss.BCELogitsLossFwdProblemDescription.IsRightLength (dev : Bool)
    (chk : bcelogitsloss.Checks) (p : bcelogitsloss.BCELogitsLossFwdProblemDescription) :
    Except miopenStatus_t Bool := do
  if !(← chk.checkSameLength p.iDesc p.tDesc) then validationFailure dev
  else pure true

/-- The function `ReducedForwardProblemDescription::IsRightLength` of BCELogitsLoss. -/
def bcelogitsloss.ReducedForwardProblemDescription.IsRightLength (dev : Bool)
    (chk : bcelogitsloss.Checks) (p : bcelogitsloss.BCELogitsLossFwdProblemDescription) :
    Except miopenStatus_t Bool := do
  if !(← bcelogitsloss.BCELogitsLossFwdProblemDescription.IsRightLength dev chk p) then
    pure false
  else if p.oDesc.GetSize ≠ 1 ∨ p.oDesc.GetLengths[0]? ≠ some 1 then validationFailure dev
  else pure true

/-- The function `BCELogitsLossBwdProblemDescription::IsSameType`; the operands of `||` are
evaluated from the left and only as far as needed. -/
def bcelogitsloss.BCELogitsLossBwdProblemDescription.IsSameType (dev : Bool)
    (chk : bcelogitsloss.Checks) (p : bcelogitsloss.BCELogitsLossBwdProblemDescription) :
    Except miopenStatus_t Bool := do
  if !(← chk.checkSameType p.iDesc p.tDesc) then validationFailure dev
  else if !(← chk.checkSameType p.iDesc p.wDesc) then validationFailure dev
  else if !(← chk.checkSameType p.iDesc p.pwDesc) then validationFailure dev
  else if !(← chk.checkSameType p.iDesc p.diDesc) then validationFailure dev
  else if !(← chk.checkSameType p.tDesc p.dtDesc) then validationFailure dev
  else pure true

/-- The function `BCELogitsLossBwdProblemDescription::IsRightLength`. -/
def bcelogitsloss.BCELogitsLossBwdProblemDescription.IsRightLength (dev : Bool)
    (chk : bcelogitsloss.Checks) (p : bcelogitsloss.BCELogitsLossBwdProblemDescription) :
    Except miopenStatus_t Bool := do
  if !(← chk.checkSameLength p.iDesc p.tDesc) then validationFailure dev
  else if !(← chk.checkSameLength p.iDesc p.diDesc) then validationFailure dev
  else if !(← chk.checkSameLength p.tDesc p.dtDesc) then validationFailure dev
  else pure true

/-- The function `ReducedBackwardProblemDescription::IsRightLength` of BCELogitsLoss. -/
def bcelogitsloss.ReducedBackwardProblemDescription.IsRightLength (dev : Bool)
    (chk : bcelogitsloss.Checks) (p : bcelogitsloss.BCELogitsLossBwdProblemDescription) :
    Except miopenStatus_t Bool := do
  if !(← bcelogitsloss.BCELogitsLossBwdProblemDescription.IsRightLength dev chk p) then
    pure false
  else if p.doDesc.GetSize ≠ 1 ∨ p.doDesc.GetLengths[0]? ≠ some 1 then validationFailure dev
  else pure true

/-- The function `solver::bcelogitsloss::ReducedBackward5d::IsApplicable`. -/
def solver.bcelogitsloss.ReducedBackward5d.IsApplicable (dev : Bool)
    (chk : bcelogitsloss.Checks) (problem : bcelogitsloss.BCELogitsLossBwdProblemDescription) :
    Except miopenStatus_t Bool := do
  if problem.iDesc.GetSize > 5 then pure false
  else if !(← bcelogitsloss.BCELogitsLossBwdProblemDescription.IsSameType dev chk problem) then
    pure false
  else if !(← bcelogitsloss.ReducedBackwardProblemDescription.IsRightLength dev chk problem) then
    pure false
  else pure true

/-! ## SmoothL1Loss problem descriptions -/

/-- Modelled from the spec: the descriptors that a SmoothL1Loss forward problem description
holds (`smoothl1loss/problem_description.hpp` is not part of the sources at hand; the members
are those that `problem_description.cpp` uses). -/
structure smoothl1loss.ForwardProblemDescription where
  iDesc : TensorDescriptor
  tDesc : TensorDescriptor
  oDesc : TensorDescriptor

/-- Modelled from the spec: the descriptors that a SmoothL1Loss backward problem description
holds (`smoothl1loss/problem_description.hpp` is not part of the sources at hand). -/
structure smoothl1loss.BackwardProblemDescription where
  iDesc : TensorDescriptor
  tDesc : TensorDescriptor
  doDesc : TensorDescriptor
  diDesc : TensorDescriptor
  dtDesc : TensorDescriptor

/-- The predicates `IsSameType`, `IsRightLength` and `IsRightStride` of
`smoothl1loss::ReducedBackwardProblemDescription`, which are defined in
`smoothl1loss/problem_description.hpp`, not part of the sources at hand: they are parameters of
the embedding. -/
structure smoothl1loss.BackwardPredicates where
  IsSameType : smoothl1loss.BackwardProblemDescription → Except miopenStatus_t Bool
  IsRightLength : smoothl1loss.BackwardProblemDescription → Except miopenStatus_t Bool
  IsRightStride : smoothl1loss.BackwardProblemDescription → Except miopenStatus_t Bool

/-- The function `solver::smoothl1loss::SmoothL1LossReducedBackward5d::IsApplicable`. -/
def solver.smoothl1loss.SmoothL1LossReducedBackward5d.IsApplicable
    (pred : smoothl1loss.BackwardPredicates) (problem : smoothl1loss.BackwardProblemDescription) :
    Except miopenStatus_t Bool := do
  if problem.iDesc.GetSize > 5 then pure false
  else if !(← pred.IsSameType problem) then pure false
  else if !(← pred.IsRightLength problem) then pure false
  else if !(← pred.IsRightStride problem) then pure false
  else pure true

/-- The text that `ss << b` writes for a `bool`. -/
def streamBool (b : Bool) : String := if b then "1" else "0"

/-- The function `smoothl1loss::ReducedForwardProblemDescription::MakeNetworkConfig`; an element
type is written as the number of its enumerator. -/
def smoothl1loss.ReducedForwardProblemDescription.MakeNetworkConfig
    (p : smoothl1loss.ForwardProblemDescription) : String :=
  let input_dtype := p.iDesc.GetType
  let target_dtype := p.tDesc.GetType
  let output_dtype := p.oDesc.GetType
  let size := p.iDesc.GetElementSize
  "smoothl1loss_reduced_fwd" ++ "i_dtype" ++ toString input_dtype ++ "t_dtype"
    ++ toString target_dtype ++ "o_dtype" ++ toString output_dtype ++ "size" ++ toString size

/-- The function `smoothl1loss::UnreducedForwardProblemDescription::MakeNetworkConfig`.  The
predicate `IsAllContiguous` is defined in `smoothl1loss/problem_description.hpp`, not part of
the sources at hand, and is a parameter; when it throws, so does this function. -/
def smoothl1loss.UnreducedForwardProblemDescription.MakeNetworkConfig
    (IsAllContiguous : smoothl1loss.ForwardProblemDescription → Except miopenStatus_t Bool)
    (p : smoothl1loss.ForwardProblemDescription) : Except miopenStatus_t String := do
  let contiguous ← IsAllContiguous p
  let input_dtype := p.iDesc.GetType
  let target_dtype := p.tDesc.GetType
  let output_dtype := p.oDesc.GetType
  let size := p.iDesc.GetElementSize
  pure ("smoothl1loss_unreduced_fwd" ++ "contiguous" ++ streamBool contiguous ++ "i_dtype"
    ++ toString input_dtype ++ "t_dtype" ++ toString target_dtype ++ "o_dtype"
    ++ toString output_dtype ++ "size" ++ toString size)

/-- The function `smoothl1loss::ReducedBackwardProblemDescription::MakeNetworkConfig`. -/
def smoothl1loss.ReducedBackwardProblemDescription.MakeNetworkConfig
    (p : smoothl1loss.BackwardProblemDescription) : String :=
  let input_dtype := p.iDesc.GetType
  let output_dtype := p.doDesc.GetType
  let size := p.iDesc.GetElementSize
  "smoothl1loss_reduced_bwd" ++ "i_dtype" ++ toString input_dtype ++ "o_dtype"
    ++ toString output_dtype ++ "size" ++ toString size

/-! ## Workspace size of TripletMarginLoss -/

/-- Modelled from the spec: the descriptors that a TripletMarginLoss problem description holds,
in the order of the constructor arguments (`tripletmarginloss/problem_description.hpp` is not
part of the sources at hand). -/
structure tripletmarginloss.ProblemDescription where
  descs : List TensorDescriptor

/-- Modelled from the spec: a registered solver is a stateless unit with an identifier, an
applicability predicate and a workspace size (`miopen/solver.hpp` is not part of the sources at
hand). -/
structure solver.Solver where
  SolverDbId : String
  IsApplicable : tripletmarginloss.ProblemDescription → Bool
  GetWorkspaceSize : tripletmarginloss.ProblemDescription → Nat

/-- Modelled from the spec: `SolverContainer::GetWorkspaceSizes` (declared in
`miopen/find_solution.hpp`, which is not part of the sources at hand) iterates the candidates in
registration order and yields a pair (solver, workspace size) for every applicable one. -/
def solver.SolverContainer.GetWorkspaceSizes (solvers : List solver.Solver)
    (problem : tripletmarginloss.ProblemDescription) : List (String × Nat) :=
  (solvers.filter (fun s => s.IsApplicable problem)).map
    (fun s => (s.SolverDbId, s.GetWorkspaceSize problem))

/-- The value `static_cast<size_t>(-1)`. -/
def unsupportedWorkspaceSize : Nat := wrapUInt64 (-1)

/-- The function `GetTripletMarginLossForwardWorkspaceSize`, with the two registered solvers
`UnreducedForward2d` and `ReducedForward2d` as parameters. -/
def GetTripletMarginLossForwardWorkspaceSize (UnreducedForward2d ReducedForward2d : solver.Solver)
    (aDesc oDesc : TensorDescriptor) : Nat :=
  let problem : tripletmarginloss.ProblemDescription := ⟨[aDesc, aDesc, aDesc, oDesc]⟩
  let pair_size_vector :=
    solver.SolverContainer.GetWorkspaceSizes [UnreducedForward2d, ReducedForward2d] problem
  match pair_size_vector with
  | [] => unsupportedWorkspaceSize
  | front :: _ => front.2

/-- The function `GetTripletMarginLossBackwardWorkspaceSize`, with the two registered solvers
`UnreducedBackward2d` and `ReducedBackward2d` as parameters. -/
def GetTripletMarginLossBackwardWorkspaceSize
    (UnreducedBackward2d ReducedBackward2d : solver.Solver)
    (aDesc dODesc : TensorDescriptor) : Nat :=
  let problem : tripletmarginloss.ProblemDescription :=
    ⟨[aDesc, aDesc, aDesc, dODesc, aDesc, aDesc, aDesc]⟩
  let pair_size_vector :=
    solver.SolverContainer.GetWorkspaceSizes [UnreducedBackward2d, ReducedBackward2d] problem
  match pair_size_vector with
  | [] => unsupportedWorkspaceSize
  | front :: _ => front.2

/-! ## Generator states and draws of the RReLU forward pass -/

/-- The index `gid % num_states` of the generator state that worker `gid` of
`mloRReLUForward5dRunHost` copies, with `int num_states = states.size()`; the remainder is that of
`int` division, and a remainder by zero has no defined result. -/
def mloRReLUForward5dRunHost_state_index (states_size : Nat) (gid : Int) : Option Int :=
  let num_states : Int := wrapInt32 states_size
  if num_states = 0 then none else some (Int.tmod gid num_states)

/-- What a worker of `mloRReLUForward5dRunHost` works on: its copy `curState` of a generator
state and the two result buffers.  The field `draws` counts the calls of `xorwow_next` the worker
has made; it is not a variable of the program. -/
structure ForwardWorkerState (G Tcheck F : Type) where
  curState : G
  output_host : Nat → Tcheck
  noise_host : Nat → F
  draws : Nat

/-- The body of the loop of a worker of `mloRReLUForward5dRunHost` for the flat index `i`.
`xorwow_next` advances the generator and returns a number, `alphaOf r` stands for
`uniform_distribution_emu(r) * (upper - lower) + lower`, `one` for `1.0f`, `isNegative x` for
`static_cast<float>(x) < 0.0f` and `scale x alpha` for `static_cast<Tcheck>(x * alpha)`.  A
negative `i` indexes `noise_host` before its start, which has no defined result. -/
def mloRReLUForward5dRunHost_body {G R Tgpu Tcheck F : Type} (xorwow_next : G → R × G)
    (alphaOf : R → F) (one : F) (isNegative : Tgpu → Bool) (scale : Tgpu → F → Tcheck)
    (input_tv output_tv : tensor_view_t 5) (input : Nat → Tgpu)
    (st : ForwardWorkerState G Tcheck F) (i : Int) : Option (ForwardWorkerState G Tcheck F) := do
  if i < 0 then none
  let layout ← tensor_layout_t input_tv (wrapUInt64 i)
  let Iidx := input_tv.get_tensor_view_idx layout
  let Oidx := output_tv.get_tensor_view_idx layout
  let x := input Iidx
  if isNegative x then
    let r := xorwow_next st.curState
    pure ⟨r.2, Function.update st.output_host Oidx (scale x (alphaOf r.1)),
      Function.update st.noise_host i.toNat (alphaOf r.1), st.draws + 1⟩
  else
    pure ⟨st.curState, Function.update st.output_host Oidx (scale x one),
      Function.update st.noise_host i.toNat one, st.draws⟩

/-- The work of worker `gid` of `mloRReLUForward5dRunHost`: it copies the generator state
`states[gid % num_states]` and runs the body for the flat indices of its loop, in their order. -/
def mloRReLUForward5dRunHost_run {G R Tgpu Tcheck F : Type} (xorwow_next : G → R × G)
    (alphaOf : R → F) (one : F) (isNegative : Tgpu → Bool) (scale : Tgpu → F → Tcheck)
    (states : List G) (input_tv output_tv : tensor_view_t 5) (input : Nat → Tgpu)
    (size : Nat) (num_threads gid : Int) (output_host : Nat → Tcheck) (noise_host : Nat → F) :
    Option (ForwardWorkerState G Tcheck F) := do
  let k ← mloRReLUForward5dRunHost_state_index states.length gid
  if k < 0 then none
  let curState ← states[k.toNat]?
  let visited ← mloRReLUForward5dRunHost_worker size num_threads gid
  visited.foldlM
    (mloRReLUForward5dRunHost_body xorwow_next alphaOf one isNegative scale input_tv output_tv
      input)
    ⟨curState, output_host, noise_host, 0⟩

/-! ## The drivers -/

/-- The reduction modes that the sources at hand name. -/
inductive miopenLossReduction_t where
  | MIOPEN_LOSS_NO_REDUCTION
  | MIOPEN_LOSS_MEAN_REDUCTION
  | MIOPEN_LOSS_SUM_REDUCTION
deriving DecidableEq, Repr

/-- The function `SmoothL1LossDriver::AllocateBuffersAndCopy`: the status it returns and the
value of the member `ws_sizeInBytes` when it returns, for the reduction mode of the driver and
the value `ws_query` that `miopenGetSmoothL1LossWorkspaceSize` has written to `ws_sizeInBytes`.
The allocations, fills and copies after the test print messages and do not change the status. -/
def SmoothL1LossDriver.AllocateBuffersAndCopy (reduction : miopenLossReduction_t)
    (ws_query : Nat) : miopenStatus_t × Nat :=
  if reduction ≠ .MIOPEN_LOSS_NO_REDUCTION ∧ ws_query = wrapUInt64 (-1) then
    (.miopenStatusAllocFailed, ws_query)
  else
    (.miopenStatusSuccess, 0)

/-- The exchange `std::swap(v.front(), v.back())` of the first and the last entry of a vector. -/
def swapFrontBack {α : Type} : List α → List α
  | [] => []
  | [a] => [a]
  | a :: b :: rest => (b :: rest).getLast (List.cons_ne_nil b rest) :: ((b :: rest).dropLast ++ [a])

/-- The loop `for(int i = lengths.size() - 2; i >= 0; --i) strides[i] = strides[i + 1] *
lengths[i + 1];` of the drivers' `GetStrides` over the indices still to visit; the product is a
product of `int`. -/
def GetStrides_loop (lengths : List Int) : List Nat → List Int → Option (List Int)
  | [], strides => some strides
  | i :: rest, strides => do
    let s ← strides[i + 1]?
    let l ← lengths[i + 1]?
    GetStrides_loop lengths rest (strides.set i (wrapInt32 (s * l)))

/-- The function `GetStrides` of the SmoothL1Loss and TripletMarginLoss drivers.  The message
for a flag other than 0 and 1 does not change the result; `front()` and `back()` of an empty
vector have no defined result. -/
def GetStrides (lengths : List Int) (contiguous : Int) : Option (List Int) := do
  if lengths = [] then none
  let lengths := if contiguous = 0 then swapFrontBack lengths else lengths
  let strides := List.replicate lengths.length (0 : Int)
  let strides := strides.set (lengths.length - 1) 1
  let strides ← GetStrides_loop lengths (List.range (lengths.length - 1)).reverse strides
  pure (if contiguous = 0 then swapFrontBack strides else strides)

/-- Modelled from the spec: the descriptor that the drivers set from a list of `int` lengths and
a list of `int` strides (`SetTensorNd` is not part of the sources at hand); the entries are
stored as `size_t`. -/
def SetTensorNd (lengths strides : List Int) (type : Nat) : TensorDescriptor :=
  ⟨lengths.map wrapUInt64, strides.map wrapUInt64, type⟩

/-- The strides of the packed row-major layout of a list of lengths: every stride is the product
of the lengths after it. -/
def packedStrides : List Nat → List Nat
  | [] => []
  | _ :: rest => rest.prod :: packedStrides rest

/-! ## Kernel descriptors and invokers of the reduced backward solvers -/

/-- Modelled from the spec: the fields of `KernelInfo` that `make_hip_kernel` sets
(`miopen/kernel_info.hpp` is not part of the sources at hand). -/
structure KernelInfo where
  comp_options : String
  l_wk : List Nat
  g_wk : List Nat
  kernel_file : String
  kernel_name : String
deriving DecidableEq, Repr

/-- The loop `for(int i = 0; i < localsize.size(); ++i) gridsize[i] = AlignUp(gridsize[i],
localsize[i]);` of `make_hip_kernel` over the indices still to visit; the result is stored in a
`size_t`.  An index past the end of `gridsize` and rounding to a multiple of 0 have no defined
result. -/
def make_hip_kernel_align (localsize : List Nat) : List Nat → List Nat → Option (List Nat)
  | [], gridsize => some gridsize
  | i :: rest, gridsize => do
    let g ← gridsize[i]?
    let l ← localsize[i]?
    if l = 0 then none
    make_hip_kernel_align localsize rest (gridsize.set i (wrapUInt64 (AlignUp g l)))

/-- The function `make_hip_kernel`; `comp_options` stands for
`build_params.GenerateFor(kbp::HIP\x7b\x7d)`. -/
def make_hip_kernel (localsize gridsize : List Nat) (kernel_file kernel_name : String)
    (comp_options : String) : Option KernelInfo := do
  let localsize := localsize ++ List.replicate (3 - localsize.length) 1
  let gridsize := gridsize ++ List.replicate (3 - gridsize.length) 1
  let gridsize ← make_hip_kernel_align localsize (List.range localsize.length) gridsize
  pure ⟨comp_options, localsize, gridsize, kernel_file, kernel_name⟩

/-- The words of the specification: `g` is the smallest multiple of `step` that is at least
`val`. -/
def IsSmallestMultipleAtLeast (step val g : Nat) : Prop :=
  step ∣ g ∧ val ≤ g ∧ ∀ m, step ∣ m → val ≤ m → g ≤ m

/-- The views that the invoker of `bcelogitsloss::ReducedBackward5d::GetSolution` passes to the
kernel, in the order of the kernel arguments. -/
structure bcelogitsloss.ReducedBackward5dViews (V : Type) where
  I_tv : V
  T_tv : V
  W_tv : V
  PW_tv : V
  dI_tv : V
  dT_tv : V

/-- The views that the invoker built by `bcelogitsloss::ReducedBackward5d::GetSolution` forms
from the descriptors of its parameters.  `view` stands for the `get_inner_expanded_tv` of
`miopen/tensor_view_5d.hpp`, which is not part of the sources at hand; the parameters carry the
descriptors of the problem. -/
def solver.bcelogitsloss.ReducedBackward5d.invokerViews {V : Type} (view : TensorDescriptor → V)
    (params : bcelogitsloss.BCELogitsLossBwdProblemDescription) :
    bcelogitsloss.ReducedBackward5dViews V :=
  let I_tv := view params.iDesc
  let T_tv := view params.tDesc
  let W_tv := view params.wDesc
  let PW_tv := view params.pwDesc
  let dI_tv := view params.iDesc
  let dT_tv := view params.tDesc
  ⟨I_tv, T_tv, W_tv, PW_tv, dI_tv, dT_tv⟩

/-- The views that the invoker of `SmoothL1LossReducedBackward5d::GetSolution` passes to the
kernel, in the order of the kernel arguments. -/
structure smoothl1loss.ReducedBackward5dViews (V : Type) where
  I_tv : V
  T_tv : V
  dI_tv : V
  dT_tv : V

/-- The views that the invoker built by `SmoothL1LossReducedBackward5d::GetSolution` forms from
the descriptors of its parameters; `view` is as for BCELogitsLoss. -/
def solver.smoothl1loss.SmoothL1LossReducedBackward5d.invokerViews {V : Type}
    (view : TensorDescriptor → V) (params : smoothl1loss.BackwardProblemDescription) :
    smoothl1loss.ReducedBackward5dViews V :=
  let I_tv := view params.iDesc
  let T_tv := view params.tDesc
  let dI_tv := view params.iDesc
  let dT_tv := view params.tDesc
  ⟨I_tv, T_tv, dI_tv, dT_tv⟩

/-- Modelled from the spec: the predicates of `smoothl1loss::ReducedBackwardProblemDescription`
(`smoothl1loss/problem_description.hpp` is not part of the sources at hand), formed from the
checks of `problem_description.cpp` the way `bcelogitsloss/problem_description.hpp` forms its
predicates: one element type for input, target and their gradients; one list of lengths for them
and the lengths `[1]` for the output gradient; packed strides for each of them. -/
def smoothl1loss.ReducedBackwardProblemDescription.predicates (dev : Bool) :
    smoothl1loss.BackwardPredicates where
  IsSameType := fun p => do
    if !(← smoothl1loss.checkSameType dev p.iDesc p.tDesc) then validationFailure dev
    else if !(← smoothl1loss.checkSameType dev p.iDesc p.diDesc) then validationFailure dev
    else if !(← smoothl1loss.checkSameType dev p.tDesc p.dtDesc) then validationFailure dev
    else pure true
  IsRightLength := fun p => do
    if !(← smoothl1loss.checkSameLength dev p.iDesc p.tDesc) then validationFailure dev
    else if !(← smoothl1loss.checkSameLength dev p.iDesc p.diDesc) then validationFailure dev
    else if !(← smoothl1loss.checkSameLength dev p.tDesc p.dtDesc) then validationFailure dev
    else if p.doDesc.GetSize ≠ 1 ∨ p.doDesc.GetLengths[0]? ≠ some 1 then validationFailure dev
    else pure true
  IsRightStride := fun p => do
    if !(← smoothl1loss.checkRightStride dev p.iDesc) then validationFailure dev
    else if !(← smoothl1loss.checkRightStride dev p.tDesc) then validationFailure dev
    else if !(← smoothl1loss.checkRightStride dev p.doDesc) then validationFailure dev
    else if !(← smoothl1loss.checkRightStride dev p.diDesc) then validationFailure dev
    else if !(← smoothl1loss.checkRightStride dev p.dtDesc) then validationFailure dev
    else pure true

/-! ## Lemmas on `permute_tv` -/

theorem getD_set_true (exist : List Bool) (k j : Nat) (hk : k < exist.length) :
    (exist.set k true).getD j false = false ↔ j ≠ k ∧ exist.getD j false = false := by
  simp only [List.getD_eq_getElem?_getD, List.getElem?_set]
  by_cases hkj : k = j
  · subst hkj
    simp [hk]
  · simp [hkj, Ne.symm hkj]

theorem permute_tv_validate_ok_iff (N : Nat) (p : List Int) :
    ∀ exist : List Bool, exist.length = N →
      (permute_tv_validate N p exist = .ok () ↔
        (∀ x ∈ p, 0 ≤ x ∧ x < (N : Int)) ∧ p.Nodup ∧
          ∀ x ∈ p, exist.getD x.toNat false = false) := by
  induction p with
  | nil => intro exist _; simp [permute_tv_validate]
  | cons idx rest ih =>
    intro exist hlen
    unfold permute_tv_validate
    by_cases hr : idx < 0 ∨ (N : Int) ≤ idx
    · simp only [hr, if_true]
      constructor
      · intro h; cases h
      · rintro ⟨h, _⟩
        have := h idx (List.mem_cons_self _ _)
        omega
    · simp only [hr, if_false]
      have hr0 : 0 ≤ idx := by omega
      have hrN : idx < (N : Int) := by omega
      have hk : idx.toNat < exist.length := by omega
      by_cases he : exist.getD idx.toNat false = true
      · simp only [he, if_true]
        constructor
        · intro h; cases h
        · rintro ⟨_, _, h⟩
          have := h idx (List.mem_cons_self _ _)
          rw [he] at this
          cases this
      · have he2 : exist.getD idx.toNat false = false := by simpa using he
        rw [if_neg he, ih (exist.set idx.toNat true) (by simpa using hlen)]
        constructor
        · rintro ⟨h1, h2, h3⟩
          refine ⟨?_, ?_, ?_⟩
          · intro x hx
            rcases List.mem_cons.mp hx with rfl | hx
            · exact ⟨hr0, hrN⟩
            · exact h1 x hx
          · refine List.nodup_cons.mpr ⟨?_, h2⟩
            intro hmem
            have := ((getD_set_true exist idx.toNat idx.toNat hk).mp (h3 idx hmem)).1
            exact this rfl
          · intro x hx
            rcases List.mem_cons.mp hx with rfl | hx
            · exact he2
            · exact ((getD_set_true exist idx.toNat x.toNat hk).mp (h3 x hx)).2
        · rintro ⟨h1, h2, h3⟩
          have hnd := List.nodup_cons.mp h2
          refine ⟨fun x hx => h1 x (List.mem_cons_of_mem _ hx), hnd.2, ?_⟩
          intro x hx
          refine (getD_set_true exist idx.toNat x.toNat hk).mpr ⟨?_, h3 x (List.mem_cons_of_mem _ hx)⟩
          intro hxi
          have hx0 := (h1 x (List.mem_cons_of_mem _ hx)).1
          have : x = idx := by omega
          exact hnd.1 (this ▸ hx)

theorem getD_replicate_false (N j : Nat) : (List.replicate N false).getD j false = false := by
  simp only [List.getD_eq_getElem?_getD, List.getElem?_replicate]
  split <;> rfl

theorem permute_tv_validate_replicate (N : Nat) (p : List Int) :
    permute_tv_validate N p (List.replicate N false) = .ok () ↔
      (∀ x ∈ p, 0 ≤ x ∧ x < (N : Int)) ∧ p.Nodup := by
  rw [permute_tv_validate_ok_iff N p _ (List.length_replicate _ _)]
  constructor
  · rintro ⟨h1, h2, _⟩; exact ⟨h1, h2⟩
  · rintro ⟨h1, h2⟩; exact ⟨h1, h2, fun x _ => getD_replicate_false N _⟩

theorem permute_tv_error_iff_not_ordering {N : Nat} (v : tensor_view_t N) (p : List Int) :
    (∃ e, permute_tv v p = .error e) ↔ ¬ IsOrdering N p := by
  unfold permute_tv IsOrdering
  by_cases hl : p.length = N
  · have hv := permute_tv_validate_replicate N p
    simp only [hl, ne_eq, not_true_eq_false, if_false, true_and]
    cases hres : permute_tv_validate N p (List.replicate N false) with
    | error e =>
      refine ⟨fun _ h => ?_, fun _ => ⟨e, rfl⟩⟩
      rw [hres] at hv
      have := hv.mpr h
      cases this
    | ok u =>
      cases u
      rw [hres] at hv
      have h := hv.mp rfl
      constructor
      · rintro ⟨e, he⟩; cases he
      · intro hn; exact absurd h hn
  · simp [hl]

/-- Claim C1: The function `permute_tv` throws exactly when the ordering has the wrong length, or has
an entry below `0` or at least `N`, or has an entry that occurs more than once. -/
theorem permute_tv_throws_iff {N : Nat} (v : tensor_view_t N) (p : List Int) :
    (∃ e, permute_tv v p = .error e) ↔
      (p.length ≠ N ∨ (∃ x ∈ p, x < 0 ∨ (N : Int) ≤ x) ∨ ¬ p.Nodup) := by
  rw [permute_tv_error_iff_not_ordering]
  unfold IsOrdering
  constructor
  · intro h
    by_contra hc
    push_neg at hc
    exact h ⟨hc.1, fun x hx => by have := hc.2.1 x hx; omega, hc.2.2⟩
  · rintro h ⟨h1, h2, h3⟩
    rcases h with h | ⟨x, hx, hb⟩ | h
    · exact h h1
    · have := h2 x hx; omega
    · exact h h3

theorem fillArray_of_forall {N : Nat} {α : Type} (f : Fin N → Option α) (g : Fin N → α)
    (h : ∀ i, f i = some (g i)) : fillArray f = some g := by
  unfold fillArray
  have hs : ∀ i, (f i).isSome = true := fun i => by rw [h i]; rfl
  rw [dif_pos hs]
  congr 1
  funext i
  simp [h i]

theorem fillArray_eq_none {N : Nat} {α : Type} (f : Fin N → Option α) (i : Fin N)
    (h : f i = none) : fillArray f = none := by
  unfold fillArray
  rw [dif_neg]
  intro hs
  have := hs i
  rw [h] at this
  cases this

theorem readArray_cast {N : Nat} (a : Fin N → Nat) (j : Fin N) :
    readArray a (j.val : Int) = some (a j) := by
  unfold readArray
  have h : 0 ≤ (j.val : Int) ∧ (j.val : Int) < (N : Int) := ⟨by omega, by have := j.isLt; omega⟩
  rw [dif_pos h]
  simp

/-- Every slot of an ordering names an axis. -/
theorem IsOrdering.exists_axis {N : Nat} {p : List Int} (hp : IsOrdering N p) (i : Fin N) :
    ∃ j : Fin N, p[i.val]? = some (j.val : Int) := by
  obtain ⟨hl, hr, _⟩ := hp
  have hi : i.val < p.length := by rw [hl]; exact i.isLt
  have hx := hr (p[i.val]) (List.getElem_mem hi)
  refine ⟨⟨(p[i.val]).toNat, by omega⟩, ?_⟩
  rw [List.getElem?_eq_getElem hi]
  simp only [Option.some.injEq]
  omega

theorem permute_tv_gather_of_axes {N : Nat} (old : Fin N → Nat) (p : List Int)
    (σ : Fin N → Fin N) (hσ : ∀ i : Fin N, p[i.val]? = some ((σ i).val : Int)) :
    permute_tv_gather old p = some (fun i => old (σ i)) := by
  unfold permute_tv_gather
  apply fillArray_of_forall
  intro i
  rw [hσ i]
  exact readArray_cast old (σ i)

theorem permute_tv_of_axes {N : Nat} (v : tensor_view_t N) (p : List Int) (hp : IsOrdering N p)
    (σ : Fin N → Fin N) (hσ : ∀ i : Fin N, p[i.val]? = some ((σ i).val : Int)) :
    permute_tv v p =
      .ok (some { stride := fun i => v.stride (σ i), size := fun i => v.size (σ i) }) := by
  unfold permute_tv
  rw [if_neg (by simpa using hp.1)]
  have hv := (permute_tv_validate_replicate N p).mpr ⟨hp.2.1, hp.2.2⟩
  rw [hv, permute_tv_gather_of_axes v.stride p σ hσ, permute_tv_gather_of_axes v.size p σ hσ]
  rfl

/-- Claim C2: For an ordering `p` that is a permutation of `0..N-1`, `permute_tv` returns a view
whose axis `i` has the size and the stride of the old axis `p[i]`. -/
theorem permute_tv_takes_axes {N : Nat} (v : tensor_view_t N) (p : List Int)
    (hp : IsOrdering N p) :
    ∃ w : tensor_view_t N, permute_tv v p = .ok (some w) ∧
      ∀ i : Fin N, ∃ j : Fin N, p[i.val]? = some (j.val : Int) ∧
        w.size i = v.size j ∧ w.stride i = v.stride j := by
  choose σ hσ using fun i => hp.exists_axis i
  exact ⟨_, permute_tv_of_axes v p hp σ hσ, fun i => ⟨σ i, hσ i, rfl, rfl⟩⟩

theorem permute_tv_takes_axes_witness :
    IsOrdering 3 [2, 0, 1] ∧
    ∃ w : tensor_view_t 3, permute_tv ⟨![12, 4, 1], ![2, 3, 4]⟩ [2, 0, 1] = .ok (some w) ∧
      ∀ i : Fin 3, ∃ j : Fin 3, ([2, 0, 1] : List Int)[i.val]? = some (j.val : Int) ∧
        w.size i = (![2, 3, 4] : Fin 3 → Nat) j ∧ w.stride i = (![12, 4, 1] : Fin 3 → Nat) j :=
  have h : IsOrdering 3 [2, 0, 1] := ⟨by decide, by decide, by decide⟩
  ⟨h, permute_tv_takes_axes ⟨![12, 4, 1], ![2, 3, 4]⟩ [2, 0, 1] h⟩

theorem IsOrdering.axis_injective {N : Nat} {p : List Int} (hp : IsOrdering N p)
    (σ : Fin N → Fin N) (hσ : ∀ i : Fin N, p[i.val]? = some ((σ i).val : Int)) :
    Function.Injective σ := by
  intro a b hab
  obtain ⟨hl, _, hnd⟩ := hp
  have ha : a.val < p.length := by rw [hl]; exact a.isLt
  have hb : b.val < p.length := by rw [hl]; exact b.isLt
  have h1 := hσ a
  have h2 := hσ b
  rw [List.getElem?_eq_getElem ha] at h1
  rw [List.getElem?_eq_getElem hb] at h2
  have h3 : p[a.val] = p[b.val] := by
    have e1 := Option.some.inj h1
    have e2 := Option.some.inj h2
    rw [e1, e2, hab]
  exact Fin.ext ((hnd.getElem_inj_iff).mp h3)

/-- A list that undoes an ordering slot by slot is itself an ordering. -/
theorem IsOrdering.of_left_inverse {N : Nat} {q : List Int} (hq : q.length = N)
    (τ : Fin N → Fin N) (hτ : ∀ j : Fin N, q[j.val]? = some ((τ j).val : Int))
    (hinj : Function.Injective τ) : IsOrdering N q := by
  refine ⟨hq, ?_, ?_⟩
  · intro x hx
    obtain ⟨n, hn, hxn⟩ := List.mem_iff_getElem.mp hx
    have h := hτ ⟨n, by omega⟩
    rw [List.getElem?_eq_getElem hn] at h
    have e := Option.some.inj h
    simp only at e
    have := (τ ⟨n, by omega⟩).isLt
    omega
  · rw [List.nodup_iff_getElem?_ne_getElem?]
    intro i j hij hj heq
    have h1 := hτ ⟨i, by omega⟩
    have h2 := hτ ⟨j, by omega⟩
    simp only at h1 h2
    rw [heq, h2] at h1
    have e := Option.some.inj h1
    have e2 : τ ⟨j, by omega⟩ = τ ⟨i, by omega⟩ := Fin.ext (by omega)
    have := congrArg Fin.val (hinj e2)
    simp only at this
    omega

/-- Claim C3: Permuting a view with an ordering `p` and then with the inverse ordering `q`
(`q[p[i]] = i` for every `i`) returns the size and stride arrays of the original view. -/
theorem permute_tv_inverse {N : Nat} (v : tensor_view_t N) (p q : List Int)
    (hp : IsOrdering N p) (hq : q.length = N)
    (hinv : ∀ i j : Fin N, p[i.val]? = some (j.val : Int) → q[j.val]? = some (i.val : Int)) :
    ∃ w u : tensor_view_t N, permute_tv v p = .ok (some w) ∧ permute_tv w q = .ok (some u) ∧
      (∀ i, u.size i = v.size i) ∧ (∀ i, u.stride i = v.stride i) := by
  choose σ hσ using fun i => hp.exists_axis i
  have hinj : Function.Injective σ := hp.axis_injective σ hσ
  have hsurj : Function.Surjective σ := Finite.injective_iff_surjective.mp hinj
  choose τ hτ using hsurj
  have hqτ : ∀ j : Fin N, q[j.val]? = some ((τ j).val : Int) := by
    intro j
    have := hinv (τ j) j (by rw [hσ (τ j), hτ j])
    exact this
  have hτinj : Function.Injective τ := by
    intro a b hab
    rw [← hτ a, ← hτ b, hab]
  have hqo : IsOrdering N q := IsOrdering.of_left_inverse hq τ hqτ hτinj
  refine ⟨_, _, permute_tv_of_axes v p hp σ hσ, permute_tv_of_axes _ q hqo τ hqτ, ?_, ?_⟩
  · intro i; simp only [hτ i]
  · intro i; simp only [hτ i]

theorem permute_tv_inverse_witness :
    ∃ w u : tensor_view_t 3,
      permute_tv ⟨![12, 4, 1], ![2, 3, 4]⟩ [2, 0, 1] = .ok (some w) ∧
      permute_tv w [1, 2, 0] = .ok (some u) ∧
      (∀ i, u.size i = (![2, 3, 4] : Fin 3 → Nat) i) ∧
      (∀ i, u.stride i = (![12, 4, 1] : Fin 3 → Nat) i) :=
  permute_tv_inverse ⟨![12, 4, 1], ![2, 3, 4]⟩ [2, 0, 1] [1, 2, 0]
    ⟨by decide, by decide, by decide⟩ (by decide) (by decide)

/-! ## Lemmas on `slice_tv` -/

theorem wrapInt32_of_range (x : Int) (h0 : -2 ^ 31 ≤ x) (h1 : x < 2 ^ 31) : wrapInt32 x = x := by
  unfold wrapInt32
  omega

theorem wrapUInt64_of_range (x : Int) (h0 : 0 ≤ x) (h1 : x < 2 ^ 64) :
    (wrapUInt64 x : Int) = x := by
  unfold wrapUInt64
  rw [Int.emod_eq_of_lt h0 h1]
  exact Int.toNat_of_nonneg h0

theorem wrapUInt64_of_neg (x : Int) (h0 : -2 ^ 64 ≤ x) (h1 : x < 0) :
    (wrapUInt64 x : Int) = 2 ^ 64 + x := by
  unfold wrapUInt64
  have h : x % 2 ^ 64 = 2 ^ 64 + x := by omega
  rw [h]
  exact Int.toNat_of_nonneg (by omega)

theorem slice_tv_one {N : Nat} (v : tensor_view_t N) (slices : List Int) :
    slice_tv v 1 slices = slice_tv_body v slices 0 := by
  have h : List.range (1 : Int).toNat = [0] := rfl
  unfold slice_tv
  rw [h]
  simp

/-- The value of `slice_tv` on a single slice, one assignment after the other. -/
theorem slice_tv_single {N : Nat} (v : tensor_view_t N) (a : Fin N) (start end_ step : Int) :
    slice_tv v 1 [(a.val : Int), start, end_, step] =
      if step = 0 ∨
          (wrapInt32 (wrapInt32 (wrapInt32
            ((if end_ > wrapInt32 (v.size a) then wrapInt32 (v.size a) else end_) - start)
              + step) - 1) = -2 ^ 31 ∧ step = -1) then none
      else
        some
          { size := Function.update v.size a (wrapUInt64 (Int.tdiv (wrapInt32 (wrapInt32 (wrapInt32
              ((if end_ > wrapInt32 (v.size a) then wrapInt32 (v.size a) else end_) - start)
                + step) - 1)) step))
            stride := Function.update v.stride a (wrapUInt64 ((v.stride a : Int) * step)) } := by
  have ha : 0 ≤ (a.val : Int) ∧ (a.val : Int) < (N : Int) :=
    ⟨by omega, by have := a.isLt; omega⟩
  have hfin : (⟨(a.val : Int).toNat, by omega⟩ : Fin N) = a := Fin.ext (by simp)
  have h0 : [(a.val : Int), start, end_, step][4 * 0 + 0]? = some (a.val : Int) := rfl
  have h1 : [(a.val : Int), start, end_, step][4 * 0 + 1]? = some start := rfl
  have h2 : [(a.val : Int), start, end_, step][4 * 0 + 2]? = some end_ := rfl
  have h3 : [(a.val : Int), start, end_, step][4 * 0 + 3]? = some step := rfl
  rw [slice_tv_one]
  unfold slice_tv_body
  rw [h0, h1, h2, h3]
  simp only [Option.bind_eq_bind, Option.some_bind, dif_pos ha, hfin]

theorem ceil_div_eq (len step : Int) (hstep : 0 < step) :
    ⌈((len : Int) : ℚ) / (step : ℚ)⌉ = (len + step - 1) / step := by
  have hs : (0 : ℚ) < (step : ℚ) := by exact_mod_cast hstep
  have h1 : (len + step - 1) / step * step ≤ len + step - 1 :=
    Int.ediv_mul_le _ (by omega)
  have h2 : len + step - 1 < ((len + step - 1) / step + 1) * step :=
    Int.lt_ediv_add_one_mul_self _ hstep
  generalize (len + step - 1) / step = z at h1 h2
  rw [Int.ceil_eq_iff]
  constructor
  · rw [lt_div_iff₀ hs]
    have h : (z - 1) * step < len := by nlinarith
    exact_mod_cast h
  · rw [div_le_iff₀ hs]
    have h : len ≤ z * step := by nlinarith
    exact_mod_cast h

/-- Claim C4, as amended: For a single slice with `step > 0` and `start ≤ min(end, size[axis])`,
the old size and the step in `int32_t` range, the sum `len + step - 1` that the code forms in
`int32_t` below `2^31` and the product of stride and step in `uint64_t` range, `slice_tv` stores
`ceil((min(end, size[axis]) - start) / step)` in `size[axis]` and `stride[axis] * step` in
`stride[axis]`, and leaves the other axes alone.  The lower bound `0 ≤ start` of the claim is
not needed. -/
theorem slice_tv_narrows {N : Nat} (v : tensor_view_t N) (a : Fin N) (start end_ step : Int)
    (hstep : 0 < step) (hle : start ≤ min end_ (v.size a))
    (hsize : (v.size a : Int) < 2 ^ 31) (hstep32 : step < 2 ^ 31)
    (hsum : min end_ (v.size a) - start + step - 1 < 2 ^ 31)
    (hstride : (v.stride a : Int) * step < 2 ^ 64) :
    ∃ w : tensor_view_t N, slice_tv v 1 [(a.val : Int), start, end_, step] = some w ∧
      (w.size a : Int) = ⌈((min end_ (v.size a) - start : Int) : ℚ) / (step : ℚ)⌉ ∧
      (w.stride a : Int) = (v.stride a : Int) * step ∧
      ∀ i, i ≠ a → w.size i = v.size i ∧ w.stride i = v.stride i := by
  have hsz : wrapInt32 (v.size a) = (v.size a : Int) :=
    wrapInt32_of_range _ (by omega) hsize
  have hmin : (if end_ > wrapInt32 (v.size a) then wrapInt32 (v.size a) else end_)
      = min end_ (v.size a) := by
    rw [hsz]
    split <;> omega
  have hnum : wrapInt32 (wrapInt32 (wrapInt32 (min end_ (v.size a) - start) + step) - 1)
      = min end_ (v.size a) - start + step - 1 := by
    unfold wrapInt32
    omega
  have hnn : 0 ≤ min end_ (v.size a) - start + step - 1 := by omega
  rw [slice_tv_single, hmin, hnum, if_neg (by omega), Int.tdiv_eq_ediv hnn (le_of_lt hstep)]
  refine ⟨_, rfl, ?_, ?_, ?_⟩
  · simp only [Function.update_same]
    rw [ceil_div_eq _ _ hstep]
    apply wrapUInt64_of_range
    · exact Int.ediv_nonneg hnn (le_of_lt hstep)
    · have : (min end_ (v.size a) - start + step - 1) / step
          ≤ min end_ (v.size a) - start + step - 1 := Int.ediv_le_self _ hnn
      omega
  · simp only [Function.update_same]
    exact wrapUInt64_of_range _ (Int.mul_nonneg (Int.ofNat_nonneg _) (le_of_lt hstep)) hstride
  · intro i hi
    simp only [Function.update_noteq hi, and_self]

theorem slice_tv_narrows_witness :
    ∃ w : tensor_view_t 3, slice_tv ⟨![12, 4, 1], ![2, 3, 4]⟩ 1 [((2 : Fin 3).val : Int), 1, 9, 2]
        = some w ∧
      (w.size 2 : Int) = ⌈((min 9 ((![2, 3, 4] : Fin 3 → Nat) 2) - 1 : Int) : ℚ) / ((2 : Int) : ℚ)⌉ ∧
      (w.stride 2 : Int) = ((![12, 4, 1] : Fin 3 → Nat) 2 : Int) * 2 ∧
      ∀ i, i ≠ 2 → w.size i = (![2, 3, 4] : Fin 3 → Nat) i ∧
        w.stride i = (![12, 4, 1] : Fin 3 → Nat) i :=
  slice_tv_narrows ⟨![12, 4, 1], ![2, 3, 4]⟩ 2 1 9 2 (by decide) (by decide) (by decide)
    (by decide) (by decide) (by decide)

/-- The bound on `len + step - 1` is needed for the ceiling formula: with size `2^31 - 1`, `start = 0`,
`end = 2^31 - 1` and `step = 2` the sum leaves the `int32_t` range and the stored size is
`2^64 - 2^30`, not `2^30`. -/
theorem slice_tv_sum_wraps :
    (slice_tv (N := 1) ⟨![1], ![2147483647]⟩ 1 [0, 0, 2147483647, 2]).map (fun w => w.size 0)
      = some 18446744072635809792 := by
  decide

/-- The slice of the counterexample to C4: on an axis of size `2^31 - 1` the slice
`(axis, 0, 2^31 - 1, 2)` has `step > 0`, `0 ≤ start ≤ min(end, size[axis])` and all four values
and the size in `int32_t` range; the ceiling of `(2^31 - 1) / 2` is `2^30`, and `slice_tv`
stores `2^64 - 2^30`, because the sum `len + step - 1` that it forms in `int32_t` is `2^31`. -/
theorem slice_tv_ceiling_overflows :
    (0 : Int) < 2 ∧ (0 : Int) ≤ 0 ∧ (0 : Int) ≤ min 2147483647 ((2147483647 : Nat) : Int) ∧
      (2147483647 : Int) < 2 ^ 31 ∧ (2 : Int) < 2 ^ 31 ∧
      ⌈(((min 2147483647 ((2147483647 : Nat) : Int) - 0 : Int)) : ℚ) / ((2 : Int) : ℚ)⌉
        = 1073741824 ∧
      (slice_tv (N := 1) ⟨![1], ![2147483647]⟩ 1 [0, 0, 2147483647, 2]).map
        (fun w => (w.size 0, w.stride 0)) = some (18446744072635809792, 2) := by
  refine ⟨by decide, by decide, by decide, by decide, by decide, ?_, by decide⟩
  rw [ceil_div_eq _ _ (by decide)]
  decide

/-- The slice of the counterexample to C5 is one the claim wants rejected, and `slice_tv` returns
a view for it, with the size `-1` stored as `2^64 - 1`. -/
theorem slice_tv_accepts_negative_size :
    (1 : Int) > min 0 ((![2, 3, 4] : Fin 3 → Nat) 2) ∧
    ∃ w : tensor_view_t 3, slice_tv ⟨![12, 4, 1], ![2, 3, 4]⟩ 1 [2, 1, 0, 1] = some w ∧
      w.size 2 = 18446744073709551615 := by
  refine ⟨by decide, _, slice_tv_single ⟨![12, 4, 1], ![2, 3, 4]⟩ 2 1 0 1, ?_⟩
  decide

/-- Claim C5, as amended: The function `slice_tv` has no rejection path: for a single slice with
`step > 0` and `start > min(end, size[axis])` (the values and their difference in `int32_t`
range) it returns a view, in which `size[axis]` holds the truncated `int32_t` quotient
`(min(end, size[axis]) - start + step - 1) / step` converted to `uint64_t`, so that a negative
quotient `q` is stored as `2^64 + q`. -/
theorem slice_tv_never_rejects {N : Nat} (v : tensor_view_t N) (a : Fin N) (start end_ step : Int)
    (hstep : 0 < step) (hgt : start > min end_ (v.size a))
    (hsize : (v.size a : Int) < 2 ^ 31) (hstep32 : step < 2 ^ 31)
    (hlen : -2 ^ 31 ≤ min end_ (v.size a) - start) :
    ∃ w : tensor_view_t N, slice_tv v 1 [(a.val : Int), start, end_, step] = some w ∧
      (w.size a : Int)
        = Int.tdiv (min end_ (v.size a) - start + step - 1) step % 2 ^ 64 ∧
      (Int.tdiv (min end_ (v.size a) - start + step - 1) step < 0 →
        (w.size a : Int)
          = 2 ^ 64 + Int.tdiv (min end_ (v.size a) - start + step - 1) step) := by
  have hsz : wrapInt32 (v.size a) = (v.size a : Int) :=
    wrapInt32_of_range _ (by omega) hsize
  have hmin : (if end_ > wrapInt32 (v.size a) then wrapInt32 (v.size a) else end_)
      = min end_ (v.size a) := by
    rw [hsz]
    split <;> omega
  have hnum : wrapInt32 (wrapInt32 (wrapInt32 (min end_ (v.size a) - start) + step) - 1)
      = min end_ (v.size a) - start + step - 1 := by
    unfold wrapInt32
    omega
  rw [slice_tv_single, hmin, hnum, if_neg (by omega)]
  refine ⟨_, rfl, ?_, ?_⟩
  · simp only [Function.update_same]
    unfold wrapUInt64
    exact Int.toNat_of_nonneg (Int.emod_nonneg _ (by norm_num))
  · intro hq
    simp only [Function.update_same]
    apply wrapUInt64_of_neg _ _ hq
    have h1 : (Int.tdiv (min end_ (v.size a) - start + step - 1) step).natAbs
        ≤ (min end_ (v.size a) - start + step - 1).natAbs := by
      rw [Int.natAbs_tdiv]
      exact Nat.div_le_self _ _
    omega

theorem slice_tv_never_rejects_witness :
    ∃ w : tensor_view_t 3, slice_tv ⟨![12, 4, 1], ![2, 3, 4]⟩ 1 [((2 : Fin 3).val : Int), 5, 0, 2]
        = some w ∧
      (w.size 2 : Int) = Int.tdiv (min 0 ((![2, 3, 4] : Fin 3 → Nat) 2) - 5 + 2 - 1) 2 % 2 ^ 64 ∧
      (Int.tdiv (min 0 ((![2, 3, 4] : Fin 3 → Nat) 2) - 5 + 2 - 1) 2 < 0 →
        (w.size 2 : Int) = 2 ^ 64 + Int.tdiv (min 0 ((![2, 3, 4] : Fin 3 → Nat) 2) - 5 + 2 - 1) 2) :=
  slice_tv_never_rejects ⟨![12, 4, 1], ![2, 3, 4]⟩ 2 5 0 2 (by decide) (by decide) (by decide)
    (by decide) (by decide)

theorem wrapUInt64_natCast (n : Nat) (h : n < 2 ^ 64) : wrapUInt64 (n : Int) = n := by
  have := wrapUInt64_of_range (n : Int) (Int.ofNat_nonneg _) (by exact_mod_cast h)
  exact_mod_cast this

/-- Claim C6: For a view of `uint64_t` entries and an axis whose size is representable as `int32_t`,
the single slice `(axis, 0, size[axis], 1)` returns the view unchanged. -/
theorem slice_tv_full_axis {N : Nat} (v : tensor_view_t N) (a : Fin N)
    (hsize : (v.size a : Int) < 2 ^ 31) (hstride : v.stride a < 2 ^ 64) :
    slice_tv v 1 [(a.val : Int), 0, (v.size a : Int), 1] = some v := by
  have hsz : wrapInt32 (v.size a) = (v.size a : Int) :=
    wrapInt32_of_range _ (by omega) hsize
  have hnum : wrapInt32 (wrapInt32 (wrapInt32 ((v.size a : Int) - 0) + 1) - 1)
      = (v.size a : Int) := by
    unfold wrapInt32
    omega
  rw [slice_tv_single, hsz, if_neg (lt_irrefl _), hnum, if_neg (by omega), Int.tdiv_one,
    Int.mul_one, wrapUInt64_natCast _ hstride, wrapUInt64_natCast _ (by omega),
    Function.update_eq_self, Function.update_eq_self]

theorem slice_tv_full_axis_witness :
    slice_tv (N := 3) ⟨![12, 4, 1], ![2, 3, 4]⟩ 1
        [((1 : Fin 3).val : Int), 0, (((![2, 3, 4] : Fin 3 → Nat) 1 : Nat) : Int), 1]
      = some ⟨![12, 4, 1], ![2, 3, 4]⟩ :=
  slice_tv_full_axis ⟨![12, 4, 1], ![2, 3, 4]⟩ 1 (by decide) (by decide)

/-! ## Lemmas on `get_inner_expanded_tv` -/

theorem get_inner_expanded_tv_slot_real (dims strides : List Nat) (i : Nat)
    (hlen : strides.length = dims.length) (hi : i < dims.length) :
    ∃ s d, get_inner_expanded_tv_slot dims strides i = some (s, d) ∧
      strides[i]? = some s ∧ dims[i]? = some d := by
  have hs : i < strides.length := by omega
  refine ⟨strides[i], dims[i], ?_, List.getElem?_eq_getElem hs, List.getElem?_eq_getElem hi⟩
  unfold get_inner_expanded_tv_slot
  rw [if_pos hi, List.getElem?_eq_getElem hs, List.getElem?_eq_getElem hi]
  rfl

theorem get_inner_expanded_tv_slot_first_pad (dims strides : List Nat)
    (hlen : strides.length = dims.length) :
    ∃ s, get_inner_expanded_tv_slot dims strides dims.length = some (s, 1) := by
  unfold get_inner_expanded_tv_slot
  rw [if_neg (lt_irrefl _)]
  by_cases h0 : dims.length = 0
  · exact ⟨1, by rw [if_pos h0]; rfl⟩
  · have hs : dims.length - 1 < strides.length := by omega
    exact ⟨strides[dims.length - 1], by rw [if_neg h0, List.getElem?_eq_getElem hs]; rfl⟩

theorem get_inner_expanded_tv_slot_later_pad (dims strides : List Nat) (i : Nat)
    (hlen : strides.length = dims.length) (hi : dims.length < i) :
    strides[i - 1]? = none ∧ get_inner_expanded_tv_slot dims strides i = none := by
  have hn : strides[i - 1]? = none := List.getElem?_eq_none (by omega)
  refine ⟨hn, ?_⟩
  unfold get_inner_expanded_tv_slot
  rw [if_neg (by omega), if_neg (by omega), hn]
  rfl

theorem get_inner_expanded_tv_rank5 (a b c d e s0 s1 s2 s3 s4 t : Nat) :
    get_inner_expanded_tv 5 ⟨[a, b, c, d, e], [s0, s1, s2, s3, s4], t⟩
      = some ⟨![s0, s1, s2, s3, s4], ![a, b, c, d, e]⟩ := by
  unfold get_inner_expanded_tv
  simp only [TensorDescriptor.GetLengths, TensorDescriptor.GetStrides]
  rw [fillArray_of_forall _ (fun i => (![s0, s1, s2, s3, s4] i, ![a, b, c, d, e] i))
    (by intro i; fin_cases i <;> rfl)]
  rfl

theorem get_inner_expanded_tv_rank4 (a b c d s0 s1 s2 s3 t : Nat) :
    get_inner_expanded_tv 5 ⟨[a, b, c, d], [s0, s1, s2, s3], t⟩
      = some ⟨![s0, s1, s2, s3, s3], ![a, b, c, d, 1]⟩ := by
  unfold get_inner_expanded_tv
  simp only [TensorDescriptor.GetLengths, TensorDescriptor.GetStrides]
  rw [fillArray_of_forall _ (fun i => (![s0, s1, s2, s3, s3] i, ![a, b, c, d, 1] i))
    (by intro i; fin_cases i <;> rfl)]
  rfl

/-- The descriptor of the counterexample to C7 has rank 4; in the view of 5 slots its axes fill
slots 0 to 3 and slot 4 is the padded one.  Right alignment would put size 1 in the leading slot 0
and the size 2 and stride 60 of axis 0 in slot 1. -/
theorem get_inner_expanded_tv_not_right_aligned :
    ∃ v : tensor_view_t 5,
      get_inner_expanded_tv 5 ⟨[2, 3, 4, 5], [60, 20, 5, 1], 0⟩ = some v ∧
      v.size 0 ≠ 1 ∧ v.size 1 ≠ 2 ∧ v.stride 1 ≠ 60 ∧
      (List.ofFn v.size, List.ofFn v.stride) = ([2, 3, 4, 5, 1], [60, 20, 5, 1, 1]) :=
  ⟨_, get_inner_expanded_tv_rank4 2 3 4 5 60 20 5 1 0, by decide, by decide, by decide, by decide⟩

/-- Claim C7, as amended: For a descriptor of rank `r` with `N - 1 ≤ r`, the view built by
`get_inner_expanded_tv<N>` is left-aligned: slot `k` holds the size and stride of descriptor
axis `k` for every `k < r`, and every slot from `r` on has size 1. -/
theorem get_inner_expanded_tv_left_aligned (N : Nat) (Desc : TensorDescriptor)
    (hlen : Desc.strides.length = Desc.lens.length) (hN : N ≤ Desc.lens.length + 1) :
    ∃ v : tensor_view_t N, get_inner_expanded_tv N Desc = some v ∧
      (∀ k : Fin N, k.val < Desc.lens.length →
        Desc.lens[k.val]? = some (v.size k) ∧ Desc.strides[k.val]? = some (v.stride k)) ∧
      (∀ k : Fin N, Desc.lens.length ≤ k.val → v.size k = 1) := by
  have hslot : ∀ i : Fin N, ∃ sd : Nat × Nat,
      get_inner_expanded_tv_slot Desc.lens Desc.strides i.val = some sd ∧
      (i.val < Desc.lens.length →
        Desc.lens[i.val]? = some sd.2 ∧ Desc.strides[i.val]? = some sd.1) ∧
      (Desc.lens.length ≤ i.val → sd.2 = 1) := by
    intro i
    by_cases hi : i.val < Desc.lens.length
    · obtain ⟨s, d, h1, h2, h3⟩ := get_inner_expanded_tv_slot_real Desc.lens Desc.strides i.val hlen hi
      exact ⟨(s, d), h1, fun _ => ⟨h3, h2⟩, fun h => by omega⟩
    · have hi2 : i.val = Desc.lens.length := by have := i.isLt; omega
      obtain ⟨s, h1⟩ := get_inner_expanded_tv_slot_first_pad Desc.lens Desc.strides hlen
      exact ⟨(s, 1), by rw [hi2]; exact h1, fun h => by omega, fun _ => rfl⟩
  choose g hg using hslot
  refine ⟨{ stride := fun i => (g i).1, size := fun i => (g i).2 }, ?_, ?_, ?_⟩
  · unfold get_inner_expanded_tv
    simp only [TensorDescriptor.GetLengths, TensorDescriptor.GetStrides]
    rw [fillArray_of_forall _ g (fun i => (hg i).1)]
    rfl
  · intro k hk
    exact (hg k).2.1 hk
  · intro k hk
    exact (hg k).2.2 hk

theorem get_inner_expanded_tv_left_aligned_witness :
    ∃ v : tensor_view_t 5, get_inner_expanded_tv 5 ⟨[2, 3, 4, 5], [60, 20, 5, 1], 0⟩ = some v ∧
      (∀ k : Fin 5, k.val < 4 →
        ([2, 3, 4, 5] : List Nat)[k.val]? = some (v.size k) ∧
          ([60, 20, 5, 1] : List Nat)[k.val]? = some (v.stride k)) ∧
      (∀ k : Fin 5, 4 ≤ k.val → v.size k = 1) :=
  get_inner_expanded_tv_left_aligned 5 ⟨[2, 3, 4, 5], [60, 20, 5, 1], 0⟩ rfl (by decide)

/-- Claim C8, where the code departs from it: at a descriptor of rank `r` with `r < N - 1`, for
slot `r + 1` the loop body reads `strides[r]`, which lies outside the stride sequence of length
`r`, so that `get_inner_expanded_tv<N>` has no defined result. -/
theorem get_inner_expanded_tv_reads_outside (N : Nat) (Desc : TensorDescriptor)
    (hlen : Desc.strides.length = Desc.lens.length) (hN : Desc.lens.length + 1 < N) :
    Desc.GetStrides[(Desc.lens.length + 1) - 1]? = none ∧
      get_inner_expanded_tv_slot Desc.GetLengths Desc.GetStrides (Desc.lens.length + 1) = none ∧
      get_inner_expanded_tv N Desc = none := by
  obtain ⟨h1, h2⟩ := get_inner_expanded_tv_slot_later_pad Desc.lens Desc.strides
    (Desc.lens.length + 1) hlen (Nat.lt_succ_self _)
  refine ⟨h1, h2, ?_⟩
  unfold get_inner_expanded_tv
  simp only [TensorDescriptor.GetLengths, TensorDescriptor.GetStrides]
  rw [fillArray_eq_none _ ⟨Desc.lens.length + 1, hN⟩ h2]
  rfl

theorem get_inner_expanded_tv_reads_outside_witness :
    get_inner_expanded_tv 5 ⟨[4], [1], 0⟩ = none :=
  (get_inner_expanded_tv_reads_outside 5 ⟨[4], [1], 0⟩ rfl (by decide)).2.2

/-- At the contiguous descriptor with sizes `[4, 3]` and strides `[3, 1]`, of 12 elements, slot 3
of the view of 5 slots reads `strides[2]`, past the end of the stride vector: with such a read
taken as undefined the view has no defined result. -/
theorem get_inner_expanded_tv_contiguous_rank2 :
    IsContiguous ⟨[4, 3], [3, 1], 0⟩ ∧
      TensorDescriptor.GetElementSize ⟨[4, 3], [3, 1], 0⟩ = 12 ∧
      get_inner_expanded_tv_slot [4, 3] [3, 1] 3 = none ∧
      get_inner_expanded_tv 5 ⟨[4, 3], [3, 1], 0⟩ = none := by
  refine ⟨⟨rfl, by decide⟩, rfl, rfl, Option.isNone_iff_eq_none.mp (by decide)⟩

/-! ## Round trip through a packed five-slot view -/

theorem tensor_layout_t_of_pos {N : Nat} (v : tensor_view_t N) (idx : Nat)
    (hpos : ∀ k : Fin N, 0 < k.val → 0 < v.size k) :
    tensor_layout_t v idx = some (fun k =>
      if k.val = 0 then tensor_layout_rest v idx (N - 1)
      else tensor_layout_rest v idx (N - 1 - k.val) % v.size k) := by
  unfold tensor_layout_t
  rw [if_neg]
  rintro ⟨k, hk, h0⟩
  have := hpos k hk
  omega

/-- Decomposing a flat index over a packed view of five slots and encoding the coordinate again
through the strides of the view gives the index back. -/
theorem roundtrip_packed (v : tensor_view_t 5) (idx : Nat) (hidx : idx < 2 ^ 64)
    (hpos : ∀ k : Fin 5, 0 < k.val → 0 < v.size k)
    (h4 : v.stride 4 = 1) (h3 : v.stride 3 = v.size 4) (h2 : v.stride 2 = v.size 3 * v.size 4)
    (h1 : v.stride 1 = v.size 2 * (v.size 3 * v.size 4))
    (h0 : v.stride 0 = v.size 1 * (v.size 2 * (v.size 3 * v.size 4))) :
    ∃ l, tensor_layout_t v idx = some l ∧ v.get_tensor_view_idx l = idx := by
  refine ⟨_, tensor_layout_t_of_pos v idx hpos, ?_⟩
  unfold tensor_view_t.get_tensor_view_idx
  have e4 : v.sizeAt 4 = v.size 4 := rfl
  have e3 : v.sizeAt 3 = v.size 3 := rfl
  have e2 : v.sizeAt 2 = v.size 2 := rfl
  have e1 : v.sizeAt 1 = v.size 1 := rfl
  simp only [List.ofFn_succ, List.ofFn_zero, List.sum_cons, List.sum_nil, tensor_layout_rest,
    h0, h1, h2, h3, h4]
  have f3 : (Fin.succ 2 : Fin 5) = 3 := rfl
  have f4 : (Fin.succ (Fin.succ 2) : Fin 5) = 4 := rfl
  simp +decide only [Fin.val_zero, Fin.val_succ, Fin.succ_zero_eq_one, Fin.succ_one_eq_two,
    if_true, if_false, e1, e2, e3, e4, f3, f4, h1, h2, h3, h4, Nat.add_zero]
  have d4 := Nat.div_add_mod idx (v.size 4)
  have d3 := Nat.div_add_mod (idx / v.size 4) (v.size 3)
  have d2 := Nat.div_add_mod (idx / v.size 4 / v.size 3) (v.size 2)
  have d1 := Nat.div_add_mod (idx / v.size 4 / v.size 3 / v.size 2) (v.size 1)
  generalize idx / v.size 4 / v.size 3 / v.size 2 / v.size 1 = q1 at d1 ⊢
  generalize idx / v.size 4 / v.size 3 / v.size 2 % v.size 1 = r1 at d1 ⊢
  generalize idx / v.size 4 / v.size 3 / v.size 2 = q2 at d1 d2 ⊢
  generalize idx / v.size 4 / v.size 3 % v.size 2 = r2 at d2 ⊢
  generalize idx / v.size 4 / v.size 3 = q3 at d2 d3 ⊢
  generalize idx / v.size 4 % v.size 3 = r3 at d3 ⊢
  generalize idx / v.size 4 = q4 at d3 d4 ⊢
  generalize idx % v.size 4 = r4 at d4 ⊢
  have hsum : v.size 1 * (v.size 2 * (v.size 3 * v.size 4)) * q1 +
      (v.size 2 * (v.size 3 * v.size 4) * r1 +
        (v.size 3 * v.size 4 * r2 + (v.size 4 * r3 + 1 * r4))) = idx := by
    rw [← d4, ← d3, ← d2, ← d1]
    ring
  rw [hsum]
  exact Nat.mod_eq_of_lt hidx

/-- For a contiguous descriptor of rank 4 or 5 with `E < 2^64` elements, where the view of five
slots is defined, every flat index below `E` is decomposed over the view and encoded again to
itself. -/
theorem roundtrip_contiguous_rank_4_5 (Desc : TensorDescriptor) (idx : Nat)
    (hc : IsContiguous Desc) (hr : Desc.lens.length = 4 ∨ Desc.lens.length = 5)
    (hE : Desc.GetElementSize < 2 ^ 64) (hidx : idx < Desc.GetElementSize) :
    ∃ v l, get_inner_expanded_tv 5 Desc = some v ∧ tensor_layout_t v idx = some l ∧
      v.get_tensor_view_idx l = idx := by
  obtain ⟨lens, strides, t⟩ := Desc
  obtain ⟨hlen, hst⟩ := hc
  simp only [TensorDescriptor.GetElementSize] at hE hidx
  simp only at hlen hst hr
  have hi64 : idx < 2 ^ 64 := lt_trans hidx hE
  rcases hr with hr | hr
  · obtain ⟨a, b, c, d, rfl⟩ : ∃ a b c d, lens = [a, b, c, d] := by
      rcases lens with _ | ⟨a, _ | ⟨b, _ | ⟨c, _ | ⟨d, _ | ⟨e, tl⟩⟩⟩⟩⟩ <;> simp at hr
      exact ⟨a, b, c, d, rfl⟩
    obtain ⟨s0, s1, s2, s3, rfl⟩ : ∃ a b c d, strides = [a, b, c, d] := by
      rcases strides with _ | ⟨a, _ | ⟨b, _ | ⟨c, _ | ⟨d, _ | ⟨e, tl⟩⟩⟩⟩⟩ <;> simp at hlen
      exact ⟨a, b, c, d, rfl⟩
    have e0 := hst 0 (by simp)
    have e1 := hst 1 (by simp)
    have e2 := hst 2 (by simp)
    have e3 := hst 3 (by simp)
    simp at e0 e1 e2 e3
    have hpos : 0 < a * (b * (c * d)) := by
      have : idx < a * (b * (c * d)) := by simpa [List.prod_cons] using hidx
      omega
    have hb : 0 < b := Nat.pos_of_ne_zero (by rintro rfl; simp at hpos)
    have hcp : 0 < c := Nat.pos_of_ne_zero (by rintro rfl; simp at hpos)
    have hd : 0 < d := Nat.pos_of_ne_zero (by rintro rfl; simp at hpos)
    obtain ⟨l, h1, h2⟩ := roundtrip_packed ⟨![s0, s1, s2, s3, s3], ![a, b, c, d, 1]⟩ idx hi64
      (by intro k hk; fin_cases k <;> simp_all)
      (by simp [e3]) (by simp [e3]) (by simp [e2]) (by simp [e1]) (by simp [e0])
    exact ⟨_, l, get_inner_expanded_tv_rank4 a b c d s0 s1 s2 s3 t, h1, h2⟩
  · obtain ⟨a, b, c, d, e, rfl⟩ : ∃ a b c d e, lens = [a, b, c, d, e] := by
      rcases lens with _ | ⟨a, _ | ⟨b, _ | ⟨c, _ | ⟨d, _ | ⟨e, _ | ⟨f, tl⟩⟩⟩⟩⟩⟩ <;> simp at hr
      exact ⟨a, b, c, d, e, rfl⟩
    obtain ⟨s0, s1, s2, s3, s4, rfl⟩ : ∃ a b c d e, strides = [a, b, c, d, e] := by
      rcases strides with _ | ⟨a, _ | ⟨b, _ | ⟨c, _ | ⟨d, _ | ⟨e, _ | ⟨f, tl⟩⟩⟩⟩⟩⟩ <;> simp at hlen
      exact ⟨a, b, c, d, e, rfl⟩
    have e0 := hst 0 (by simp)
    have e1 := hst 1 (by simp)
    have e2 := hst 2 (by simp)
    have e3 := hst 3 (by simp)
    have e4 := hst 4 (by simp)
    simp at e0 e1 e2 e3 e4
    have hpos : 0 < a * (b * (c * (d * e))) := by
      have : idx < a * (b * (c * (d * e))) := by simpa [List.prod_cons] using hidx
      omega
    have hb : 0 < b := Nat.pos_of_ne_zero (by rintro rfl; simp at hpos)
    have hcp : 0 < c := Nat.pos_of_ne_zero (by rintro rfl; simp at hpos)
    have hd : 0 < d := Nat.pos_of_ne_zero (by rintro rfl; simp at hpos)
    have he : 0 < e := Nat.pos_of_ne_zero (by rintro rfl; simp at hpos)
    obtain ⟨l, h1, h2⟩ := roundtrip_packed ⟨![s0, s1, s2, s3, s4], ![a, b, c, d, e]⟩ idx hi64
      (by intro k hk; fin_cases k <;> simp_all)
      (by simp [e4]) (by simp [e3]) (by simp [e2]) (by simp [e1]) (by simp [e0])
    exact ⟨_, l, get_inner_expanded_tv_rank5 a b c d e s0 s1 s2 s3 s4 t, h1, h2⟩

/-! ## Round trip over the view of a contiguous descriptor of any rank up to 5 -/

/-- Where the loop body reads inside the stride vector, the slot does not depend on what a read
past its end would deliver. -/
theorem get_inner_expanded_tv_slot_reading_eq (past : Nat → Nat) (dims strides : List Nat)
    (i : Nat) (x : Nat × Nat) (h : get_inner_expanded_tv_slot dims strides i = some x) :
    get_inner_expanded_tv_slot_reading past dims strides i = x := by
  unfold get_inner_expanded_tv_slot at h
  unfold get_inner_expanded_tv_slot_reading
  by_cases hi : i < dims.length
  · rw [if_pos hi] at h
    rw [if_pos hi]
    cases hs : strides[i]? with
    | none => rw [hs] at h; cases h
    | some s =>
      cases hd : dims[i]? with
      | none => rw [hs, hd] at h; cases h
      | some d =>
        rw [hs, hd] at h
        have hx : x = (s, d) := (Option.some.inj h).symm
        rw [hx, List.getD_eq_getElem?_getD, List.getD_eq_getElem?_getD, hs, hd]
        rfl
  · rw [if_neg hi] at h
    rw [if_neg hi]
    by_cases h0 : i = 0
    · rw [if_pos h0] at h
      rw [if_pos h0]
      exact Option.some.inj h
    · rw [if_neg h0] at h
      rw [if_neg h0]
      cases hs : strides[i - 1]? with
      | none => rw [hs] at h; cases h
      | some s =>
        rw [hs] at h
        have hx : x = (s, 1) := (Option.some.inj h).symm
        rw [hx, List.getD_eq_getElem?_getD, hs]
        rfl

theorem fillArray_some {N : Nat} {α : Type} (f : Fin N → Option α) (g : Fin N → α)
    (h : fillArray f = some g) : ∀ i, f i = some (g i) := by
  unfold fillArray at h
  by_cases hs : ∀ i, (f i).isSome = true
  · rw [dif_pos hs] at h
    intro i
    rw [← Option.some.inj h]
    exact (Option.some_get (hs i)).symm
  · rw [dif_neg hs] at h
    cases h

theorem get_inner_expanded_tv_reading_eq (past : Nat → Nat) (N : Nat) (Desc : TensorDescriptor)
    (v : tensor_view_t N) (h : get_inner_expanded_tv N Desc = some v) :
    get_inner_expanded_tv_reading past N Desc = v := by
  unfold get_inner_expanded_tv at h
  cases hf : fillArray
      (fun i : Fin N => get_inner_expanded_tv_slot Desc.GetLengths Desc.GetStrides i.val) with
  | none =>
    simp only [hf] at h
    cases h
  | some slots =>
    simp only [hf] at h
    have hv : v = ⟨fun i => (slots i).1, fun i => (slots i).2⟩ := (Option.some.inj h).symm
    rw [hv]
    unfold get_inner_expanded_tv_reading
    have e : ∀ i : Fin N,
        get_inner_expanded_tv_slot_reading past Desc.GetLengths Desc.GetStrides i.val = slots i :=
      fun i => get_inner_expanded_tv_slot_reading_eq past _ _ _ _ (fillArray_some _ _ hf i)
    simp only [e]

theorem tensor_layout_rest_congr {N : Nat} (v w : tensor_view_t N) (h : v.size = w.size)
    (idx : Nat) : ∀ j, tensor_layout_rest v idx j = tensor_layout_rest w idx j := by
  intro j
  induction j with
  | zero => rfl
  | succ j ih =>
    unfold tensor_layout_rest
    rw [ih]
    unfold tensor_view_t.sizeAt
    rw [h]

theorem tensor_layout_t_congr {N : Nat} (v w : tensor_view_t N) (h : v.size = w.size)
    (idx : Nat) : tensor_layout_t v idx = tensor_layout_t w idx := by
  unfold tensor_layout_t
  simp only [h, tensor_layout_rest_congr v w h idx]

/-- Decomposing a flat index over a view of five slots in which every slot after the first has
size 1 or the packed stride, and encoding the coordinate again through the strides of the view,
gives the index back: a slot of size 1 has the coordinate 0, so that its stride does not
count. -/
theorem roundtrip_padded (v : tensor_view_t 5) (idx : Nat) (hidx : idx < 2 ^ 64)
    (hpos : ∀ k : Fin 5, 0 < k.val → 0 < v.size k)
    (h4 : v.size 4 = 1 ∨ v.stride 4 = 1) (h3 : v.size 3 = 1 ∨ v.stride 3 = v.size 4)
    (h2 : v.size 2 = 1 ∨ v.stride 2 = v.size 3 * v.size 4)
    (h1 : v.size 1 = 1 ∨ v.stride 1 = v.size 2 * (v.size 3 * v.size 4))
    (h0 : v.stride 0 = v.size 1 * (v.size 2 * (v.size 3 * v.size 4))) :
    ∃ l, tensor_layout_t v idx = some l ∧ v.get_tensor_view_idx l = idx := by
  obtain ⟨l, hl1, hl2⟩ := roundtrip_packed
    ⟨![v.size 1 * (v.size 2 * (v.size 3 * v.size 4)), v.size 2 * (v.size 3 * v.size 4),
      v.size 3 * v.size 4, v.size 4, 1], v.size⟩ idx hidx hpos rfl rfl rfl rfl rfl
  have hl : tensor_layout_t v idx = some l := by
    rw [← hl1]
    apply tensor_layout_t_congr
    rfl
  refine ⟨l, hl, ?_⟩
  rw [tensor_layout_t_of_pos v idx hpos] at hl
  have hle := (Option.some.inj hl).symm
  rw [← hl2]
  unfold tensor_view_t.get_tensor_view_idx
  have hf : (fun i => v.stride i * l i) =
      (fun i => (⟨![v.size 1 * (v.size 2 * (v.size 3 * v.size 4)),
        v.size 2 * (v.size 3 * v.size 4), v.size 3 * v.size 4, v.size 4, 1], v.size⟩ :
          tensor_view_t 5).stride i * l i) := by
    funext k
    fin_cases k
    · show v.stride 0 * l 0 = _ * l 0
      rw [h0]
      rfl
    · show v.stride 1 * l 1 = (v.size 2 * (v.size 3 * v.size 4)) * l 1
      rcases h1 with h | h
      · have : l 1 = 0 := by rw [hle]; simp [h, Nat.mod_one]
        rw [this, Nat.mul_zero, Nat.mul_zero]
      · rw [h]
    · show v.stride 2 * l 2 = (v.size 3 * v.size 4) * l 2
      rcases h2 with h | h
      · have : l 2 = 0 := by rw [hle]; simp [h, Nat.mod_one]
        rw [this, Nat.mul_zero, Nat.mul_zero]
      · rw [h]
    · show v.stride 3 * l 3 = v.size 4 * l 3
      rcases h3 with h | h
      · have f3 : ((3 : Fin 5) : Nat) = 3 := rfl
        have : l 3 = 0 := by rw [hle]; simp [h, Nat.mod_one, f3]
        rw [this, Nat.mul_zero, Nat.mul_zero]
      · rw [h]
    · show v.stride 4 * l 4 = 1 * l 4
      rcases h4 with h | h
      · have f4 : ((4 : Fin 5) : Nat) = 4 := rfl
        have : l 4 = 0 := by rw [hle]; simp [h, Nat.mod_one, f4]
        rw [this, Nat.mul_zero, Nat.mul_zero]
      · rw [h]
  rw [hf]

theorem pos_of_lt_prod (lens : List Nat) (idx : Nat) (h : idx < lens.prod) :
    ∀ l ∈ lens, 0 < l := by
  intro l hl
  rcases Nat.eq_zero_or_pos l with h0 | h0
  · exfalso
    rw [h0] at hl
    rw [List.prod_eq_zero hl] at h
    omega
  · exact h0

theorem reading_slot_val (past : Nat → Nat) (Desc : TensorDescriptor) (k : Fin 5) :
    (get_inner_expanded_tv_reading past 5 Desc).size k =
        (get_inner_expanded_tv_slot_reading past Desc.lens Desc.strides k.val).2 ∧
      (get_inner_expanded_tv_reading past 5 Desc).stride k =
        (get_inner_expanded_tv_slot_reading past Desc.lens Desc.strides k.val).1 :=
  ⟨rfl, rfl⟩

/-- Claim C9: For every contiguous tensor descriptor of rank at most 5 with `E < 2^64` elements
and every flat index `i < E`, decomposing `i` into a coordinate of 5 slots over the view of the
descriptor and encoding the coordinate again through the strides of the view gives the offset
`i`.  The view is the one `get_inner_expanded_tv<5>` builds, whatever the reads of `strides`
past its end deliver for the slots after the first padded one: these slots have size 1 and the
coordinate 0.  Where all reads are inside the vector it is the view that
`get_inner_expanded_tv` returns. -/
theorem roundtrip_contiguous (past : Nat → Nat) (Desc : TensorDescriptor) (idx : Nat)
    (hc : IsContiguous Desc) (hr : Desc.lens.length ≤ 5)
    (hE : Desc.GetElementSize < 2 ^ 64) (hidx : idx < Desc.GetElementSize) :
    (∀ v, get_inner_expanded_tv 5 Desc = some v →
      get_inner_expanded_tv_reading past 5 Desc = v) ∧
    ∃ l, tensor_layout_t (get_inner_expanded_tv_reading past 5 Desc) idx = some l ∧
      (get_inner_expanded_tv_reading past 5 Desc).get_tensor_view_idx l = idx := by
  refine ⟨fun v hv => get_inner_expanded_tv_reading_eq past 5 Desc v hv, ?_⟩
  obtain ⟨lens, strides, t⟩ := Desc
  obtain ⟨hlen, hst⟩ := hc
  simp only [TensorDescriptor.GetElementSize] at hE hidx
  simp only at hlen hst hr
  have hi64 : idx < 2 ^ 64 := lt_trans hidx hE
  have hposl := pos_of_lt_prod lens idx hidx
  have f1 : ((1 : Fin 5) : Nat) = 1 := rfl
  have f2 : ((2 : Fin 5) : Nat) = 2 := rfl
  have f3 : ((3 : Fin 5) : Nat) = 3 := rfl
  have f4 : ((4 : Fin 5) : Nat) = 4 := rfl
  have f0 : ((0 : Fin 5) : Nat) = 0 := rfl
  rcases lens with _ | ⟨a, _ | ⟨b, _ | ⟨c, _ | ⟨d, _ | ⟨e, _ | ⟨f, tl⟩⟩⟩⟩⟩⟩
  · obtain rfl : strides = [] := List.length_eq_zero.mp hlen
    apply roundtrip_padded _ idx hi64
    · intro k _
      rw [(reading_slot_val _ _ k).1]
      simp [get_inner_expanded_tv_slot_reading]
    all_goals
      simp only [(reading_slot_val _ _ _).1, (reading_slot_val _ _ _).2, f0, f1, f2, f3, f4]
      simp [get_inner_expanded_tv_slot_reading]
  · obtain ⟨s0, rfl⟩ : ∃ s0, strides = [s0] := by
      rcases strides with _ | ⟨s0, _ | ⟨s1, tl⟩⟩ <;> simp at hlen
      exact ⟨s0, rfl⟩
    have e0 := hst 0 (by simp)
    simp at e0
    apply roundtrip_padded _ idx hi64
    · intro k hk
      rw [(reading_slot_val _ _ k).1]
      fin_cases k <;> simp [get_inner_expanded_tv_slot_reading] at hk ⊢
    all_goals
      simp only [(reading_slot_val _ _ _).1, (reading_slot_val _ _ _).2, f0, f1, f2, f3, f4]
      simp [get_inner_expanded_tv_slot_reading, e0]
  · obtain ⟨s0, s1, rfl⟩ : ∃ s0 s1, strides = [s0, s1] := by
      rcases strides with _ | ⟨s0, _ | ⟨s1, _ | ⟨x, tl⟩⟩⟩ <;> simp at hlen
      exact ⟨_, _, rfl⟩
    have e0 := hst 0 (by simp)
    have e1 := hst 1 (by simp)
    simp at e0 e1
    have hpb : 0 < b := hposl b (by simp)
    apply roundtrip_padded _ idx hi64
    · intro k hk
      rw [(reading_slot_val _ _ k).1]
      fin_cases k <;> simp [get_inner_expanded_tv_slot_reading, hpb] at hk ⊢
    all_goals
      simp only [(reading_slot_val _ _ _).1, (reading_slot_val _ _ _).2, f0, f1, f2, f3, f4]
      simp [get_inner_expanded_tv_slot_reading, e0, e1]
  · obtain ⟨s0, s1, s2, rfl⟩ : ∃ s0 s1 s2, strides = [s0, s1, s2] := by
      rcases strides with _ | ⟨s0, _ | ⟨s1, _ | ⟨s2, _ | ⟨x, tl⟩⟩⟩⟩ <;> simp at hlen
      exact ⟨_, _, _, rfl⟩
    have e0 := hst 0 (by simp)
    have e1 := hst 1 (by simp)
    have e2 := hst 2 (by simp)
    simp at e0 e1 e2
    have hpb : 0 < b := hposl b (by simp)
    have hpc : 0 < c := hposl c (by simp)
    apply roundtrip_padded _ idx hi64
    · intro k hk
      rw [(reading_slot_val _ _ k).1]
      fin_cases k <;> simp [get_inner_expanded_tv_slot_reading, hpb, hpc] at hk ⊢
    all_goals
      simp only [(reading_slot_val _ _ _).1, (reading_slot_val _ _ _).2, f0, f1, f2, f3, f4]
      simp [get_inner_expanded_tv_slot_reading, e0, e1, e2]
  · obtain ⟨s0, s1, s2, s3, rfl⟩ : ∃ s0 s1 s2 s3, strides = [s0, s1, s2, s3] := by
      rcases strides with _ | ⟨s0, _ | ⟨s1, _ | ⟨s2, _ | ⟨s3, _ | ⟨x, tl⟩⟩⟩⟩⟩ <;> simp at hlen
      exact ⟨_, _, _, _, rfl⟩
    have e0 := hst 0 (by simp)
    have e1 := hst 1 (by simp)
    have e2 := hst 2 (by simp)
    have e3 := hst 3 (by simp)
    simp at e0 e1 e2 e3
    have hpb : 0 < b := hposl b (by simp)
    have hpc : 0 < c := hposl c (by simp)
    have hpd : 0 < d := hposl d (by simp)
    apply roundtrip_padded _ idx hi64
    · intro k hk
      rw [(reading_slot_val _ _ k).1]
      fin_cases k <;> simp [get_inner_expanded_tv_slot_reading, hpb, hpc, hpd] at hk ⊢
    all_goals
      simp only [(reading_slot_val _ _ _).1, (reading_slot_val _ _ _).2, f0, f1, f2, f3, f4]
      simp [get_inner_expanded_tv_slot_reading, e0, e1, e2, e3]
  · obtain ⟨s0, s1, s2, s3, s4, rfl⟩ : ∃ s0 s1 s2 s3 s4, strides = [s0, s1, s2, s3, s4] := by
      rcases strides with _ | ⟨s0, _ | ⟨s1, _ | ⟨s2, _ | ⟨s3, _ | ⟨s4, _ | ⟨x, tl⟩⟩⟩⟩⟩⟩ <;> simp at hlen
      exact ⟨_, _, _, _, _, rfl⟩
    have e0 := hst 0 (by simp)
    have e1 := hst 1 (by simp)
    have e2 := hst 2 (by simp)
    have e3 := hst 3 (by simp)
    have e4 := hst 4 (by simp)
    simp at e0 e1 e2 e3 e4
    have hpb : 0 < b := hposl b (by simp)
    have hpc : 0 < c := hposl c (by simp)
    have hpd : 0 < d := hposl d (by simp)
    have hpe : 0 < e := hposl e (by simp)
    apply roundtrip_padded _ idx hi64
    · intro k hk
      rw [(reading_slot_val _ _ k).1]
      fin_cases k <;> simp [get_inner_expanded_tv_slot_reading, hpb, hpc, hpd, hpe] at hk ⊢
    all_goals
      simp only [(reading_slot_val _ _ _).1, (reading_slot_val _ _ _).2, f0, f1, f2, f3, f4]
      simp [get_inner_expanded_tv_slot_reading, e0, e1, e2, e3, e4]
  · simp at hr

theorem roundtrip_contiguous_witness :
    (∀ v, get_inner_expanded_tv 5 ⟨[4, 3], [3, 1], 0⟩ = some v →
      get_inner_expanded_tv_reading (fun _ => 99) 5 ⟨[4, 3], [3, 1], 0⟩ = v) ∧
    ∃ l, tensor_layout_t (get_inner_expanded_tv_reading (fun _ => 99) 5 ⟨[4, 3], [3, 1], 0⟩) 7
        = some l ∧
      (get_inner_expanded_tv_reading (fun _ => 99) 5 ⟨[4, 3], [3, 1], 0⟩).get_tensor_view_idx l
        = 7 :=
  roundtrip_contiguous (fun _ => 99) ⟨[4, 3], [3, 1], 0⟩ 7 ⟨rfl, by decide⟩ (by decide)
    (by decide) (by decide)

/-! ## Lemmas on the worker count -/

theorem two_pow_mul_mono {k g : Nat} (h : k ≤ g) : 2 ^ k * k ≤ 2 ^ g * g :=
  Nat.mul_le_mul (Nat.pow_le_pow_right (by norm_num) h) h

theorem num_threads_divisor_eq (E D : Nat) (hD : D ≤ 58) (hP : ∀ k, k < D → 2 ^ k * k ≤ E)
    (hnP : ¬ 2 ^ D * D ≤ E) :
    ∀ fuel d, d ≤ D → D - d < fuel → num_threads_divisor E fuel d = some D := by
  intro fuel
  induction fuel with
  | zero => intro d _ h; omega
  | succ fuel ih =>
    intro d hd hf
    unfold num_threads_divisor
    have h64 : ¬ 64 ≤ d := by omega
    have hpow : 2 ^ d < 2 ^ 64 := Nat.pow_lt_pow_right (by norm_num) (by omega)
    have hprod : 2 ^ d * d < 2 ^ 64 :=
      lt_of_le_of_lt (two_pow_mul_mono (show d ≤ 58 by omega)) (by norm_num)
    rw [if_neg h64, Nat.mod_eq_of_lt hpow, Nat.mod_eq_of_lt hprod]
    by_cases hdD : d < D
    · rw [if_pos (hP d hdD)]
      exact ih (d + 1) hdD (by omega)
    · have : d = D := by omega
      subst this
      rw [if_neg hnP]

theorem findGreatest_two_pow_spec (E : Nat) :
    2 ^ Nat.findGreatest (fun d => 2 ^ d * d ≤ E) E * Nat.findGreatest (fun d => 2 ^ d * d ≤ E) E
        ≤ E ∧
      ¬ 2 ^ (Nat.findGreatest (fun d => 2 ^ d * d ≤ E) E + 1)
          * (Nat.findGreatest (fun d => 2 ^ d * d ≤ E) E + 1) ≤ E := by
  constructor
  · exact Nat.findGreatest_spec (P := fun d => 2 ^ d * d ≤ E) (Nat.zero_le E) (by simp)
  · by_cases h : Nat.findGreatest (fun d => 2 ^ d * d ≤ E) E + 1 ≤ E
    · exact Nat.findGreatest_is_greatest (P := fun d => 2 ^ d * d ≤ E) (Nat.lt_succ_self _) h
    · intro hle
      have h1 : 1 * (Nat.findGreatest (fun d => 2 ^ d * d ≤ E) E + 1)
          ≤ 2 ^ (Nat.findGreatest (fun d => 2 ^ d * d ≤ E) E + 1)
            * (Nat.findGreatest (fun d => 2 ^ d * d ≤ E) E + 1) :=
        Nat.mul_le_mul_right _ (Nat.one_le_two_pow)
      omega

/-- The bounded search in `specW0` finds the largest natural `d` with `2^d * d ≤ E`: no larger
`d` satisfies the inequality. -/
theorem le_findGreatest_two_pow (E d : Nat) (h : 2 ^ d * d ≤ E) :
    d ≤ Nat.findGreatest (fun d => 2 ^ d * d ≤ E) E := by
  have h1 : 1 * d ≤ 2 ^ d * d := Nat.mul_le_mul_right _ Nat.one_le_two_pow
  exact Nat.le_findGreatest (P := fun d => 2 ^ d * d ≤ E) (by omega) h

theorem AlignUp_bounds (x : Int) : x ≤ AlignUp x 256 ∧ AlignUp x 256 < x + 256 := by
  unfold AlignUp
  omega

/-- The worker count of the counterexample to C10: for `E = 31 * 2^31 = 66571993088` elements and a pool of
4 states the specification asks for `AlignUp(2^31, 256) = 2^31` workers, and the `int` that the
code computes is negative. -/
theorem num_threads_overflows :
    specW0 66571993088 4 = 2 ^ 31 ∧ AlignUp ((2 ^ 31 : Nat) : Int) 256 = 2 ^ 31 ∧
      mloRReLUForward5dRunHost_num_threads 4 66571993088 = some (-2147483648) ∧
      mloRReLUForward5dRunHost_num_threads 4 66571993088
        ≠ some (AlignUp (specW0 66571993088 4 : Nat) 256) := by
  have hfg : Nat.findGreatest (fun d => 2 ^ d * d ≤ 66571993088) 66571993088 = 31 := by
    rw [Nat.findGreatest_eq_iff]
    refine ⟨by norm_num, fun _ => by norm_num, ?_⟩
    intro n hn _ hle
    have h := two_pow_mul_mono (show 32 ≤ n from hn)
    have h32 : 2 ^ 32 * 32 = 137438953472 := by norm_num
    omega
  have hspec : specW0 66571993088 4 = 2 ^ 31 := by
    unfold specW0
    rw [if_neg (by norm_num), hfg]
  refine ⟨hspec, by decide, by decide, ?_⟩
  rw [hspec]
  decide

/-- Claim C10, as amended: For an element count `E` and a pool size `S` with `1 ≤ S < 2^31` for which
`AlignUp(W0, 256)` is below `2^31`, the worker count computed by `mloRReLUForward5dRunHost` is
`AlignUp(W0, 256)`, where `W0 = E` if `E ≤ S` and otherwise `W0 = 2^d` for the largest `d`
with `2^d * d ≤ E`. -/
theorem num_threads_eq_AlignUp (E S : Nat) (hS1 : 1 ≤ S) (hS : S < 2 ^ 31)
    (hW : AlignUp (specW0 E S : Nat) 256 < 2 ^ 31) :
    mloRReLUForward5dRunHost_num_threads S E = some (AlignUp (specW0 E S : Nat) 256) := by
  have hfinal : wrapInt32 (AlignUp (specW0 E S : Nat) 256) = AlignUp (specW0 E S : Nat) 256 :=
    wrapInt32_of_range _ (by have := (AlignUp_bounds (specW0 E S : Nat)).1; omega) hW
  have hW0 : ((specW0 E S : Nat) : Int) < 2 ^ 31 := by
    have := (AlignUp_bounds (specW0 E S : Nat)).1; omega
  have hstates : wrapUInt64 (wrapInt32 (S : Int)) = S := by
    rw [wrapInt32_of_range _ (by omega) (by exact_mod_cast hS)]
    exact wrapUInt64_natCast S (by omega)
  unfold mloRReLUForward5dRunHost_num_threads
  simp only [hstates]
  by_cases hES : E ≤ S
  · have hspec : specW0 E S = E := by unfold specW0; rw [if_pos hES]
    rw [hspec] at hfinal hW0 ⊢
    rw [if_pos hES, wrapInt32_of_range _ (by omega) hW0]
    simp only [Option.bind_eq_bind, Option.some_bind, Option.pure_def, hfinal]
  · have hspec : specW0 E S = 2 ^ Nat.findGreatest (fun d => 2 ^ d * d ≤ E) E := by
      unfold specW0; rw [if_neg hES]
    obtain ⟨hg, hng⟩ := findGreatest_two_pow_spec E
    rw [hspec] at hfinal hW0 ⊢
    generalize Nat.findGreatest (fun d => 2 ^ d * d ≤ E) E = g at hg hng hfinal hW0 ⊢
    have hg31 : g < 31 := by
      have h : (2 : Nat) ^ g < 2 ^ 31 := by exact_mod_cast hW0
      exact (Nat.pow_lt_pow_iff_right (by norm_num)).mp h
    have hloop : num_threads_divisor E 65 1 = some (g + 1) :=
      num_threads_divisor_eq E (g + 1) (by omega)
        (fun k hk => le_trans (two_pow_mul_mono (by omega)) hg) hng 65 1 (by omega) (by omega)
    have hdiv : wrapUInt64 (((g + 1 : Nat) : Int) - 1) = g := by
      have : (((g + 1 : Nat) : Int) - 1) = (g : Int) := by push_cast; ring
      rw [this]
      exact wrapUInt64_natCast g (by omega)
    have hpow : (2 : Nat) ^ g % 2 ^ 64 = 2 ^ g :=
      Nat.mod_eq_of_lt (Nat.pow_lt_pow_right (by norm_num) (by omega))
    rw [if_neg hES, hloop]
    simp only [Option.bind_eq_bind, Option.some_bind, Option.pure_def, hdiv,
      if_neg (show ¬ 64 ≤ g by omega), hpow]
    rw [wrapInt32_of_range _ (by have := Int.ofNat_nonneg (2 ^ g); omega) hW0, hfinal]

theorem num_threads_eq_AlignUp_witness :
    specW0 10 4 = 4 ∧ AlignUp ((4 : Nat) : Int) 256 = 256 ∧
      mloRReLUForward5dRunHost_num_threads 4 10 = some 256 :=
  ⟨by decide, by decide,
    (num_threads_eq_AlignUp 10 4 (by decide) (by decide) (by decide)).trans (by decide)⟩

/-! ## The work split of the RReLU forward pass -/

theorem forward_worker_loop_negative (E : Nat) (W : Int) (hE : E ≤ 2 ^ 31) (fuel : Nat)
    (i : Int) (h0 : -2 ^ 32 ≤ i) (h1 : i < 0) :
    forward_worker_loop E W (fuel + 1) i = some [] := by
  unfold forward_worker_loop
  have h : (wrapUInt64 i : Int) = 2 ^ 64 + i := wrapUInt64_of_neg i (by omega) h1
  rw [if_neg]
  intro hlt
  have : ((wrapUInt64 i : Nat) : Int) < (E : Int) := by exact_mod_cast hlt
  omega

theorem forward_worker_loop_count (E : Nat) (W : Int) (hE : E ≤ 2 ^ 31) (hW0 : 0 < W)
    (hW : W < 2 ^ 31) :
    ∀ (fuel : Nat) (i0 : Int), 0 ≤ i0 → i0 < 2 ^ 31 → 0 < fuel → (E : Int) - i0 < fuel →
      ∃ l, forward_worker_loop E W fuel i0 = some l ∧
        ∀ j : Int, l.count j = if i0 ≤ j ∧ j < E ∧ W ∣ (j - i0) then 1 else 0 := by
  intro fuel
  induction fuel with
  | zero => intro i0 _ _ h; omega
  | succ fuel ih =>
    intro i0 h0 h1 _ hf
    unfold forward_worker_loop
    have hu : (wrapUInt64 i0 : Int) = i0 := wrapUInt64_of_range i0 h0 (by omega)
    by_cases hi : i0 < (E : Int)
    · have hlt : wrapUInt64 i0 < E := by
        have : ((wrapUInt64 i0 : Nat) : Int) < (E : Int) := by rw [hu]; exact hi
        exact_mod_cast this
      rw [if_pos hlt]
      by_cases hnext : i0 + W < 2 ^ 31
      · rw [wrapInt32_of_range _ (by omega) hnext]
        obtain ⟨l, hl, hc⟩ := ih (i0 + W) (by omega) hnext (by omega) (by omega)
        refine ⟨i0 :: l, by rw [hl]; rfl, ?_⟩
        intro j
        rw [List.count_cons, hc j]
        by_cases hj : i0 = j
        · subst hj
          have hn : ¬ (i0 + W ≤ i0 ∧ i0 < (E : Int) ∧ W ∣ (i0 - (i0 + W))) := by
            rintro ⟨h, _⟩; omega
          rw [if_neg hn]
          simp [hi]
        · have hb : ¬ ((i0 == j) = true) := by simpa using hj
          rw [if_neg hb, Nat.add_zero]
          have hd : W ∣ (j - (i0 + W)) ↔ W ∣ (j - i0) := by
            have e : j - (i0 + W) = (j - i0) - W := by ring
            rw [e]
            exact dvd_sub_self_right
          by_cases hcond : i0 ≤ j ∧ j < (E : Int) ∧ W ∣ (j - i0)
          · obtain ⟨c1, c2, c3⟩ := hcond
            have hpos : 0 < j - i0 := by omega
            have hle := Int.le_of_dvd hpos c3
            rw [if_pos ⟨by omega, c2, hd.mpr c3⟩, if_pos ⟨c1, c2, c3⟩]
          · rw [if_neg hcond, if_neg]
            rintro ⟨c1, c2, c3⟩
            exact hcond ⟨by omega, c2, hd.mp c3⟩
      · have hw : wrapInt32 (i0 + W) = i0 + W - 2 ^ 32 := by
          unfold wrapInt32; omega
        obtain ⟨f, rfl⟩ : ∃ f, fuel = f + 1 := ⟨fuel - 1, by omega⟩
        rw [hw, forward_worker_loop_negative E W hE f _ (by omega) (by omega)]
        refine ⟨[i0], rfl, ?_⟩
        intro j
        rw [List.count_cons, List.count_nil, Nat.zero_add]
        by_cases hj : i0 = j
        · subst hj
          simp [hi]
        · have hb : ¬ ((i0 == j) = true) := by simpa using hj
          rw [if_neg hb, if_neg]
          rintro ⟨c1, c2, c3⟩
          have hpos : 0 < j - i0 := by omega
          have hle := Int.le_of_dvd hpos c3
          omega
    · have hlt : ¬ wrapUInt64 i0 < E := by
        intro hlt
        have : ((wrapUInt64 i0 : Nat) : Int) < (E : Int) := by exact_mod_cast hlt
        omega
      rw [if_neg hlt]
      refine ⟨[], rfl, ?_⟩
      intro j
      rw [List.count_nil, if_neg]
      rintro ⟨c1, c2, _⟩
      omega

theorem owner_iff (W gid j : Int) (hW0 : 0 < W) (hg0 : 0 ≤ gid) (hg : gid < W) (hj : 0 ≤ j) :
    (gid ≤ j ∧ W ∣ (j - gid)) ↔ j % W = gid := by
  constructor
  · rintro ⟨_, hd⟩
    have h1 : (j - gid) % W = 0 := Int.emod_eq_zero_of_dvd hd
    have h2 : j % W = gid % W := Int.emod_eq_emod_iff_emod_sub_eq_zero.mpr h1
    rw [h2, Int.emod_eq_of_lt hg0 hg]
  · intro h
    refine ⟨?_, Int.dvd_sub_of_emod_eq h⟩
    rw [← h]
    have e1 := Int.emod_add_ediv j W
    have e2 := Int.ediv_nonneg hj (le_of_lt hW0)
    nlinarith

/-- The worker of the counterexample to C11: for `E = 2^31 + 1` elements and a pool of 4 states
the code computes `W = 2^26` workers; the flat index `2^31` is below `E` and belongs to worker
`2^31 mod W = 0`, whose loop variable is an `int`: it visits the 32 indices `0, W, ..., 31 W`
and leaves the loop when `i` passes `2^31 - 1`, so that the index `2^31` is not visited. -/
theorem forward_worker_misses_index :
    mloRReLUForward5dRunHost_num_threads 4 2147483649 = some 67108864 ∧
      (2147483648 : Int) < 2147483649 ∧ (2147483648 : Int) % 67108864 = 0 ∧
      (mloRReLUForward5dRunHost_worker 2147483649 67108864 0).map
        (fun l => (l.length, l.getLast?, l.count 2147483648)) = some (32, some 2080374784, 0) := by
  refine ⟨by decide, by decide, by decide, ?_⟩
  unfold mloRReLUForward5dRunHost_worker
  decide

/-- Claim C11, as amended: For every element count `E ≤ 2^31` and worker count `0 < W < 2^31`
(the range of the `int` loop variable), the loop of each worker `gid` in `0..W-1` ends, visits
only flat indices below `E`, and visits the flat index `i < E` exactly once if `gid = i mod W`
and never otherwise: every flat index is visited exactly once, by worker `i mod W`. -/
theorem forward_work_split (E : Nat) (W gid : Int) (hE : E ≤ 2 ^ 31) (hW0 : 0 < W)
    (hW : W < 2 ^ 31) (hg0 : 0 ≤ gid) (hg : gid < W) :
    ∃ l, mloRReLUForward5dRunHost_worker E W gid = some l ∧
      (∀ x ∈ l, 0 ≤ x ∧ x < (E : Int)) ∧
      ∀ i : Nat, i < E → l.count (i : Int) = if (i : Int) % W = gid then 1 else 0 := by
  obtain ⟨l, hl, hc⟩ := forward_worker_loop_count E W hE hW0 hW (E + 1) gid hg0 (by omega)
    (by omega) (by push_cast; omega)
  refine ⟨l, hl, ?_, ?_⟩
  · intro x hx
    have hpos : 0 < l.count x := List.count_pos_iff.mpr hx
    rw [hc x] at hpos
    by_cases hcond : gid ≤ x ∧ x < (E : Int) ∧ W ∣ (x - gid)
    · exact ⟨by omega, hcond.2.1⟩
    · rw [if_neg hcond] at hpos
      omega
  · intro i hi
    rw [hc (i : Int)]
    have hiE : (i : Int) < (E : Int) := by exact_mod_cast hi
    have hiff := owner_iff W gid (i : Int) hW0 hg0 hg (by omega)
    by_cases hown : (i : Int) % W = gid
    · rw [if_pos hown, if_pos ⟨(hiff.mpr hown).1, hiE, (hiff.mpr hown).2⟩]
    · rw [if_neg hown, if_neg]
      rintro ⟨c1, _, c3⟩
      exact hown (hiff.mp ⟨c1, c3⟩)

theorem forward_work_split_witness :
    ∃ l, mloRReLUForward5dRunHost_worker 10 4 1 = some l ∧
      (∀ x ∈ l, 0 ≤ x ∧ x < ((10 : Nat) : Int)) ∧
      ∀ i : Nat, i < 10 → l.count (i : Int) = if (i : Int) % 4 = 1 then 1 else 0 :=
  forward_work_split 10 4 1 (by decide) (by decide) (by decide) (by decide) (by decide)

/-! ## The backward pass of the RReLU host reference -/

theorem backward_body_eq {Tgpu F Tcheck : Type} (quot : Tgpu → F → Tcheck)
    (doutput_tv dinput_tv : tensor_view_t 5) (noise : Nat → F) (doutput : Nat → Tgpu)
    (m : Nat → Tcheck) (i : Nat) (layout : Fin 5 → Nat)
    (hl : tensor_layout_t dinput_tv i = some layout) :
    mloRReLUBackward5dRunHost_body quot doutput_tv dinput_tv noise doutput m i =
      some (Function.update m (dinput_tv.get_tensor_view_idx layout)
        (quot (doutput (doutput_tv.get_tensor_view_idx layout)) (noise i))) := by
  unfold mloRReLUBackward5dRunHost_body
  rw [hl]
  rfl

/-- Sequential bodies that write to pairwise different offsets: every one of them leaves its
value behind and every other offset keeps its old value. -/
theorem backward_fold {Tgpu F Tcheck : Type} (quot : Tgpu → F → Tcheck)
    (doutput_tv dinput_tv : tensor_view_t 5) (noise : Nat → F) (doutput : Nat → Tgpu)
    (L : Nat → Fin 5 → Nat) (l : List Nat)
    (hL : ∀ i ∈ l, tensor_layout_t dinput_tv i = some (L i))
    (hnd : l.Nodup)
    (hinj : ∀ i ∈ l, ∀ j ∈ l, dinput_tv.get_tensor_view_idx (L i)
      = dinput_tv.get_tensor_view_idx (L j) → i = j) :
    ∀ m : Nat → Tcheck, ∃ r,
      mloRReLUBackward5dRunHost quot doutput_tv dinput_tv noise doutput m l = some r ∧
      (∀ i ∈ l, r (dinput_tv.get_tensor_view_idx (L i))
        = quot (doutput (doutput_tv.get_tensor_view_idx (L i))) (noise i)) ∧
      (∀ x, (∀ i ∈ l, dinput_tv.get_tensor_view_idx (L i) ≠ x) → r x = m x) := by
  induction l with
  | nil =>
    intro m
    exact ⟨m, rfl, fun i hi => absurd hi (List.not_mem_nil i), fun _ _ => rfl⟩
  | cons a rest ih =>
    intro m
    have hnd2 := List.nodup_cons.mp hnd
    obtain ⟨r, hr, hval, hkeep⟩ := ih
      (fun i hi => hL i (List.mem_cons_of_mem _ hi)) hnd2.2
      (fun i hi j hj => hinj i (List.mem_cons_of_mem _ hi) j (List.mem_cons_of_mem _ hj))
      (Function.update m (dinput_tv.get_tensor_view_idx (L a))
        (quot (doutput (doutput_tv.get_tensor_view_idx (L a))) (noise a)))
    refine ⟨r, ?_, ?_, ?_⟩
    · unfold mloRReLUBackward5dRunHost at hr ⊢
      rw [List.foldlM_cons, backward_body_eq quot doutput_tv dinput_tv noise doutput m a (L a)
        (hL a (List.mem_cons_self _ _))]
      exact hr
    · intro i hi
      rcases List.mem_cons.mp hi with rfl | hi
      · rw [hkeep _ (fun j hj heq => hnd2.1 (by
          have := hinj j (List.mem_cons_of_mem _ hj) i (List.mem_cons_self _ _) heq
          rw [← this]; exact hj))]
        exact Function.update_same _ _ _
      · exact hval i hi
    · intro x hx
      rw [hkeep x (fun i hi => hx i (List.mem_cons_of_mem _ hi))]
      exact Function.update_noteq (hx a (List.mem_cons_self _ _)).symm _ _

/-- The run of the counterexample to C12: for `2^32 + 1` elements the `int size` is `1`, the only
schedule of `par_ford(size)` is the index `0`, and nothing is stored for the flat index `1`, whose
offsets are `(1, 1)`: the buffer keeps its `0` there, while `doutput[1] / noise[1]` is `3`. -/
theorem backward_skips_index :
    mloRReLUBackward5dRunHost_size 4294967297 = 1 ∧
    par_ford_schedule (mloRReLUBackward5dRunHost_size 4294967297) [0] ∧
    mloRReLUBackward5dRunHost_offsets ⟨![0, 0, 0, 0, 1], ![1, 1, 1, 1, 4294967297]⟩
      ⟨![0, 0, 0, 0, 1], ![1, 1, 1, 1, 4294967297]⟩ 1 = some (1, 1) ∧
    (mloRReLUBackward5dRunHost (fun a b : Nat => a / b)
      ⟨![0, 0, 0, 0, 1], ![1, 1, 1, 1, 4294967297]⟩
      ⟨![0, 0, 0, 0, 1], ![1, 1, 1, 1, 4294967297]⟩
      (fun _ => 2) (fun _ => 6) (fun _ => 0) [0]).map (fun r => r 1) = some 0 ∧
    (fun a b : Nat => a / b) ((fun _ : Nat => 6) 1) ((fun _ : Nat => 2) 1) = 3 := by
  refine ⟨by decide, ?_, by decide, by decide, by decide⟩
  have h : mloRReLUBackward5dRunHost_size 4294967297 = 1 := by decide
  unfold par_ford_schedule
  rw [h]
  exact List.Perm.refl _

/-- Claim C12, as amended: For an element count below `2^31` (the range of `int size`), every
schedule of the loop and a non-aliasing input-gradient layout, `mloRReLUBackward5dRunHost`
leaves at the input-gradient offset of the coordinate of every flat index `i` below the element
count the value `doutput[output-gradient offset of that coordinate]` divided by `noise[i]`,
with `noise` indexed by the flat index itself. -/
theorem backward_stores_quotient {Tgpu F Tcheck : Type} (quot : Tgpu → F → Tcheck)
    (doutput_tv dinput_tv : tensor_view_t 5) (noise : Nat → F) (doutput : Nat → Tgpu)
    (dinput_host : Nat → Tcheck) (E : Nat) (order : List Nat)
    (hE : E < 2 ^ 31) (hpos : ∀ k : Fin 5, 0 < k.val → 0 < dinput_tv.size k)
    (hsched : par_ford_schedule (mloRReLUBackward5dRunHost_size E) order)
    (hinj : ∀ i, i < E → ∀ j, j < E →
      (mloRReLUBackward5dRunHost_offsets doutput_tv dinput_tv i).map Prod.fst
        = (mloRReLUBackward5dRunHost_offsets doutput_tv dinput_tv j).map Prod.fst → i = j) :
    ∃ r, mloRReLUBackward5dRunHost quot doutput_tv dinput_tv noise doutput dinput_host order
        = some r ∧
      ∀ i, i < E → ∃ dIidx dOidx,
        mloRReLUBackward5dRunHost_offsets doutput_tv dinput_tv i = some (dIidx, dOidx) ∧
        r dIidx = quot (doutput dOidx) (noise i) := by
  have hsize : (mloRReLUBackward5dRunHost_size E).toNat = E := by
    unfold mloRReLUBackward5dRunHost_size
    rw [wrapInt32_of_range _ (by omega) (by exact_mod_cast hE)]
    simp
  unfold par_ford_schedule at hsched
  rw [hsize] at hsched
  have hmem : ∀ i, i ∈ order ↔ i < E := fun i => by
    rw [hsched.mem_iff, List.mem_range]
  have hnd : order.Nodup := hsched.nodup_iff.mpr (List.nodup_range E)
  have hlay := fun i => tensor_layout_t_of_pos dinput_tv i hpos
  have hoff : ∀ i, mloRReLUBackward5dRunHost_offsets doutput_tv dinput_tv i = some
      (dinput_tv.get_tensor_view_idx (fun k =>
        if k.val = 0 then tensor_layout_rest dinput_tv i (5 - 1)
        else tensor_layout_rest dinput_tv i (5 - 1 - k.val) % dinput_tv.size k),
       doutput_tv.get_tensor_view_idx (fun k =>
        if k.val = 0 then tensor_layout_rest dinput_tv i (5 - 1)
        else tensor_layout_rest dinput_tv i (5 - 1 - k.val) % dinput_tv.size k)) := by
    intro i
    unfold mloRReLUBackward5dRunHost_offsets
    rw [hlay i]
    rfl
  obtain ⟨r, hr, hval, _⟩ := backward_fold quot doutput_tv dinput_tv noise doutput
    (fun i k => if k.val = 0 then tensor_layout_rest dinput_tv i (5 - 1)
      else tensor_layout_rest dinput_tv i (5 - 1 - k.val) % dinput_tv.size k)
    order (fun i _ => hlay i) hnd
    (fun i hi j hj heq => hinj i ((hmem i).mp hi) j ((hmem j).mp hj) (by
      rw [hoff i, hoff j]
      simp only [Option.map_some', Option.some.injEq]
      exact heq))
    dinput_host
  refine ⟨r, hr, ?_⟩
  intro i hi
  exact ⟨_, _, hoff i, hval i ((hmem i).mpr hi)⟩

theorem backward_stores_quotient_witness :
    ∃ r, mloRReLUBackward5dRunHost (fun a b : Nat => a / b)
        ⟨![0, 0, 0, 0, 2], ![1, 1, 1, 1, 3]⟩ ⟨![0, 0, 0, 0, 1], ![1, 1, 1, 1, 3]⟩
        (fun i => i + 1) (fun x => 6 * x) (fun _ => 0) [2, 0, 1] = some r ∧
      ∀ i, i < 3 → ∃ dIidx dOidx,
        mloRReLUBackward5dRunHost_offsets
          ⟨![0, 0, 0, 0, 2], ![1, 1, 1, 1, 3]⟩ ⟨![0, 0, 0, 0, 1], ![1, 1, 1, 1, 3]⟩ i
          = some (dIidx, dOidx) ∧
        r dIidx = (fun a b : Nat => a / b) ((fun x => 6 * x) dOidx) ((fun i => i + 1) i) :=
  backward_stores_quotient (fun a b : Nat => a / b)
    ⟨![0, 0, 0, 0, 2], ![1, 1, 1, 1, 3]⟩ ⟨![0, 0, 0, 0, 1], ![1, 1, 1, 1, 3]⟩
    (fun i => i + 1) (fun x => 6 * x) (fun _ => 0) 3 [2, 0, 1] (by decide) (by decide)
    (by unfold par_ford_schedule; decide) (by decide)

/-! ## The problem descriptions and solvers of BCELogitsLoss and SmoothL1Loss -/

theorem validationFailure_ne_true (dev : Bool) : validationFailure dev ≠ .ok true := by
  unfold validationFailure
  cases dev <;> simp

theorem lens_eq_singleton_one (Desc : TensorDescriptor)
    (h : ¬ (Desc.GetSize ≠ 1 ∨ Desc.GetLengths[0]? ≠ some 1)) :
    Desc.lens = [1] ∧ Desc.GetElementSize = 1 := by
  push_neg at h
  obtain ⟨h1, h2⟩ := h
  simp only [TensorDescriptor.GetSize, TensorDescriptor.GetLengths] at h1 h2
  have hl : Desc.lens = [1] := by
    rcases hd : Desc.lens with _ | ⟨a, _ | ⟨b, tl⟩⟩
    · rw [hd] at h1; simp at h1
    · rw [hd] at h2; simp at h2; rw [h2]
    · rw [hd] at h1; simp at h1
  exact ⟨hl, by simp [TensorDescriptor.GetElementSize, hl]⟩

theorem reduced_forward_true_imp (dev : Bool) (chk : bcelogitsloss.Checks)
    (p : bcelogitsloss.BCELogitsLossFwdProblemDescription)
    (h : bcelogitsloss.ReducedForwardProblemDescription.IsRightLength dev chk p = .ok true) :
    ¬ (p.oDesc.GetSize ≠ 1 ∨ p.oDesc.GetLengths[0]? ≠ some 1) := by
  unfold bcelogitsloss.ReducedForwardProblemDescription.IsRightLength at h
  cases hb : bcelogitsloss.BCELogitsLossFwdProblemDescription.IsRightLength dev chk p with
  | error e => rw [hb] at h; cases h
  | ok b =>
    rw [hb] at h
    cases b with
    | false => simp [bind, Except.bind, pure, Except.pure] at h
    | true =>
      intro hc
      simp only [bind, Except.bind, Bool.not_true, Bool.false_eq_true, if_false, if_pos hc] at h
      exact validationFailure_ne_true dev h

theorem reduced_backward_true_imp (dev : Bool) (chk : bcelogitsloss.Checks)
    (p : bcelogitsloss.BCELogitsLossBwdProblemDescription)
    (h : bcelogitsloss.ReducedBackwardProblemDescription.IsRightLength dev chk p = .ok true) :
    ¬ (p.doDesc.GetSize ≠ 1 ∨ p.doDesc.GetLengths[0]? ≠ some 1) := by
  unfold bcelogitsloss.ReducedBackwardProblemDescription.IsRightLength at h
  cases hb : bcelogitsloss.BCELogitsLossBwdProblemDescription.IsRightLength dev chk p with
  | error e => rw [hb] at h; cases h
  | ok b =>
    rw [hb] at h
    cases b with
    | false => simp [bind, Except.bind, pure, Except.pure] at h
    | true =>
      intro hc
      simp only [bind, Except.bind, Bool.not_true, Bool.false_eq_true, if_false, if_pos hc] at h
      exact validationFailure_ne_true dev h

/-- Claim C13: Whenever `ReducedForwardProblemDescription::IsRightLength` returns `true`, the
output descriptor describes exactly one element, and whenever
`ReducedBackwardProblemDescription::IsRightLength` returns `true`, the output-gradient
descriptor does; in either build mode and whatever the absent checks return. -/
theorem reduced_IsRightLength_single_element (dev : Bool) (chk : bcelogitsloss.Checks) :
    (∀ p : bcelogitsloss.BCELogitsLossFwdProblemDescription,
      bcelogitsloss.ReducedForwardProblemDescription.IsRightLength dev chk p = .ok true →
        p.oDesc.lens = [1] ∧ p.oDesc.GetElementSize = 1) ∧
    (∀ p : bcelogitsloss.BCELogitsLossBwdProblemDescription,
      bcelogitsloss.ReducedBackwardProblemDescription.IsRightLength dev chk p = .ok true →
        p.doDesc.lens = [1] ∧ p.doDesc.GetElementSize = 1) :=
  ⟨fun p h => lens_eq_singleton_one _ (reduced_forward_true_imp dev chk p h),
    fun p h => lens_eq_singleton_one _ (reduced_backward_true_imp dev chk p h)⟩

theorem reduced_IsRightLength_single_element_witness :
    bcelogitsloss.ReducedForwardProblemDescription.IsRightLength false
        ⟨smoothl1loss.checkSameType false, smoothl1loss.checkSameLength false⟩
        ⟨⟨[4, 3], [3, 1], 0⟩, ⟨[4, 3], [3, 1], 0⟩, ⟨[4, 3], [3, 1], 0⟩, ⟨[4, 3], [3, 1], 0⟩,
          ⟨[1], [1], 0⟩⟩ = .ok true ∧
      TensorDescriptor.GetElementSize ⟨[1], [1], 0⟩ = 1 :=
  ⟨rfl, ((reduced_IsRightLength_single_element false
    ⟨smoothl1loss.checkSameType false, smoothl1loss.checkSameLength false⟩).1
    ⟨⟨[4, 3], [3, 1], 0⟩, ⟨[4, 3], [3, 1], 0⟩, ⟨[4, 3], [3, 1], 0⟩, ⟨[4, 3], [3, 1], 0⟩,
      ⟨[1], [1], 0⟩⟩ rfl).2⟩

/-- The problem of the counterexample to C14: input and target have equal lengths and the
output descriptor with lengths `[1, 1]` describes one element; the release build returns `false`
and the development build throws. -/
theorem reduced_forward_refuses_rank2_output :
    smoothl1loss.checkSameLength false ⟨[4, 3], [3, 1], 0⟩ ⟨[4, 3], [3, 1], 0⟩ = .ok true ∧
    TensorDescriptor.GetElementSize ⟨[1, 1], [1, 1], 0⟩ = 1 ∧
    bcelogitsloss.ReducedForwardProblemDescription.IsRightLength false
        ⟨smoothl1loss.checkSameType false, smoothl1loss.checkSameLength false⟩
        ⟨⟨[4, 3], [3, 1], 0⟩, ⟨[4, 3], [3, 1], 0⟩, ⟨[4, 3], [3, 1], 0⟩, ⟨[4, 3], [3, 1], 0⟩,
          ⟨[1, 1], [1, 1], 0⟩⟩ = .ok false ∧
    bcelogitsloss.ReducedForwardProblemDescription.IsRightLength true
        ⟨smoothl1loss.checkSameType true, smoothl1loss.checkSameLength true⟩
        ⟨⟨[4, 3], [3, 1], 0⟩, ⟨[4, 3], [3, 1], 0⟩, ⟨[4, 3], [3, 1], 0⟩, ⟨[4, 3], [3, 1], 0⟩,
          ⟨[1, 1], [1, 1], 0⟩⟩ = .error .miopenStatusBadParm :=
  ⟨rfl, rfl, rfl, rfl⟩

/-- Claim C14, as amended: `ReducedForwardProblemDescription::IsRightLength` returns `true`
for every problem whose input and target descriptors have equal lengths (the check
`checkSameLength` returns `true` on them) and whose output descriptor has the lengths `[1]`,
and only for such an output descriptor: one of another rank is refused although it may describe
one element. -/
theorem reduced_forward_IsRightLength_iff (dev : Bool) (chk : bcelogitsloss.Checks)
    (p : bcelogitsloss.BCELogitsLossFwdProblemDescription)
    (hlen : chk.checkSameLength p.iDesc p.tDesc = .ok true) :
    bcelogitsloss.ReducedForwardProblemDescription.IsRightLength dev chk p = .ok true ↔
      p.oDesc.lens = [1] := by
  constructor
  · intro h
    exact (lens_eq_singleton_one _ (reduced_forward_true_imp dev chk p h)).1
  · intro h
    unfold bcelogitsloss.ReducedForwardProblemDescription.IsRightLength
      bcelogitsloss.BCELogitsLossFwdProblemDescription.IsRightLength
    simp [hlen, bind, Except.bind, pure, Except.pure, TensorDescriptor.GetSize,
      TensorDescriptor.GetLengths, h]

theorem reduced_forward_IsRightLength_iff_witness :
    bcelogitsloss.ReducedForwardProblemDescription.IsRightLength false
        ⟨smoothl1loss.checkSameType false, smoothl1loss.checkSameLength false⟩
        ⟨⟨[4, 3], [3, 1], 0⟩, ⟨[4, 3], [3, 1], 0⟩, ⟨[4, 3], [3, 1], 0⟩, ⟨[4, 3], [3, 1], 0⟩,
          ⟨[1], [1], 0⟩⟩ = .ok true ↔
      ([1] : List Nat) = [1] :=
  reduced_forward_IsRightLength_iff false
    ⟨smoothl1loss.checkSameType false, smoothl1loss.checkSameLength false⟩
    ⟨⟨[4, 3], [3, 1], 0⟩, ⟨[4, 3], [3, 1], 0⟩, ⟨[4, 3], [3, 1], 0⟩, ⟨[4, 3], [3, 1], 0⟩,
      ⟨[1], [1], 0⟩⟩ rfl

/-- Claim C18: For a problem whose input descriptor has rank greater than 5,
`ReducedBackward5d::IsApplicable` of BCELogitsLoss and
`SmoothL1LossReducedBackward5d::IsApplicable` return `false` without throwing, in both build
modes and whatever the checks on types, lengths and strides would do. -/
theorem IsApplicable_rank_gt_5 (dev : Bool) (chk : bcelogitsloss.Checks)
    (pred : smoothl1loss.BackwardPredicates)
    (p : bcelogitsloss.BCELogitsLossBwdProblemDescription)
    (q : smoothl1loss.BackwardProblemDescription)
    (hp : p.iDesc.GetSize > 5) (hq : q.iDesc.GetSize > 5) :
    solver.bcelogitsloss.ReducedBackward5d.IsApplicable dev chk p = .ok false ∧
      solver.smoothl1loss.SmoothL1LossReducedBackward5d.IsApplicable pred q = .ok false := by
  unfold solver.bcelogitsloss.ReducedBackward5d.IsApplicable
    solver.smoothl1loss.SmoothL1LossReducedBackward5d.IsApplicable
  rw [if_pos hp, if_pos hq]
  exact ⟨rfl, rfl⟩

theorem IsApplicable_rank_gt_5_witness :
    solver.bcelogitsloss.ReducedBackward5d.IsApplicable true
        ⟨fun _ _ => .error .miopenStatusBadParm, fun _ _ => .error .miopenStatusBadParm⟩
        ⟨⟨[2, 2, 2, 2, 2, 2], [32, 16, 8, 4, 2, 1], 0⟩, ⟨[1], [1], 1⟩, ⟨[1], [1], 1⟩,
          ⟨[1], [1], 1⟩, ⟨[1], [1], 1⟩, ⟨[1], [1], 1⟩, ⟨[1], [1], 1⟩⟩ = .ok false ∧
      solver.smoothl1loss.SmoothL1LossReducedBackward5d.IsApplicable
        ⟨fun _ => .error .miopenStatusBadParm, fun _ => .error .miopenStatusBadParm,
          fun _ => .error .miopenStatusBadParm⟩
        ⟨⟨[2, 2, 2, 2, 2, 2], [32, 16, 8, 4, 2, 1], 0⟩, ⟨[1], [1], 1⟩, ⟨[1], [1], 1⟩,
          ⟨[1], [1], 1⟩, ⟨[1], [1], 1⟩⟩ = .ok false :=
  IsApplicable_rank_gt_5 true _ _ _ _ (by decide) (by decide)

/-! ## The validation checks of SmoothL1Loss -/

theorem ModesAgree.failure : ModesAgree (validationFailure true) (validationFailure false) := by
  unfold ModesAgree validationFailure
  simp

theorem ModesAgree.success : ModesAgree (.ok true) (.ok true) := by
  unfold ModesAgree
  simp

theorem checkSameLength_loop_agree (x y : TensorDescriptor) (l : List Nat) :
    ModesAgree (smoothl1loss.checkSameLength_loop true x y l)
      (smoothl1loss.checkSameLength_loop false x y l) := by
  induction l with
  | nil => exact ModesAgree.success
  | cons i rest ih =>
    unfold smoothl1loss.checkSameLength_loop
    split
    · exact ModesAgree.failure
    · exact ih

theorem checkSameStride_loop_agree (x y : TensorDescriptor) (l : List Nat) :
    ModesAgree (smoothl1loss.checkSameStride_loop true x y l)
      (smoothl1loss.checkSameStride_loop false x y l) := by
  induction l with
  | nil => exact ModesAgree.success
  | cons i rest ih =>
    unfold smoothl1loss.checkSameStride_loop
    split
    · exact ModesAgree.failure
    · exact ih

theorem checkRightStride_loop_agree (p : List (Nat × Nat)) (l : List Nat) :
    ModesAgree (smoothl1loss.checkRightStride_loop true p l)
      (smoothl1loss.checkRightStride_loop false p l) := by
  induction l with
  | nil => exact ModesAgree.success
  | cons i rest ih =>
    unfold smoothl1loss.checkRightStride_loop
    split
    · exact ModesAgree.failure
    · exact ih

theorem checkContiguous_loop_agree (x : TensorDescriptor) (l : List Nat) :
    ∀ s, ModesAgree (smoothl1loss.checkContiguous_loop true x l s)
      (smoothl1loss.checkContiguous_loop false x l s) := by
  induction l with
  | nil => intro s; exact ModesAgree.success
  | cons i rest ih =>
    intro s
    unfold smoothl1loss.checkContiguous_loop
    split
    · exact ModesAgree.failure
    · exact ih _

/-- Claim C15: The two validation modes agree.  For each of `checkSameType`, `checkSameLength`,
`checkSameStride`, `checkRightStride` and `checkContiguous` and every input, the development
build throws the bad-parameter error exactly where the release build returns `false`, and
returns `true` exactly where the release build returns `true`. -/
theorem validation_modes_agree (x y : TensorDescriptor) :
    ModesAgree (smoothl1loss.checkSameType true x y) (smoothl1loss.checkSameType false x y) ∧
    ModesAgree (smoothl1loss.checkSameLength true x y) (smoothl1loss.checkSameLength false x y) ∧
    ModesAgree (smoothl1loss.checkSameStride true x y) (smoothl1loss.checkSameStride false x y) ∧
    ModesAgree (smoothl1loss.checkRightStride true x) (smoothl1loss.checkRightStride false x) ∧
    ModesAgree (smoothl1loss.checkContiguous true x) (smoothl1loss.checkContiguous false x) := by
  refine ⟨?_, ?_, ?_, ?_, ?_⟩
  · unfold smoothl1loss.checkSameType
    split
    · exact ModesAgree.failure
    · exact ModesAgree.success
  · unfold smoothl1loss.checkSameLength
    split
    · exact ModesAgree.failure
    · exact checkSameLength_loop_agree x y _
  · unfold smoothl1loss.checkSameStride
    split
    · exact ModesAgree.failure
    · exact checkSameStride_loop_agree x y _
  · exact checkRightStride_loop_agree _ _
  · exact checkContiguous_loop_agree x _ 1

theorem checkSameLength_loop_release (x y : TensorDescriptor) (l : List Nat) :
    (smoothl1loss.checkSameLength_loop false x y l = .ok true ↔
      ∀ i ∈ l, x.lens[i]? = y.lens[i]?) ∧
    (smoothl1loss.checkSameLength_loop false x y l = .ok true ∨
      smoothl1loss.checkSameLength_loop false x y l = .ok false) := by
  induction l with
  | nil => simp [smoothl1loss.checkSameLength_loop]
  | cons i rest ih =>
    unfold smoothl1loss.checkSameLength_loop
    simp only [TensorDescriptor.GetLengths]
    by_cases h : x.lens[i]? = y.lens[i]?
    · rw [if_neg (not_not.mpr h)]
      refine ⟨?_, ih.2⟩
      rw [ih.1]
      simp [h]
    · rw [if_pos h]
      refine ⟨?_, Or.inr rfl⟩
      simp [validationFailure, h]

/-- Claim C16: In the release build `checkSameLength(x, y)` returns, and it returns `true` if
and only if `x` and `y` have the same rank and the same length on every axis; lengths `[4,3]`
against `[4,3]` give `true` and `[4,3]` against `[4,1]` give `false`. -/
theorem checkSameLength_release_iff (x y : TensorDescriptor) :
    (smoothl1loss.checkSameLength false x y = .ok true ↔
      x.lens.length = y.lens.length ∧ ∀ i, i < x.lens.length → x.lens[i]? = y.lens[i]?) ∧
    (smoothl1loss.checkSameLength false x y = .ok true ∨
      smoothl1loss.checkSameLength false x y = .ok false) ∧
    smoothl1loss.checkSameLength false ⟨[4, 3], [3, 1], 0⟩ ⟨[4, 3], [3, 1], 0⟩ = .ok true ∧
    smoothl1loss.checkSameLength false ⟨[4, 3], [3, 1], 0⟩ ⟨[4, 1], [1, 1], 0⟩ = .ok false := by
  refine ⟨?_, ?_, rfl, rfl⟩
  · unfold smoothl1loss.checkSameLength
    simp only [TensorDescriptor.GetSize]
    by_cases h : x.lens.length = y.lens.length
    · rw [if_neg (not_not.mpr h), (checkSameLength_loop_release x y _).1]
      simp [h, List.mem_range]
    · rw [if_pos h]
      simp [validationFailure, h]
  · unfold smoothl1loss.checkSameLength
    split
    · exact Or.inr rfl
    · exact (checkSameLength_loop_release x y _).2

/-- The running product of `checkContiguous` after the axes from `k` on: the product of their
lengths in `size_t`. -/
theorem drop_prod_step (lens : List Nat) (k : Nat) (hk : k < lens.length) :
    (lens.drop (k + 1)).prod % 2 ^ 64 * lens.getD k 0 % 2 ^ 64 = (lens.drop k).prod % 2 ^ 64 := by
  have h : lens.drop k = lens[k] :: lens.drop (k + 1) := (List.drop_eq_getElem_cons hk)
  rw [h, List.prod_cons, List.getD_eq_getElem _ _ hk, Nat.mod_mul_mod, Nat.mul_comm]

theorem checkContiguous_loop_release (x : TensorDescriptor) (k : Nat) (hk : k ≤ x.lens.length) :
    smoothl1loss.checkContiguous_loop false x (List.range k).reverse
        ((x.lens.drop k).prod % 2 ^ 64) = .ok true ↔
      ∀ i, i < k → x.strides[i]? = some ((x.lens.drop (i + 1)).prod % 2 ^ 64) := by
  induction k with
  | zero => simp [smoothl1loss.checkContiguous_loop]
  | succ k ih =>
    rw [List.range_succ, List.reverse_append, List.reverse_singleton, List.singleton_append]
    unfold smoothl1loss.checkContiguous_loop
    simp only [TensorDescriptor.GetStrides, TensorDescriptor.GetLengths]
    by_cases h : some ((x.lens.drop (k + 1)).prod % 2 ^ 64) = x.strides[k]?
    · rw [if_neg (not_not.mpr h), drop_prod_step x.lens k (by omega), ih (by omega)]
      constructor
      · intro hall i hi
        rcases Nat.lt_succ_iff_lt_or_eq.mp hi with hlt | rfl
        · exact hall i hlt
        · exact h.symm
      · intro hall i hi
        exact hall i (by omega)
    · rw [if_pos h]
      constructor
      · intro hc
        simp [validationFailure] at hc
      · intro hall
        exact absurd (hall k (Nat.lt_succ_self k)).symm h

/-- The descriptor of the counterexample to C17: the lengths after axis 0 have the product
`2^64`, which `size_t` holds as `0`; the check accepts the stride `0` for axis 0. -/
theorem checkContiguous_accepts_wrapped_product :
    smoothl1loss.checkContiguous false
        ⟨[1, 4294967296, 4294967296], [0, 4294967296, 1], 0⟩ = .ok true ∧
      ([0, 4294967296, 1] : List Nat)[0]? ≠
        some (([1, 4294967296, 4294967296] : List Nat).drop (0 + 1)).prod :=
  ⟨rfl, by decide⟩

/-- Claim C17, as amended: In the release build `checkContiguous(x)` returns `true` if and only
if, for every axis `i` of `x`, `stride[i]` equals the product of the lengths of all axes after
`i` as `size_t` forms it, that is reduced modulo `2^64`; when these products are below `2^64`
this is the product itself, and sizes `[4,3]` with strides `[3,1]` give `true`. -/
theorem checkContiguous_release_iff (x : TensorDescriptor) :
    (smoothl1loss.checkContiguous false x = .ok true ↔
      ∀ i, i < x.lens.length → x.strides[i]? = some ((x.lens.drop (i + 1)).prod % 2 ^ 64)) ∧
    ((∀ i, i < x.lens.length → (x.lens.drop (i + 1)).prod < 2 ^ 64) →
      (smoothl1loss.checkContiguous false x = .ok true ↔
        ∀ i, i < x.lens.length → x.strides[i]? = some (x.lens.drop (i + 1)).prod)) ∧
    smoothl1loss.checkContiguous false ⟨[4, 3], [3, 1], 0⟩ = .ok true := by
  have hmain : smoothl1loss.checkContiguous false x = .ok true ↔
      ∀ i, i < x.lens.length → x.strides[i]? = some ((x.lens.drop (i + 1)).prod % 2 ^ 64) := by
    have h := checkContiguous_loop_release x x.lens.length (le_refl _)
    rw [List.drop_length, List.prod_nil] at h
    exact h
  refine ⟨hmain, ?_, rfl⟩
  intro hsmall
  rw [hmain]
  constructor
  · intro h i hi
    rw [h i hi, Nat.mod_eq_of_lt (hsmall i hi)]
  · intro h i hi
    rw [h i hi, Nat.mod_eq_of_lt (hsmall i hi)]

theorem checkContiguous_release_iff_witness :
    smoothl1loss.checkContiguous false ⟨[4, 3], [3, 1], 0⟩ = .ok true ↔
      ∀ i, i < 2 → ([3, 1] : List Nat)[i]? = some (([4, 3] : List Nat).drop (i + 1)).prod :=
  (checkContiguous_release_iff ⟨[4, 3], [3, 1], 0⟩).2.1 (by decide)

/-! ## Workspace size and configuration fingerprint -/

theorem GetWorkspaceSizes_two (U R : solver.Solver) (p : tripletmarginloss.ProblemDescription) :
    solver.SolverContainer.GetWorkspaceSizes [U, R] p =
      (if U.IsApplicable p then [(U.SolverDbId, U.GetWorkspaceSize p)] else []) ++
        (if R.IsApplicable p then [(R.SolverDbId, R.GetWorkspaceSize p)] else []) := by
  unfold solver.SolverContainer.GetWorkspaceSizes
  cases hU : U.IsApplicable p <;> cases hR : R.IsApplicable p <;>
    simp [List.filter, hU, hR]

/-- The solvers of the counterexample to C19: the unreduced solver is applicable and reports the
workspace size `2^64 - 1`.  The container yields an entry for the problem, and both functions
return `static_cast<size_t>(-1)`. -/
theorem GetTripletMarginLossWorkspaceSize_sentinel_entry :
    solver.SolverContainer.GetWorkspaceSizes
        [⟨"UnreducedForward2d", fun _ => true, fun _ => 18446744073709551615⟩,
          ⟨"ReducedForward2d", fun _ => true, fun _ => 7⟩]
        ⟨[⟨[4, 3], [3, 1], 0⟩, ⟨[4, 3], [3, 1], 0⟩, ⟨[4, 3], [3, 1], 0⟩, ⟨[4], [1], 0⟩]⟩ =
      [("UnreducedForward2d", 18446744073709551615), ("ReducedForward2d", 7)] ∧
    GetTripletMarginLossForwardWorkspaceSize
        ⟨"UnreducedForward2d", fun _ => true, fun _ => 18446744073709551615⟩
        ⟨"ReducedForward2d", fun _ => true, fun _ => 7⟩ ⟨[4, 3], [3, 1], 0⟩ ⟨[4], [1], 0⟩ =
      wrapUInt64 (-1) ∧
    GetTripletMarginLossBackwardWorkspaceSize
        ⟨"UnreducedBackward2d", fun _ => true, fun _ => 18446744073709551615⟩
        ⟨"ReducedBackward2d", fun _ => true, fun _ => 7⟩ ⟨[4, 3], [3, 1], 0⟩ ⟨[4], [1], 0⟩ =
      wrapUInt64 (-1) := by
  refine ⟨by decide, by decide, by decide⟩

/-- Claim C19, as amended: `GetTripletMarginLossForwardWorkspaceSize` and
`GetTripletMarginLossBackwardWorkspaceSize` return the sentinel `static_cast<size_t>(-1)` when
the solver container yields no entry for the problem, and otherwise the workspace size of the
first entry; the entries stand in registration order, that of the unreduced solver before that
of the reduced one.  The sentinel is returned exactly when the container yields no entry or the
first entry carries the sentinel as its size. -/
theorem GetTripletMarginLossWorkspaceSize_first_entry (U R : solver.Solver)
    (aDesc oDesc : TensorDescriptor) :
    (∀ p, solver.SolverContainer.GetWorkspaceSizes [U, R] p =
      (if U.IsApplicable p then [(U.SolverDbId, U.GetWorkspaceSize p)] else []) ++
        (if R.IsApplicable p then [(R.SolverDbId, R.GetWorkspaceSize p)] else [])) ∧
    (solver.SolverContainer.GetWorkspaceSizes [U, R] ⟨[aDesc, aDesc, aDesc, oDesc]⟩ = [] →
      GetTripletMarginLossForwardWorkspaceSize U R aDesc oDesc = 2 ^ 64 - 1) ∧
    (∀ front rest,
      solver.SolverContainer.GetWorkspaceSizes [U, R] ⟨[aDesc, aDesc, aDesc, oDesc]⟩
        = front :: rest →
      GetTripletMarginLossForwardWorkspaceSize U R aDesc oDesc = front.2) ∧
    (GetTripletMarginLossForwardWorkspaceSize U R aDesc oDesc = 2 ^ 64 - 1 ↔
      solver.SolverContainer.GetWorkspaceSizes [U, R] ⟨[aDesc, aDesc, aDesc, oDesc]⟩ = [] ∨
      ((solver.SolverContainer.GetWorkspaceSizes [U, R]
        ⟨[aDesc, aDesc, aDesc, oDesc]⟩).head?.map Prod.snd = some (2 ^ 64 - 1))) ∧
    (solver.SolverContainer.GetWorkspaceSizes [U, R]
        ⟨[aDesc, aDesc, aDesc, oDesc, aDesc, aDesc, aDesc]⟩ = [] →
      GetTripletMarginLossBackwardWorkspaceSize U R aDesc oDesc = 2 ^ 64 - 1) ∧
    (∀ front rest,
      solver.SolverContainer.GetWorkspaceSizes [U, R]
        ⟨[aDesc, aDesc, aDesc, oDesc, aDesc, aDesc, aDesc]⟩ = front :: rest →
      GetTripletMarginLossBackwardWorkspaceSize U R aDesc oDesc = front.2) ∧
    (GetTripletMarginLossBackwardWorkspaceSize U R aDesc oDesc = 2 ^ 64 - 1 ↔
      solver.SolverContainer.GetWorkspaceSizes [U, R]
        ⟨[aDesc, aDesc, aDesc, oDesc, aDesc, aDesc, aDesc]⟩ = [] ∨
      ((solver.SolverContainer.GetWorkspaceSizes [U, R]
        ⟨[aDesc, aDesc, aDesc, oDesc, aDesc, aDesc, aDesc]⟩).head?.map Prod.snd
          = some (2 ^ 64 - 1))) := by
  have hs : unsupportedWorkspaceSize = 2 ^ 64 - 1 := by decide
  refine ⟨GetWorkspaceSizes_two U R, ?_, ?_, ?_, ?_, ?_, ?_⟩
  · intro h
    unfold GetTripletMarginLossForwardWorkspaceSize
    simp only [h, hs]
  · intro front rest h
    unfold GetTripletMarginLossForwardWorkspaceSize
    simp only [h]
  · unfold GetTripletMarginLossForwardWorkspaceSize
    simp only [hs]
    generalize solver.SolverContainer.GetWorkspaceSizes [U, R] ⟨[aDesc, aDesc, aDesc, oDesc]⟩ = v
    cases v with
    | nil => simp
    | cons front rest => simp
  · intro h
    unfold GetTripletMarginLossBackwardWorkspaceSize
    simp only [h, hs]
  · intro front rest h
    unfold GetTripletMarginLossBackwardWorkspaceSize
    simp only [h]
  · unfold GetTripletMarginLossBackwardWorkspaceSize
    simp only [hs]
    generalize solver.SolverContainer.GetWorkspaceSizes [U, R]
      ⟨[aDesc, aDesc, aDesc, oDesc, aDesc, aDesc, aDesc]⟩ = v
    cases v with
    | nil => simp
    | cons front rest => simp

theorem GetTripletMarginLossWorkspaceSize_first_entry_witness :
    GetTripletMarginLossForwardWorkspaceSize ⟨"UnreducedForward2d", fun _ => false, fun _ => 3⟩
        ⟨"ReducedForward2d", fun _ => true, fun _ => 7⟩ ⟨[4, 3], [3, 1], 0⟩ ⟨[1], [1], 0⟩ = 7 ∧
      GetTripletMarginLossBackwardWorkspaceSize ⟨"UnreducedBackward2d", fun _ => false, fun _ => 3⟩
        ⟨"ReducedBackward2d", fun _ => false, fun _ => 7⟩ ⟨[4, 3], [3, 1], 0⟩ ⟨[1], [1], 0⟩
          = 2 ^ 64 - 1 :=
  ⟨(GetTripletMarginLossWorkspaceSize_first_entry ⟨"UnreducedForward2d", fun _ => false, fun _ => 3⟩
      ⟨"ReducedForward2d", fun _ => true, fun _ => 7⟩ ⟨[4, 3], [3, 1], 0⟩
      ⟨[1], [1], 0⟩).2.2.1 ("ReducedForward2d", 7) [] rfl,
    (GetTripletMarginLossWorkspaceSize_first_entry
      ⟨"UnreducedBackward2d", fun _ => false, fun _ => 3⟩
      ⟨"ReducedBackward2d", fun _ => false, fun _ => 7⟩ ⟨[4, 3], [3, 1], 0⟩
      ⟨[1], [1], 0⟩).2.2.2.2.1 rfl⟩

/-- Claim C20: The SmoothL1Loss fingerprint is a function only of the variant, the element
types of the operands it names, the element count of the input and, for the unreduced forward
variant, the all-contiguous flag: two problem descriptions of one variant that agree on these
get the identical fingerprint, whatever their lengths and strides are. -/
theorem MakeNetworkConfig_depends_only_on_key
    (IsAllContiguous : smoothl1loss.ForwardProblemDescription → Except miopenStatus_t Bool) :
    (∀ p q : smoothl1loss.ForwardProblemDescription,
      p.iDesc.GetType = q.iDesc.GetType → p.tDesc.GetType = q.tDesc.GetType →
      p.oDesc.GetType = q.oDesc.GetType → p.iDesc.GetElementSize = q.iDesc.GetElementSize →
        smoothl1loss.ReducedForwardProblemDescription.MakeNetworkConfig p =
          smoothl1loss.ReducedForwardProblemDescription.MakeNetworkConfig q) ∧
    (∀ p q : smoothl1loss.ForwardProblemDescription,
      p.iDesc.GetType = q.iDesc.GetType → p.tDesc.GetType = q.tDesc.GetType →
      p.oDesc.GetType = q.oDesc.GetType → p.iDesc.GetElementSize = q.iDesc.GetElementSize →
      IsAllContiguous p = IsAllContiguous q →
        smoothl1loss.UnreducedForwardProblemDescription.MakeNetworkConfig IsAllContiguous p =
          smoothl1loss.UnreducedForwardProblemDescription.MakeNetworkConfig IsAllContiguous q) ∧
    (∀ p q : smoothl1loss.BackwardProblemDescription,
      p.iDesc.GetType = q.iDesc.GetType → p.doDesc.GetType = q.doDesc.GetType →
      p.iDesc.GetElementSize = q.iDesc.GetElementSize →
        smoothl1loss.ReducedBackwardProblemDescription.MakeNetworkConfig p =
          smoothl1loss.ReducedBackwardProblemDescription.MakeNetworkConfig q) := by
  refine ⟨?_, ?_, ?_⟩
  · intro p q h1 h2 h3 h4
    unfold smoothl1loss.ReducedForwardProblemDescription.MakeNetworkConfig
    simp only [h1, h2, h3, h4]
  · intro p q h1 h2 h3 h4 h5
    unfold smoothl1loss.UnreducedForwardProblemDescription.MakeNetworkConfig
    simp only [h1, h2, h3, h4, h5]
  · intro p q h1 h2 h3
    unfold smoothl1loss.ReducedBackwardProblemDescription.MakeNetworkConfig
    simp only [h1, h2, h3]

theorem MakeNetworkConfig_depends_only_on_key_witness :
    smoothl1loss.ReducedForwardProblemDescription.MakeNetworkConfig
        ⟨⟨[4, 3], [3, 1], 1⟩, ⟨[4, 3], [3, 1], 1⟩, ⟨[1], [1], 1⟩⟩ =
      smoothl1loss.ReducedForwardProblemDescription.MakeNetworkConfig
        ⟨⟨[2, 6], [1, 2], 1⟩, ⟨[12], [5], 1⟩, ⟨[1, 1], [7, 7], 1⟩⟩ :=
  (MakeNetworkConfig_depends_only_on_key (fun _ => .ok true)).1 _ _ rfl rfl rfl (by decide)

/-! ## The fingerprint and the applicability of the reduced backward solver -/

/-- The two problems of the counterexample to C21: a packed input of 64 elements as one axis and
as six axes of length 2, all of one element type, with an output gradient of lengths `[1]`.  The
fingerprints are the same string; the solver answers `true` for the first problem and `false`
for the second, whose input has rank 6.  The same holds with any predicates that accept the
first problem.  Equal ranks do not help: the first problem with another element type for the
target and its gradient has the same fingerprint, the same rank, and is refused. -/
theorem same_fingerprint_different_applicability :
    smoothl1loss.ReducedBackwardProblemDescription.MakeNetworkConfig
        ⟨⟨[64], [1], 0⟩, ⟨[64], [1], 0⟩, ⟨[1], [1], 0⟩, ⟨[64], [1], 0⟩, ⟨[64], [1], 0⟩⟩ =
      smoothl1loss.ReducedBackwardProblemDescription.MakeNetworkConfig
        ⟨⟨[2, 2, 2, 2, 2, 2], [32, 16, 8, 4, 2, 1], 0⟩, ⟨[2, 2, 2, 2, 2, 2], [32, 16, 8, 4, 2, 1], 0⟩,
          ⟨[1], [1], 0⟩, ⟨[2, 2, 2, 2, 2, 2], [32, 16, 8, 4, 2, 1], 0⟩,
          ⟨[2, 2, 2, 2, 2, 2], [32, 16, 8, 4, 2, 1], 0⟩⟩ ∧
    solver.smoothl1loss.SmoothL1LossReducedBackward5d.IsApplicable
        (smoothl1loss.ReducedBackwardProblemDescription.predicates false)
        ⟨⟨[64], [1], 0⟩, ⟨[64], [1], 0⟩, ⟨[1], [1], 0⟩, ⟨[64], [1], 0⟩, ⟨[64], [1], 0⟩⟩ =
      .ok true ∧
    solver.smoothl1loss.SmoothL1LossReducedBackward5d.IsApplicable
        (smoothl1loss.ReducedBackwardProblemDescription.predicates false)
        ⟨⟨[2, 2, 2, 2, 2, 2], [32, 16, 8, 4, 2, 1], 0⟩, ⟨[2, 2, 2, 2, 2, 2], [32, 16, 8, 4, 2, 1], 0⟩,
          ⟨[1], [1], 0⟩, ⟨[2, 2, 2, 2, 2, 2], [32, 16, 8, 4, 2, 1], 0⟩,
          ⟨[2, 2, 2, 2, 2, 2], [32, 16, 8, 4, 2, 1], 0⟩⟩ = .ok false ∧
    (∀ pred : smoothl1loss.BackwardPredicates,
      pred.IsSameType
          ⟨⟨[64], [1], 0⟩, ⟨[64], [1], 0⟩, ⟨[1], [1], 0⟩, ⟨[64], [1], 0⟩, ⟨[64], [1], 0⟩⟩ =
        .ok true →
      pred.IsRightLength
          ⟨⟨[64], [1], 0⟩, ⟨[64], [1], 0⟩, ⟨[1], [1], 0⟩, ⟨[64], [1], 0⟩, ⟨[64], [1], 0⟩⟩ =
        .ok true →
      pred.IsRightStride
          ⟨⟨[64], [1], 0⟩, ⟨[64], [1], 0⟩, ⟨[1], [1], 0⟩, ⟨[64], [1], 0⟩, ⟨[64], [1], 0⟩⟩ =
        .ok true →
      solver.smoothl1loss.SmoothL1LossReducedBackward5d.IsApplicable pred
          ⟨⟨[64], [1], 0⟩, ⟨[64], [1], 0⟩, ⟨[1], [1], 0⟩, ⟨[64], [1], 0⟩, ⟨[64], [1], 0⟩⟩ =
        .ok true ∧
      solver.smoothl1loss.SmoothL1LossReducedBackward5d.IsApplicable pred
          ⟨⟨[2, 2, 2, 2, 2, 2], [32, 16, 8, 4, 2, 1], 0⟩,
            ⟨[2, 2, 2, 2, 2, 2], [32, 16, 8, 4, 2, 1], 0⟩, ⟨[1], [1], 0⟩,
            ⟨[2, 2, 2, 2, 2, 2], [32, 16, 8, 4, 2, 1], 0⟩,
            ⟨[2, 2, 2, 2, 2, 2], [32, 16, 8, 4, 2, 1], 0⟩⟩ = .ok false) ∧
    smoothl1loss.ReducedBackwardProblemDescription.MakeNetworkConfig
        ⟨⟨[64], [1], 0⟩, ⟨[64], [1], 0⟩, ⟨[1], [1], 0⟩, ⟨[64], [1], 0⟩, ⟨[64], [1], 0⟩⟩ =
      smoothl1loss.ReducedBackwardProblemDescription.MakeNetworkConfig
        ⟨⟨[64], [1], 0⟩, ⟨[64], [1], 1⟩, ⟨[1], [1], 0⟩, ⟨[64], [1], 0⟩, ⟨[64], [1], 1⟩⟩ ∧
    solver.smoothl1loss.SmoothL1LossReducedBackward5d.IsApplicable
        (smoothl1loss.ReducedBackwardProblemDescription.predicates false)
        ⟨⟨[64], [1], 0⟩, ⟨[64], [1], 1⟩, ⟨[1], [1], 0⟩, ⟨[64], [1], 0⟩, ⟨[64], [1], 1⟩⟩ =
      .ok false := by
  refine ⟨by decide, rfl, rfl, ?_, by decide, rfl⟩
  intro pred h1 h2 h3
  unfold solver.smoothl1loss.SmoothL1LossReducedBackward5d.IsApplicable
  rw [h1, h2, h3]
  exact ⟨rfl, rfl⟩

/-! ## The views that the reduced backward invokers pass to the kernel -/

/-- Claim C22: The invokers built by `ReducedBackward5d::GetSolution` of BCELogitsLoss and by
`SmoothL1LossReducedBackward5d::GetSolution` form the input-gradient view from the input
descriptor and the target-gradient view from the target descriptor, not from the descriptors of
the gradients.  For the problems below, which the solvers accept and whose gradients are laid out
with the strides `[1, 2, 4, 8, 16]` while input and target have `[16, 8, 4, 2, 1]`, the views
passed for the gradients differ from the views of the gradient descriptors. -/
theorem gradient_views_built_from_input_descriptors :
    (∀ (V : Type) (view : TensorDescriptor → V)
        (p : bcelogitsloss.BCELogitsLossBwdProblemDescription),
      (solver.bcelogitsloss.ReducedBackward5d.invokerViews view p).dI_tv = view p.iDesc ∧
      (solver.bcelogitsloss.ReducedBackward5d.invokerViews view p).dT_tv = view p.tDesc) ∧
    (∀ (V : Type) (view : TensorDescriptor → V) (p : smoothl1loss.BackwardProblemDescription),
      (solver.smoothl1loss.SmoothL1LossReducedBackward5d.invokerViews view p).dI_tv
        = view p.iDesc ∧
      (solver.smoothl1loss.SmoothL1LossReducedBackward5d.invokerViews view p).dT_tv
        = view p.tDesc) ∧
    (solver.bcelogitsloss.ReducedBackward5d.IsApplicable false
        ⟨smoothl1loss.checkSameType false, smoothl1loss.checkSameLength false⟩
        ⟨⟨[2, 2, 2, 2, 2], [16, 8, 4, 2, 1], 0⟩, ⟨[2, 2, 2, 2, 2], [16, 8, 4, 2, 1], 0⟩,
          ⟨[2, 2, 2, 2, 2], [16, 8, 4, 2, 1], 0⟩, ⟨[2, 2, 2, 2, 2], [16, 8, 4, 2, 1], 0⟩,
          ⟨[1], [1], 0⟩, ⟨[2, 2, 2, 2, 2], [1, 2, 4, 8, 16], 0⟩,
          ⟨[2, 2, 2, 2, 2], [1, 2, 4, 8, 16], 0⟩⟩ = .ok true ∧
      (solver.bcelogitsloss.ReducedBackward5d.invokerViews (get_inner_expanded_tv 5)
        ⟨⟨[2, 2, 2, 2, 2], [16, 8, 4, 2, 1], 0⟩, ⟨[2, 2, 2, 2, 2], [16, 8, 4, 2, 1], 0⟩,
          ⟨[2, 2, 2, 2, 2], [16, 8, 4, 2, 1], 0⟩, ⟨[2, 2, 2, 2, 2], [16, 8, 4, 2, 1], 0⟩,
          ⟨[1], [1], 0⟩, ⟨[2, 2, 2, 2, 2], [1, 2, 4, 8, 16], 0⟩,
          ⟨[2, 2, 2, 2, 2], [1, 2, 4, 8, 16], 0⟩⟩).dI_tv ≠
        get_inner_expanded_tv 5 ⟨[2, 2, 2, 2, 2], [1, 2, 4, 8, 16], 0⟩) ∧
    (solver.smoothl1loss.SmoothL1LossReducedBackward5d.IsApplicable
        (smoothl1loss.ReducedBackwardProblemDescription.predicates false)
        ⟨⟨[2, 2, 2, 2, 2], [16, 8, 4, 2, 1], 0⟩, ⟨[2, 2, 2, 2, 2], [16, 8, 4, 2, 1], 0⟩,
          ⟨[1], [1], 0⟩, ⟨[2, 2, 2, 2, 2], [1, 2, 4, 8, 16], 0⟩,
          ⟨[2, 2, 2, 2, 2], [1, 2, 4, 8, 16], 0⟩⟩ = .ok true ∧
      (solver.smoothl1loss.SmoothL1LossReducedBackward5d.invokerViews (get_inner_expanded_tv 5)
        ⟨⟨[2, 2, 2, 2, 2], [16, 8, 4, 2, 1], 0⟩, ⟨[2, 2, 2, 2, 2], [16, 8, 4, 2, 1], 0⟩,
          ⟨[1], [1], 0⟩, ⟨[2, 2, 2, 2, 2], [1, 2, 4, 8, 16], 0⟩,
          ⟨[2, 2, 2, 2, 2], [1, 2, 4, 8, 16], 0⟩⟩).dT_tv ≠
        get_inner_expanded_tv 5 ⟨[2, 2, 2, 2, 2], [1, 2, 4, 8, 16], 0⟩) := by
  have hne : get_inner_expanded_tv 5 ⟨[2, 2, 2, 2, 2], [16, 8, 4, 2, 1], 0⟩ ≠
      get_inner_expanded_tv 5 ⟨[2, 2, 2, 2, 2], [1, 2, 4, 8, 16], 0⟩ := by
    rw [get_inner_expanded_tv_rank5, get_inner_expanded_tv_rank5]
    intro h
    have h0 := congrArg (fun o => o.map (fun v : tensor_view_t 5 => v.stride 0)) h
    exact absurd h0 (by decide)
  exact ⟨fun _ _ _ => ⟨rfl, rfl⟩, fun _ _ _ => ⟨rfl, rfl⟩, ⟨rfl, hne⟩, ⟨rfl, hne⟩⟩

/-! ## Generator states of the workers of the RReLU forward pass -/

/-- The workers of the counterexample to C23: for 10 elements and a pool of 4 states the code
runs 256 workers; workers 0 and 4 both process an element and both copy state 0. -/
theorem workers_share_state :
    mloRReLUForward5dRunHost_num_threads 4 10 = some 256 ∧
      (0 : Int) < min 256 10 ∧ (4 : Int) < min 256 10 ∧
      mloRReLUForward5dRunHost_state_index 4 0 = mloRReLUForward5dRunHost_state_index 4 4 :=
  ⟨by decide, by decide, by decide, by decide⟩

/-- Claim C23, as amended: For every element count `E` and pool size `1 ≤ S < 2^31`, with the
worker count `W` that `mloRReLUForward5dRunHost` computes, any two distinct workers that process
an element (`gid < min(W, E)`) copy different generator states if and only if at most `S`
workers process an element (`min(W, E) ≤ S`); this is so whenever `E ≤ S`. -/
theorem workers_own_distinct_states_iff (E S : Nat) (W : Int) (hS : 1 ≤ S) (hS31 : S < 2 ^ 31)
    (_hW : mloRReLUForward5dRunHost_num_threads S E = some W) :
    ((∀ g1 g2 : Int, 0 ≤ g1 → g1 < min W E → 0 ≤ g2 → g2 < min W E → g1 ≠ g2 →
        mloRReLUForward5dRunHost_state_index S g1 ≠ mloRReLUForward5dRunHost_state_index S g2) ↔
      min W (E : Int) ≤ S) ∧
    (E ≤ S → min W (E : Int) ≤ S) := by
  have hw : wrapInt32 (S : Int) = S := wrapInt32_of_range _ (by omega) (by omega)
  have hidx : ∀ g : Int, mloRReLUForward5dRunHost_state_index S g = some (Int.tmod g S) := by
    intro g
    unfold mloRReLUForward5dRunHost_state_index
    simp only [hw]
    rw [if_neg (by omega)]
  refine ⟨⟨?_, ?_⟩, ?_⟩
  · intro h
    by_contra hlt
    have hlt2 : (S : Int) < min W E := by omega
    have := h 0 S (le_refl _) (by omega) (by omega) hlt2 (by omega)
    rw [hidx, hidx] at this
    apply this
    simp
  · intro hle g1 g2 h1 h1b h2 h2b hne
    rw [hidx, hidx, Int.tmod_eq_emod h1 (by omega), Int.tmod_eq_emod h2 (by omega),
      Int.emod_eq_of_lt h1 (by omega), Int.emod_eq_of_lt h2 (by omega)]
    intro h
    exact hne (Option.some.inj h)
  · intro h
    have : (E : Int) ≤ S := by exact_mod_cast h
    omega

theorem workers_own_distinct_states_iff_witness :
    ((∀ g1 g2 : Int, 0 ≤ g1 → g1 < min 256 ((3 : Nat) : Int) → 0 ≤ g2 →
        g2 < min 256 ((3 : Nat) : Int) → g1 ≠ g2 →
        mloRReLUForward5dRunHost_state_index 4 g1 ≠ mloRReLUForward5dRunHost_state_index 4 g2) ↔
      min 256 ((3 : Nat) : Int) ≤ ((4 : Nat) : Int)) ∧
    (3 ≤ 4 → min 256 ((3 : Nat) : Int) ≤ ((4 : Nat) : Int)) :=
  workers_own_distinct_states_iff 3 4 256 (by decide) (by decide) (by decide)

/-! ## The workspace test of the SmoothL1Loss driver -/

/-- The run of the counterexample to C25: in no-reduction mode the driver does not return the
allocation-failure status when the workspace-size query has yielded `static_cast<size_t>(-1)`;
it sets the workspace size to 0 and returns success. -/
theorem AllocateBuffersAndCopy_ignores_sentinel_without_reduction :
    SmoothL1LossDriver.AllocateBuffersAndCopy .MIOPEN_LOSS_NO_REDUCTION (wrapUInt64 (-1)) =
      (.miopenStatusSuccess, 0) := by
  decide

/-- Claim C25, as amended: `SmoothL1LossDriver::AllocateBuffersAndCopy` returns the
allocation-failure status if and only if the workspace-size query yields
`static_cast<size_t>(-1)` and the reduction mode is not no-reduction; in every other case, the
no-reduction mode with the sentinel included, it sets the workspace size to 0 and returns
success. -/
theorem AllocateBuffersAndCopy_status (reduction : miopenLossReduction_t) (ws_query : Nat) :
    ((SmoothL1LossDriver.AllocateBuffersAndCopy reduction ws_query).1 = .miopenStatusAllocFailed ↔
      reduction ≠ .MIOPEN_LOSS_NO_REDUCTION ∧ ws_query = 2 ^ 64 - 1) ∧
    (¬ (reduction ≠ .MIOPEN_LOSS_NO_REDUCTION ∧ ws_query = 2 ^ 64 - 1) →
      SmoothL1LossDriver.AllocateBuffersAndCopy reduction ws_query = (.miopenStatusSuccess, 0)) := by
  have hs : wrapUInt64 (-1) = 2 ^ 64 - 1 := by decide
  unfold SmoothL1LossDriver.AllocateBuffersAndCopy
  rw [hs]
  by_cases h : reduction ≠ .MIOPEN_LOSS_NO_REDUCTION ∧ ws_query = 2 ^ 64 - 1
  · rw [if_pos h]
    simp [h]
  · rw [if_neg h]
    exact ⟨⟨fun hc => by simp at hc, fun h2 => absurd h2 h⟩, fun _ => rfl⟩

theorem AllocateBuffersAndCopy_status_witness :
    SmoothL1LossDriver.AllocateBuffersAndCopy .MIOPEN_LOSS_MEAN_REDUCTION 1024 =
      (.miopenStatusSuccess, 0) :=
  (AllocateBuffersAndCopy_status .MIOPEN_LOSS_MEAN_REDUCTION 1024).2 (by decide)

/-! ## Contiguous descriptors of equal lengths -/

theorem checkSameStride_loop_release (x y : TensorDescriptor) (l : List Nat) :
    smoothl1loss.checkSameStride_loop false x y l = .ok true ↔
      ∀ i ∈ l, x.strides[i]? = y.strides[i]? := by
  induction l with
  | nil => simp [smoothl1loss.checkSameStride_loop]
  | cons i rest ih =>
    unfold smoothl1loss.checkSameStride_loop
    simp only [TensorDescriptor.GetStrides]
    by_cases h : x.strides[i]? = y.strides[i]?
    · rw [if_neg (not_not.mpr h), ih]
      simp [h]
    · rw [if_pos h]
      simp [validationFailure, h]

theorem checkContiguous_release_strides (x : TensorDescriptor) :
    smoothl1loss.checkContiguous false x = .ok true ↔
      ∀ i, i < x.lens.length → x.strides[i]? = some ((x.lens.drop (i + 1)).prod % 2 ^ 64) := by
  have h := checkContiguous_loop_release x x.lens.length (le_refl _)
  rw [List.drop_length, List.prod_nil] at h
  exact h

theorem checkSameLength_release_lens (x y : TensorDescriptor) :
    smoothl1loss.checkSameLength false x y = .ok true ↔ x.lens = y.lens := by
  unfold smoothl1loss.checkSameLength
  simp only [TensorDescriptor.GetSize]
  by_cases h : x.lens.length = y.lens.length
  · rw [if_neg (not_not.mpr h), (checkSameLength_loop_release x y _).1]
    constructor
    · intro hall
      apply List.ext_getElem? 
      intro i
      by_cases hi : i < x.lens.length
      · exact hall i (List.mem_range.mpr hi)
      · rw [List.getElem?_eq_none (by omega), List.getElem?_eq_none (by omega)]
    · intro heq i _
      rw [heq]
  · rw [if_pos h]
    constructor
    · intro hc
      simp [validationFailure] at hc
    · intro heq
      exact absurd (congrArg List.length heq) h

theorem checkContiguous_any_mode (dev : Bool) (x : TensorDescriptor) :
    smoothl1loss.checkContiguous dev x = .ok true ↔
      smoothl1loss.checkContiguous false x = .ok true := by
  cases dev
  · exact Iff.rfl
  · exact (checkContiguous_loop_agree x _ 1).2.1

theorem checkSameLength_any_mode (dev : Bool) (x y : TensorDescriptor) :
    smoothl1loss.checkSameLength dev x y = .ok true ↔
      smoothl1loss.checkSameLength false x y = .ok true := by
  cases dev
  · exact Iff.rfl
  · unfold smoothl1loss.checkSameLength
    split
    · exact ModesAgree.failure.2.1
    · exact (checkSameLength_loop_agree x y _).2.1

theorem checkSameStride_any_mode (dev : Bool) (x y : TensorDescriptor) :
    smoothl1loss.checkSameStride dev x y = .ok true ↔
      smoothl1loss.checkSameStride false x y = .ok true := by
  cases dev
  · exact Iff.rfl
  · unfold smoothl1loss.checkSameStride
    split
    · exact ModesAgree.failure.2.1
    · exact (checkSameStride_loop_agree x y _).2.1

/-- Claim C26: For any two tensor descriptors `x` and `y`, in either build mode, if
`checkContiguous(x)`, `checkContiguous(y)` and `checkSameLength(x, y)` return `true`, then
`checkSameStride(x, y)` returns `true`. -/
theorem contiguous_same_length_same_stride (dev : Bool) (x y : TensorDescriptor)
    (hx : smoothl1loss.checkContiguous dev x = .ok true)
    (hy : smoothl1loss.checkContiguous dev y = .ok true)
    (hxy : smoothl1loss.checkSameLength dev x y = .ok true) :
    smoothl1loss.checkSameStride dev x y = .ok true := by
  rw [checkContiguous_any_mode, checkContiguous_release_strides] at hx hy
  rw [checkSameLength_any_mode, checkSameLength_release_lens] at hxy
  rw [checkSameStride_any_mode]
  unfold smoothl1loss.checkSameStride
  simp only [TensorDescriptor.GetSize]
  rw [if_neg (not_not.mpr (congrArg List.length hxy)), checkSameStride_loop_release]
  intro i hi
  have hi2 := List.mem_range.mp hi
  rw [hx i hi2, hy i (hxy ▸ hi2), hxy]

theorem contiguous_same_length_same_stride_witness :
    smoothl1loss.checkSameStride true ⟨[2, 1, 3], [3, 3, 1], 0⟩ ⟨[2, 1, 3], [3, 3, 1], 1⟩ =
      .ok true :=
  contiguous_same_length_same_stride true ⟨[2, 1, 3], [3, 3, 1], 0⟩ ⟨[2, 1, 3], [3, 3, 1], 1⟩
    rfl rfl rfl

/-! ## The draws of a worker of the RReLU forward pass -/

theorem forward_fold {G R Tgpu Tcheck F : Type} (xorwow_next : G → R × G)
    (alphaOf : R → F) (one : F) (isNegative : Tgpu → Bool) (scale : Tgpu → F → Tcheck)
    (input_tv output_tv : tensor_view_t 5) (input : Nat → Tgpu)
    (hpos : ∀ k : Fin 5, 0 < k.val → 0 < input_tv.size k) (l : List Int) :
    ∀ st : ForwardWorkerState G Tcheck F, (∀ x ∈ l, 0 ≤ x ∧ x < 2 ^ 31) →
      ∃ st2, l.foldlM (mloRReLUForward5dRunHost_body xorwow_next alphaOf one isNegative scale
          input_tv output_tv input) st = some st2 ∧
        st2.draws = st.draws + l.countP (fun i => (tensor_layout_t input_tv i.toNat).any
          (fun layout => isNegative (input (input_tv.get_tensor_view_idx layout)))) := by
  induction l with
  | nil => intro st _; exact ⟨st, rfl, rfl⟩
  | cons i rest ih =>
    intro st hl
    have hi := hl i (List.mem_cons_self i rest)
    have hu : wrapUInt64 i = i.toNat := by
      have h := wrapUInt64_of_range i hi.1 (by omega)
      omega
    rw [List.foldlM_cons, List.countP_cons]
    have hlay := tensor_layout_t_of_pos input_tv i.toNat hpos
    by_cases hneg : isNegative (input (input_tv.get_tensor_view_idx (fun k : Fin 5 =>
        if k.val = 0 then tensor_layout_rest input_tv i.toNat (5 - 1)
        else tensor_layout_rest input_tv i.toNat (5 - 1 - k.val) % input_tv.size k))) = true
    · have hb : mloRReLUForward5dRunHost_body xorwow_next alphaOf one isNegative scale input_tv
          output_tv input st i = some ⟨(xorwow_next st.curState).2,
            Function.update st.output_host (output_tv.get_tensor_view_idx (fun k : Fin 5 =>
              if k.val = 0 then tensor_layout_rest input_tv i.toNat (5 - 1)
              else tensor_layout_rest input_tv i.toNat (5 - 1 - k.val) % input_tv.size k))
              (scale (input (input_tv.get_tensor_view_idx (fun k : Fin 5 =>
                if k.val = 0 then tensor_layout_rest input_tv i.toNat (5 - 1)
                else tensor_layout_rest input_tv i.toNat (5 - 1 - k.val) % input_tv.size k)))
                (alphaOf (xorwow_next st.curState).1)),
            Function.update st.noise_host i.toNat (alphaOf (xorwow_next st.curState).1),
            st.draws + 1⟩ := by
        unfold mloRReLUForward5dRunHost_body
        simp [hu, hlay, hneg, not_lt.mpr hi.1]
      obtain ⟨st2, h2, hd⟩ := ih _ (fun x hx => hl x (List.mem_cons_of_mem i hx))
      refine ⟨st2, ?_, ?_⟩
      · rw [hb]
        exact h2
      · rw [hd, hlay]
        simp [hneg]
        omega
    · have hb : mloRReLUForward5dRunHost_body xorwow_next alphaOf one isNegative scale input_tv
          output_tv input st i = some ⟨st.curState,
            Function.update st.output_host (output_tv.get_tensor_view_idx (fun k : Fin 5 =>
              if k.val = 0 then tensor_layout_rest input_tv i.toNat (5 - 1)
              else tensor_layout_rest input_tv i.toNat (5 - 1 - k.val) % input_tv.size k))
              (scale (input (input_tv.get_tensor_view_idx (fun k : Fin 5 =>
                if k.val = 0 then tensor_layout_rest input_tv i.toNat (5 - 1)
                else tensor_layout_rest input_tv i.toNat (5 - 1 - k.val) % input_tv.size k)))
                one),
            Function.update st.noise_host i.toNat one, st.draws⟩ := by
        unfold mloRReLUForward5dRunHost_body
        simp [hu, hlay, hneg, not_lt.mpr hi.1]
      obtain ⟨st2, h2, hd⟩ := ih _ (fun x hx => hl x (List.mem_cons_of_mem i hx))
      refine ⟨st2, ?_, ?_⟩
      · rw [hb]
        exact h2
      · rw [hd, hlay]
        simp [hneg]

theorem forward_worker_perm (E : Nat) (W gid : Int) (hE : E ≤ 2 ^ 31) (hW0 : 0 < W)
    (hW : W < 2 ^ 31) (hg0 : 0 ≤ gid) (hg : gid < W) :
    ∃ l, mloRReLUForward5dRunHost_worker E W gid = some l ∧
      l.Perm (((List.range E).filter (fun i : Nat => decide ((i : Int) % W = gid))).map (fun i : Nat => (i : Int))) := by
  obtain ⟨l, hl, hc⟩ := forward_worker_loop_count E W hE hW0 hW (E + 1) gid hg0 (by omega)
    (by omega) (by push_cast; omega)
  refine ⟨l, hl, ?_⟩
  rw [List.perm_iff_count]
  intro a
  have hnd : (((List.range E).filter (fun i : Nat => decide ((i : Int) % W = gid))).map (fun i : Nat => (i : Int))).Nodup :=
    List.Nodup.map (fun _ _ h => Int.ofNat.inj h) (List.Nodup.filter _ (List.nodup_range E))
  rw [hc a, List.count_eq_of_nodup hnd]
  have hmem : a ∈ (((List.range E).filter (fun i : Nat => decide ((i : Int) % W = gid))).map (fun i : Nat => (i : Int))) ↔
      (gid ≤ a ∧ a < E ∧ W ∣ (a - gid)) := by
    rw [List.mem_map]
    constructor
    · rintro ⟨i, hi, rfl⟩
      rw [List.mem_filter, List.mem_range] at hi
      have h2 : ((i : Nat) : Int) % W = gid := by simpa using hi.2
      have h3 := (owner_iff W gid (i : Int) hW0 hg0 hg (by omega)).mpr h2
      exact ⟨h3.1, by exact_mod_cast hi.1, h3.2⟩
    · rintro ⟨c1, c2, c3⟩
      refine ⟨a.toNat, ?_, ?_⟩
      · rw [List.mem_filter, List.mem_range]
        have e : ((a.toNat : Nat) : Int) = a := Int.toNat_of_nonneg (by omega)
        refine ⟨by omega, ?_⟩
        simp only [decide_eq_true_eq]
        rw [e]
        exact (owner_iff W gid a hW0 hg0 hg (by omega)).mp ⟨c1, c3⟩
      · exact Int.toNat_of_nonneg (by omega)
  by_cases h : gid ≤ a ∧ a < E ∧ W ∣ (a - gid)
  · rw [if_pos h, if_pos (hmem.mpr h)]
  · rw [if_neg h, if_neg (fun h2 => h (hmem.mp h2))]

/-- The worker of the counterexample to C24: one element with the input value 5, a pool of 4
states and the 256 workers that the code computes for it.  Worker 0 processes the flat index 0,
the only index `i < 1` with `i mod 256 = 0`, and takes no draw: its generator state is the one
it has copied and the noise of the element is 1. -/
theorem forward_worker_takes_no_draw :
    mloRReLUForward5dRunHost_num_threads 4 1 = some 256 ∧
    ((List.range 1).filter (fun i : Nat => decide ((i : Int) % 256 = 0))).length = 1 ∧
    (mloRReLUForward5dRunHost_run (fun g : Nat => (g, g + 1)) (fun r : Nat => (r : Int)) 1
        (fun x : Int => decide (x < 0)) (fun x a => x * a) [100, 200, 300, 400]
        ⟨fun _ => 1, fun _ => 1⟩ ⟨fun _ => 1, fun _ => 1⟩ (fun _ => 5) 1 256 0
        (fun _ => 0) (fun _ => 0)).map (fun st => (st.draws, st.curState, st.noise_host 0)) =
      some (0, 100, 1) :=
  ⟨by decide, by decide, by decide⟩

/-- Claim C24, as amended: In `mloRReLUForward5dRunHost`, for `E ≤ 2^31` elements, `0 < W < 2^31`
workers and a pool of fewer than `2^31` states, the work of every worker `gid` in `0..W-1` ends,
and the worker advances its generator exactly once for every element it processes whose input
value is negative: the number of draws it takes equals the number of flat indices `i < E` with
`i mod W = gid` and a negative input value.  For the other elements no draw is taken. -/
theorem forward_draws_count {G R Tgpu Tcheck F : Type} (xorwow_next : G → R × G)
    (alphaOf : R → F) (one : F) (isNegative : Tgpu → Bool) (scale : Tgpu → F → Tcheck)
    (states : List G) (input_tv output_tv : tensor_view_t 5) (input : Nat → Tgpu)
    (E : Nat) (W gid : Int) (output_host : Nat → Tcheck) (noise_host : Nat → F)
    (hE : E ≤ 2 ^ 31) (hW0 : 0 < W) (hW : W < 2 ^ 31) (hg0 : 0 ≤ gid) (hg : gid < W)
    (hS : 0 < states.length) (hS31 : states.length < 2 ^ 31)
    (hpos : ∀ k : Fin 5, 0 < k.val → 0 < input_tv.size k) :
    ∃ st, mloRReLUForward5dRunHost_run xorwow_next alphaOf one isNegative scale states input_tv
        output_tv input E W gid output_host noise_host = some st ∧
      st.draws = ((List.range E).filter (fun i : Nat => decide ((i : Int) % W = gid) &&
        (tensor_layout_t input_tv i).any
          (fun layout => isNegative (input (input_tv.get_tensor_view_idx layout))))).length := by
  obtain ⟨l, hl, hperm⟩ := forward_worker_perm E W gid hE hW0 hW hg0 hg
  have hrange : ∀ x ∈ l, 0 ≤ x ∧ x < 2 ^ 31 := by
    intro x hx
    have := hperm.mem_iff.mp hx
    rw [List.mem_map] at this
    obtain ⟨i, hi, rfl⟩ := this
    rw [List.mem_filter, List.mem_range] at hi
    have : ((i : Nat) : Int) < 2 ^ 31 := by
      have := hi.1
      push_cast
      omega
    exact ⟨Int.ofNat_nonneg i, this⟩
  have hw : wrapInt32 (states.length : Int) = states.length :=
    wrapInt32_of_range _ (by omega) (by omega)
  have hk0 : 0 ≤ Int.tmod gid states.length := by
    rw [Int.tmod_eq_emod hg0 (by omega)]
    exact Int.emod_nonneg _ (by omega)
  have hk1 : (Int.tmod gid states.length).toNat < states.length := by
    have : Int.tmod gid states.length < states.length := by
      rw [Int.tmod_eq_emod hg0 (by omega)]
      exact Int.emod_lt_of_pos _ (by omega)
    omega
  obtain ⟨st, hst, hd⟩ := forward_fold xorwow_next alphaOf one isNegative scale input_tv
    output_tv input hpos l
    ⟨states[(Int.tmod gid states.length).toNat], output_host, noise_host, 0⟩ hrange
  refine ⟨st, ?_, ?_⟩
  · unfold mloRReLUForward5dRunHost_run mloRReLUForward5dRunHost_state_index
    simp only [hw]
    rw [if_neg (by omega)]
    simp [hl, not_lt.mpr hk0, List.getElem?_eq_getElem hk1]
    exact hst
  · rw [hd, Nat.zero_add, hperm.countP_eq, List.countP_map, List.countP_filter,
      List.countP_eq_length_filter]
    refine congrArg List.length (List.filter_congr ?_)
    intro i _
    exact Bool.and_comm _ _

theorem forward_draws_count_witness :
    ∃ st, mloRReLUForward5dRunHost_run (fun g : Nat => (g, g + 1)) (fun r : Nat => (r : Int)) 1
        (fun x : Int => decide (x < 0)) (fun x a => x * a) [100, 200, 300, 400]
        ⟨fun _ => 1, fun _ => 1⟩ ⟨fun _ => 1, fun _ => 1⟩ (fun i => if i = 0 then -5 else 5) 3
        2 0 (fun _ => 0) (fun _ => 0) = some st ∧
      st.draws = ((List.range 3).filter (fun i : Nat => decide ((i : Int) % 2 = 0) &&
        (tensor_layout_t (⟨fun _ => 1, fun _ => 1⟩ : tensor_view_t 5) i).any
          (fun layout => decide ((if (⟨fun _ => 1, fun _ => 1⟩ :
            tensor_view_t 5).get_tensor_view_idx layout = 0 then (-5 : Int) else 5) < 0)))).length :=
  forward_draws_count _ _ _ _ _ _ _ _ _ 3 2 0 _ _ (by decide) (by decide) (by decide)
    (by decide) (by decide) (by decide) (by decide) (by intro k _; exact Nat.one_pos)

/-! ## Packed strides and `checkRightStride` -/

theorem pairLE_total (a b : Nat × Nat) : pairLE a b ∨ pairLE b a := by
  unfold pairLE
  omega

theorem pairLE_trans (a b c : Nat × Nat) (h1 : pairLE a b) (h2 : pairLE b c) : pairLE a c := by
  unfold pairLE at *
  omega

theorem pairLE_antisymm (a b : Nat × Nat) (h1 : pairLE a b) (h2 : pairLE b a) : a = b := by
  unfold pairLE at *
  apply Prod.ext <;> omega

/-- A sorted list is the result of sorting each of its permutations. -/
theorem insertionSort_eq_of_perm (l q : List (Nat × Nat)) (hp : l.Perm q)
    (hs : q.Sorted pairLE) : List.insertionSort pairLE l = q :=
  haveI : IsTotal (Nat × Nat) pairLE := ⟨pairLE_total⟩
  haveI : IsTrans (Nat × Nat) pairLE := ⟨pairLE_trans⟩
  haveI : IsAntisymm (Nat × Nat) pairLE := ⟨pairLE_antisymm⟩
  List.eq_of_perm_of_sorted ((List.perm_insertionSort pairLE l).trans hp)
    (List.sorted_insertionSort pairLE l) hs

theorem insertionSort_congr_perm (l q : List (Nat × Nat)) (hp : l.Perm q) :
    List.insertionSort pairLE l = List.insertionSort pairLE q :=
  haveI : IsTotal (Nat × Nat) pairLE := ⟨pairLE_total⟩
  haveI : IsTrans (Nat × Nat) pairLE := ⟨pairLE_trans⟩
  insertionSort_eq_of_perm l _ (hp.trans (List.perm_insertionSort pairLE q).symm)
    (List.sorted_insertionSort pairLE q)

/-- The result of `checkRightStride` depends on the pairs (stride, length) only, not on their
order. -/
theorem checkRightStride_congr_perm (dev : Bool) (x y : TensorDescriptor)
    (hp : (List.zip x.strides x.lens).Perm (List.zip y.strides y.lens)) :
    smoothl1loss.checkRightStride dev x = smoothl1loss.checkRightStride dev y := by
  unfold smoothl1loss.checkRightStride
  simp only [TensorDescriptor.GetStrides, TensorDescriptor.GetLengths]
  rw [insertionSort_congr_perm _ _ hp]

theorem packedStrides_length (L : List Nat) : (packedStrides L).length = L.length := by
  induction L with
  | nil => rfl
  | cons l rest ih => simp [packedStrides, ih]

theorem packedStrides_getElem? (L : List Nat) :
    ∀ i, i < L.length → (packedStrides L)[i]? = some (L.drop (i + 1)).prod := by
  induction L with
  | nil => intro i hi; simp at hi
  | cons l rest ih =>
    intro i hi
    cases i with
    | zero => simp [packedStrides]
    | succ i =>
      simp only [packedStrides, List.getElem?_cons_succ, List.drop_succ_cons]
      exact ih i (by simpa using hi)

theorem zip_packed_getElem? (L : List Nat) (k : Nat) (hk : k < L.length) :
    (List.zip (packedStrides L) L)[k]? = some ((L.drop (k + 1)).prod, L[k]) :=
  List.getElem?_zip_eq_some.mpr ⟨packedStrides_getElem? L k hk, List.getElem?_eq_getElem hk⟩

theorem drop_prod_le (L : List Nat) (hpos : ∀ l ∈ L, 0 < l) (k : Nat) :
    (L.drop k).prod ≤ L.prod := by
  have h := List.prod_take_mul_prod_drop L k
  have hp : 0 < (L.take k).prod := List.prod_pos (fun a ha => hpos a (List.mem_of_mem_take ha))
  calc (L.drop k).prod = 1 * (L.drop k).prod := (Nat.one_mul _).symm
    _ ≤ (L.take k).prod * (L.drop k).prod := Nat.mul_le_mul_right _ hp
    _ = L.prod := h

theorem zip_packed_mem (L : List Nat) (hpos : ∀ l ∈ L, 0 < l) :
    ∀ x ∈ List.zip (packedStrides L) L, 0 < x.1 ∧ 0 < x.2 ∧ x.1 * x.2 ≤ L.prod := by
  induction L with
  | nil => intro x hx; simp [packedStrides] at hx
  | cons l rest ih =>
    intro x hx
    have hl : 0 < l := hpos l (List.mem_cons_self l rest)
    have hrest : ∀ a ∈ rest, 0 < a := fun a ha => hpos a (List.mem_cons_of_mem l ha)
    have hrp : 0 < rest.prod := List.prod_pos hrest
    simp only [packedStrides, List.zip_cons_cons, List.mem_cons] at hx
    rcases hx with rfl | hx
    · refine ⟨hrp, hl, ?_⟩
      rw [List.prod_cons, Nat.mul_comm]
    · obtain ⟨h1, h2, h3⟩ := ih hrest x hx
      refine ⟨h1, h2, ?_⟩
      rw [List.prod_cons]
      calc x.1 * x.2 ≤ rest.prod := h3
        _ = 1 * rest.prod := (Nat.one_mul _).symm
        _ ≤ l * rest.prod := Nat.mul_le_mul_right _ hl

theorem zip_packed_sorted (L : List Nat) (hpos : ∀ l ∈ L, 0 < l) :
    (List.zip (packedStrides L) L).reverse.Sorted pairLE := by
  induction L with
  | nil => simp [packedStrides, List.Sorted]
  | cons l rest ih =>
    have hl : 0 < l := hpos l (List.mem_cons_self l rest)
    have hrest : ∀ a ∈ rest, 0 < a := fun a ha => hpos a (List.mem_cons_of_mem l ha)
    simp only [packedStrides, List.zip_cons_cons, List.reverse_cons]
    unfold List.Sorted
    rw [List.pairwise_append]
    refine ⟨ih hrest, List.pairwise_singleton _ _, ?_⟩
    intro a ha b hb
    rw [List.mem_singleton] at hb
    subst hb
    obtain ⟨h1, h2, h3⟩ := zip_packed_mem rest hrest a (List.mem_reverse.mp ha)
    unfold pairLE
    simp only
    have h4 : a.1 ≤ a.1 * a.2 := Nat.le_mul_of_pos_right _ h2
    by_cases h : a.1 < rest.prod
    · exact Or.inl h
    · right
      have e : a.1 = rest.prod := by omega
      refine ⟨e, ?_⟩
      have h5 : a.1 * a.2 ≤ a.1 * 1 := by omega
      have := Nat.le_of_mul_le_mul_left h5 h1
      omega

theorem checkRightStride_loop_true (dev : Bool) (p : List (Nat × Nat)) (idx : List Nat)
    (h : ∀ i ∈ idx, (p[i]?.map Prod.fst) = (p[i - 1]?.map (fun q => q.1 * q.2 % 2 ^ 64))) :
    smoothl1loss.checkRightStride_loop dev p idx = .ok true := by
  induction idx with
  | nil => rfl
  | cons i rest ih =>
    unfold smoothl1loss.checkRightStride_loop
    rw [if_neg (not_not.mpr (h i (List.mem_cons_self i rest)))]
    exact ih (fun j hj => h j (List.mem_cons_of_mem i hj))

/-- The packed row-major layout of lengths that are all positive, with fewer than `2^64`
elements, passes `checkRightStride`. -/
theorem checkRightStride_packed (dev : Bool) (L : List Nat) (t : Nat)
    (hpos : ∀ l ∈ L, 0 < l) (hprod : L.prod < 2 ^ 64) :
    smoothl1loss.checkRightStride dev ⟨L, packedStrides L, t⟩ = .ok true := by
  unfold smoothl1loss.checkRightStride
  simp only [TensorDescriptor.GetStrides, TensorDescriptor.GetLengths]
  rw [insertionSort_eq_of_perm _ _ (List.reverse_perm _).symm (zip_packed_sorted L hpos)]
  apply checkRightStride_loop_true
  intro i hi
  have hlenZ : (List.zip (packedStrides L) L).length = L.length := by
    simp [packedStrides_length]
  have hi2 := List.mem_of_mem_drop hi
  rw [List.mem_range, List.length_reverse, hlenZ] at hi2
  have hi1 : 1 ≤ i := by
    rcases Nat.eq_zero_or_pos i with h0 | h0
    · subst h0
      exfalso
      rw [List.length_reverse, hlenZ] at hi
      have hnd : (List.range L.length).Nodup := List.nodup_range _
      have hL : 0 < L.length := hi2
      have e : List.range L.length = 0 :: (List.range L.length).drop 1 := by
        cases hLl : L.length with
        | zero => omega
        | succ n => rw [List.range_succ_eq_map]; rfl
      rw [e] at hnd
      exact (List.nodup_cons.mp hnd).1 hi
    · exact h0
  rw [List.getElem?_reverse (by rw [hlenZ]; exact hi2),
    List.getElem?_reverse (by rw [hlenZ]; omega), hlenZ,
    zip_packed_getElem? L _ (by omega), zip_packed_getElem? L _ (by omega)]
  simp only [Option.map_some']
  have e1 : L.length - 1 - (i - 1) = (L.length - 1 - i) + 1 := by omega
  have hd := List.drop_eq_getElem_cons (l := L) (n := L.length - 1 - i + 1) (by omega)
  have hle := drop_prod_le L hpos (L.length - 1 - i + 1)
  congr 1
  simp only [e1]
  have hmul : (L.drop (L.length - 1 - i + 1 + 1)).prod * L[L.length - 1 - i + 1] =
      (L.drop (L.length - 1 - i + 1)).prod := by
    rw [hd, List.prod_cons, Nat.mul_comm]
  rw [hmul, Nat.mod_eq_of_lt (lt_of_le_of_lt hle hprod)]

theorem strides_eq_packed (x : TensorDescriptor) (hlen : x.strides.length = x.lens.length)
    (hpos : ∀ l ∈ x.lens, 0 < l) (hprod : x.lens.prod < 2 ^ 64)
    (hc : smoothl1loss.checkContiguous false x = .ok true) :
    x.strides = packedStrides x.lens := by
  rw [checkContiguous_release_strides] at hc
  apply List.ext_getElem?
  intro i
  by_cases hi : i < x.lens.length
  · rw [hc i hi, packedStrides_getElem? _ i hi,
      Nat.mod_eq_of_lt (lt_of_le_of_lt (drop_prod_le x.lens hpos (i + 1)) hprod)]
  · rw [List.getElem?_eq_none (by omega),
      List.getElem?_eq_none (by rw [packedStrides_length]; omega)]

/-- The descriptor of the counterexample to C27: all lengths are at least 1 and `checkContiguous`
accepts it, the stride 0 of axis 0 being the product `2^64` of the lengths after it as `size_t`
holds it; `checkRightStride` returns `false`. -/
theorem checkRightStride_rejects_wrapped_contiguous :
    smoothl1loss.checkContiguous false
        ⟨[1, 4294967296, 4294967296], [0, 4294967296, 1], 0⟩ = .ok true ∧
      (∀ l ∈ ([1, 4294967296, 4294967296] : List Nat), 1 ≤ l) ∧
      smoothl1loss.checkRightStride false
        ⟨[1, 4294967296, 4294967296], [0, 4294967296, 1], 0⟩ = .ok false :=
  ⟨rfl, by decide, rfl⟩

/-- Claim C27, as amended: For every tensor descriptor with all lengths at least 1 and fewer
than `2^64` elements that `checkContiguous` accepts, `checkRightStride` also returns `true`, in
either build mode; lengths that are 1 and the repeated strides they bring are included. -/
theorem checkRightStride_of_checkContiguous (dev : Bool) (x : TensorDescriptor)
    (hlen : x.strides.length = x.lens.length) (hpos : ∀ l ∈ x.lens, 1 ≤ l)
    (hprod : x.lens.prod < 2 ^ 64) (hc : smoothl1loss.checkContiguous dev x = .ok true) :
    smoothl1loss.checkRightStride dev x = .ok true := by
  rw [checkContiguous_any_mode] at hc
  have hs := strides_eq_packed x hlen hpos hprod hc
  have hx : x = ⟨x.lens, packedStrides x.lens, x.type⟩ := by
    cases x
    simp only at hs
    rw [hs]
  rw [hx]
  exact checkRightStride_packed dev x.lens x.type hpos hprod

theorem checkRightStride_of_checkContiguous_witness :
    smoothl1loss.checkRightStride true ⟨[2, 1, 3, 1], [3, 3, 1, 1], 0⟩ = .ok true :=
  checkRightStride_of_checkContiguous true ⟨[2, 1, 3, 1], [3, 3, 1, 1], 0⟩ rfl (by decide)
    (by decide) rfl

/-! ## The strides that the drivers form -/

theorem swapFrontBack_mid {α : Type} (a z : α) (mid : List α) :
    swapFrontBack (a :: (mid ++ [z])) = z :: (mid ++ [a]) := by
  cases mid with
  | nil => rfl
  | cons m mid =>
    simp only [List.cons_append, swapFrontBack]
    have h1 : (m :: (mid ++ [z])).getLast (List.cons_ne_nil _ _) = z := by
      simp
    have h2 : (m :: (mid ++ [z])).dropLast = m :: mid := by
      rw [← List.cons_append, List.dropLast_concat]
    rw [h1, h2]
    rfl

theorem swapFrontBack_cases {α : Type} (l : List α) :
    l = [] ∨ (∃ a, l = [a]) ∨ ∃ a mid z, l = a :: (mid ++ [z]) := by
  cases l with
  | nil => exact Or.inl rfl
  | cons a tail =>
    right
    rcases List.eq_nil_or_concat tail with h | ⟨mid, z, h⟩
    · left
      exact ⟨a, by rw [h]⟩
    · right
      exact ⟨a, mid, z, by rw [h, List.concat_eq_append]⟩

theorem swapFrontBack_length {α : Type} (l : List α) : (swapFrontBack l).length = l.length := by
  rcases swapFrontBack_cases l with rfl | ⟨a, rfl⟩ | ⟨a, mid, z, rfl⟩
  · rfl
  · rfl
  · rw [swapFrontBack_mid]
    simp

theorem swapFrontBack_map {α β : Type} (f : α → β) (l : List α) :
    swapFrontBack (l.map f) = (swapFrontBack l).map f := by
  rcases swapFrontBack_cases l with rfl | ⟨a, rfl⟩ | ⟨a, mid, z, rfl⟩
  · rfl
  · rfl
  · rw [swapFrontBack_mid]
    simp only [List.map_cons, List.map_append, List.map_nil]
    rw [swapFrontBack_mid]

theorem swapFrontBack_perm {α : Type} (l : List α) : (swapFrontBack l).Perm l := by
  rcases swapFrontBack_cases l with rfl | ⟨a, rfl⟩ | ⟨a, mid, z, rfl⟩
  · exact List.Perm.refl _
  · exact List.Perm.refl _
  · rw [swapFrontBack_mid]
    have h1 : (z :: (mid ++ [a])).Perm (z :: a :: mid) :=
      List.Perm.cons z (List.perm_append_comm)
    have h2 : (a :: (mid ++ [z])).Perm (a :: z :: mid) :=
      List.Perm.cons a (List.perm_append_comm)
    exact h1.trans ((List.Perm.swap a z mid).trans h2.symm)

theorem swapFrontBack_involutive {α : Type} (l : List α) :
    swapFrontBack (swapFrontBack l) = l := by
  rcases swapFrontBack_cases l with rfl | ⟨a, rfl⟩ | ⟨a, mid, z, rfl⟩
  · rfl
  · rfl
  · rw [swapFrontBack_mid, swapFrontBack_mid]

theorem swapFrontBack_zip {α β : Type} (A : List α) (B : List β) (h : A.length = B.length) :
    List.zip (swapFrontBack A) (swapFrontBack B) = swapFrontBack (List.zip A B) := by
  rcases swapFrontBack_cases A with rfl | ⟨a, rfl⟩ | ⟨a, mid, z, rfl⟩
  · rfl
  · rcases swapFrontBack_cases B with rfl | ⟨b, rfl⟩ | ⟨b, mid2, z2, rfl⟩
    · simp at h
    · rfl
    · simp at h
  · rcases swapFrontBack_cases B with rfl | ⟨b, rfl⟩ | ⟨b, mid2, z2, rfl⟩
    · simp at h
    · simp at h
    · have hm : mid.length = mid2.length := by
        simp at h
        exact h
      rw [swapFrontBack_mid, swapFrontBack_mid, List.zip_cons_cons, List.zip_cons_cons,
        List.zip_append hm, List.zip_append hm]
      simp only [List.zip_cons_cons, List.zip_nil_right]
      rw [swapFrontBack_mid]

theorem GetStrides_loop_spec (M : List Nat) (hpos : ∀ l ∈ M, 0 < l) (hprod : M.prod < 2 ^ 31) :
    ∀ k, k + 1 ≤ M.length → ∀ s : List Int, s.length = M.length →
      (∀ j, k ≤ j → j < M.length → s[j]? = some (((M.drop (j + 1)).prod : Nat) : Int)) →
      ∃ s2, GetStrides_loop (M.map (fun l : Nat => (l : Int))) (List.range k).reverse s
          = some s2 ∧ s2.length = M.length ∧
        ∀ j, j < M.length → s2[j]? = some (((M.drop (j + 1)).prod : Nat) : Int) := by
  intro k
  induction k with
  | zero =>
    intro _ s hs hinv
    exact ⟨s, rfl, hs, fun j hj => hinv j (Nat.zero_le j) hj⟩
  | succ k ih =>
    intro hk s hs hinv
    rw [List.range_succ, List.reverse_append, List.reverse_singleton, List.singleton_append]
    unfold GetStrides_loop
    have h1 := hinv (k + 1) (le_refl _) (by omega)
    have h2 : (M.map (fun l : Nat => (l : Int)))[k + 1]? = some ((M[k + 1] : Nat) : Int) := by
      rw [List.getElem?_map, List.getElem?_eq_getElem (by omega)]
      rfl
    have hd := List.drop_eq_getElem_cons (l := M) (n := k + 1) (by omega)
    have hmul : (((M.drop (k + 1 + 1)).prod : Nat) : Int) * ((M[k + 1] : Nat) : Int) =
        (((M.drop (k + 1)).prod : Nat) : Int) := by
      rw [hd, List.prod_cons]
      push_cast
      ring
    have hle := drop_prod_le M hpos (k + 1)
    have hw : wrapInt32 ((((M.drop (k + 1 + 1)).prod : Nat) : Int) * ((M[k + 1] : Nat) : Int)) =
        (((M.drop (k + 1)).prod : Nat) : Int) := by
      rw [hmul]
      apply wrapInt32_of_range
      · have := Int.ofNat_nonneg (M.drop (k + 1)).prod
        omega
      · have : (((M.drop (k + 1)).prod : Nat) : Int) < 2 ^ 31 := by
          exact_mod_cast lt_of_le_of_lt hle hprod
        omega
    rw [h1, h2]
    simp only [Option.bind_eq_bind, Option.some_bind]
    rw [hw]
    apply ih (by omega) _ (by rw [List.length_set]; exact hs)
    intro j hkj hj
    rcases Nat.eq_or_lt_of_le hkj with rfl | hlt
    · rw [List.getElem?_set_self (by omega)]
    · rw [List.getElem?_set_ne (by omega)]
      exact hinv j (by omega) hj

theorem GetStrides_loop_packed (M : List Nat) (hne : M ≠ []) (hpos : ∀ l ∈ M, 0 < l)
    (hprod : M.prod < 2 ^ 31) :
    GetStrides_loop (M.map (fun l : Nat => (l : Int))) (List.range (M.length - 1)).reverse
        ((List.replicate M.length (0 : Int)).set (M.length - 1) 1) =
      some ((packedStrides M).map (fun l : Nat => (l : Int))) := by
  have hn : 0 < M.length := List.length_pos.mpr hne
  obtain ⟨s2, h1, h2, h3⟩ := GetStrides_loop_spec M hpos hprod (M.length - 1) (by omega)
    ((List.replicate M.length (0 : Int)).set (M.length - 1) 1) (by simp)
    (by
      intro j hj1 hj2
      have e : j = M.length - 1 := by omega
      subst e
      rw [List.getElem?_set_self (by simp; omega)]
      have e2 : M.length - 1 + 1 = M.length := by omega
      rw [e2, List.drop_length, List.prod_nil]
      rfl)
  rw [h1]
  congr 1
  apply List.ext_getElem?
  intro j
  by_cases hj : j < M.length
  · rw [h3 j hj, List.getElem?_map, packedStrides_getElem? M j hj]
    rfl
  · rw [List.getElem?_eq_none (by omega),
      List.getElem?_eq_none (by rw [List.length_map, packedStrides_length]; omega)]

theorem GetStrides_value (L : List Nat) (c : Int) (hne : L ≠ []) (hpos : ∀ l ∈ L, 0 < l)
    (hprod : L.prod < 2 ^ 31) :
    GetStrides (L.map (fun l : Nat => (l : Int))) c =
      some (if c = 0 then
          (swapFrontBack (packedStrides (swapFrontBack L))).map (fun l : Nat => (l : Int))
        else (packedStrides L).map (fun l : Nat => (l : Int))) := by
  unfold GetStrides
  have hm : L.map (fun l : Nat => (l : Int)) ≠ [] := by
    intro h
    exact hne (List.map_eq_nil_iff.mp h)
  by_cases hc : c = 0
  · have hne2 : swapFrontBack L ≠ [] := by
      intro h
      have := swapFrontBack_length L
      rw [h] at this
      exact hne (List.length_eq_zero.mp this.symm)
    have hpos2 : ∀ l ∈ swapFrontBack L, 0 < l :=
      fun l hl => hpos l ((swapFrontBack_perm L).mem_iff.mp hl)
    have hprod2 : (swapFrontBack L).prod < 2 ^ 31 := by
      rw [(swapFrontBack_perm L).prod_eq]
      exact hprod
    have h := GetStrides_loop_packed (swapFrontBack L) hne2 hpos2 hprod2
    simp only [hc, if_true, if_neg hm, swapFrontBack_map, List.length_map]
    simp only [swapFrontBack_map, List.length_map] at h
    simp only [Option.bind_eq_bind, Option.pure_def, Option.some_bind, h]
    rw [swapFrontBack_map]
  · have h := GetStrides_loop_packed L hne hpos hprod
    simp only [hc, if_false, if_neg hm, List.length_map]
    simp only [Option.bind_eq_bind, Option.pure_def, Option.some_bind, h]

theorem map_wrapUInt64_natCast (L : List Nat) (h : ∀ l ∈ L, l < 2 ^ 64) :
    (L.map (fun l : Nat => (l : Int))).map wrapUInt64 = L := by
  induction L with
  | nil => rfl
  | cons a rest ih =>
    simp only [List.map_cons]
    rw [wrapUInt64_natCast a (h a (List.mem_cons_self a rest)),
      ih (fun l hl => h l (List.mem_cons_of_mem a hl))]

theorem mem_le_prod (L : List Nat) (hpos : ∀ l ∈ L, 0 < l) : ∀ l ∈ L, l ≤ L.prod := by
  induction L with
  | nil => intro l hl; simp at hl
  | cons a rest ih =>
    intro l hl
    have ha : 0 < a := hpos a (List.mem_cons_self a rest)
    have hrest : ∀ x ∈ rest, 0 < x := fun x hx => hpos x (List.mem_cons_of_mem a hx)
    have hrp : 0 < rest.prod := List.prod_pos hrest
    rw [List.prod_cons]
    rcases List.mem_cons.mp hl with rfl | hl
    · exact Nat.le_mul_of_pos_right _ hrp
    · exact le_trans (ih hrest l hl) (Nat.le_mul_of_pos_left _ ha)

/-- The strides of the counterexample to C28: for the lengths `[2, 65536, 65536]` the product
`65536 * 65536` does not fit the `int` in which `GetStrides` forms it; the stride of axis 0 is 0
and `checkRightStride` returns `false` for the descriptor. -/
theorem GetStrides_overflows :
    GetStrides [2, 65536, 65536] 1 = some [0, 65536, 1] ∧
      smoothl1loss.checkRightStride false (SetTensorNd [2, 65536, 65536] [0, 65536, 1] 0) =
        .ok false :=
  ⟨by decide, rfl⟩

/-- Claim C28, as amended: For every non-empty list `L` of positive lengths with fewer than
`2^31` elements in all (the products fit the `int` in which they are formed) and each flag `c`,
`GetStrides(L, c)` returns strides with which `L` is accepted by `checkRightStride`, in either
build mode: the packed row-major strides of `L` for `c` other than 0, and for `c = 0` the packed
row-major strides of `L` with first and last length exchanged, with first and last stride
exchanged. -/
theorem GetStrides_accepted (dev : Bool) (L : List Nat) (c : Int) (t : Nat) (hne : L ≠ [])
    (hpos : ∀ l ∈ L, 0 < l) (hprod : L.prod < 2 ^ 31) :
    ∃ S, GetStrides (L.map (fun l : Nat => (l : Int))) c = some S ∧
      S = (if c = 0 then
          (swapFrontBack (packedStrides (swapFrontBack L))).map (fun l : Nat => (l : Int))
        else (packedStrides L).map (fun l : Nat => (l : Int))) ∧
      smoothl1loss.checkRightStride dev (SetTensorNd (L.map (fun l : Nat => (l : Int))) S t) =
        .ok true := by
  refine ⟨_, GetStrides_value L c hne hpos hprod, rfl, ?_⟩
  have hL64 : ∀ l ∈ L, l < 2 ^ 64 := fun l hl =>
    lt_of_le_of_lt (mem_le_prod L hpos l hl) (by omega)
  have hpos2 : ∀ l ∈ swapFrontBack L, 0 < l :=
    fun l hl => hpos l ((swapFrontBack_perm L).mem_iff.mp hl)
  have hprod2 : (swapFrontBack L).prod < 2 ^ 31 := by
    rw [(swapFrontBack_perm L).prod_eq]
    exact hprod
  have hP64 : ∀ (M : List Nat), (∀ l ∈ M, 0 < l) → M.prod < 2 ^ 31 →
      ∀ l ∈ packedStrides M, l < 2 ^ 64 := by
    intro M hM hMp l hl
    obtain ⟨j, hj, rfl⟩ := List.getElem_of_mem hl
    rw [packedStrides_length] at hj
    have h := packedStrides_getElem? M j hj
    rw [List.getElem?_eq_getElem (by rw [packedStrides_length]; exact hj)] at h
    rw [Option.some.inj h]
    exact lt_of_le_of_lt (drop_prod_le M hM (j + 1)) (by omega)
  unfold SetTensorNd
  rw [map_wrapUInt64_natCast L hL64]
  by_cases hc : c = 0
  · rw [if_pos hc, map_wrapUInt64_natCast _ (fun l hl =>
      hP64 _ hpos2 hprod2 l ((swapFrontBack_perm _).mem_iff.mp hl))]
    have hperm : (List.zip (swapFrontBack (packedStrides (swapFrontBack L))) L).Perm
        (List.zip (packedStrides (swapFrontBack L)) (swapFrontBack L)) := by
      have e : List.zip (swapFrontBack (packedStrides (swapFrontBack L))) L =
          swapFrontBack (List.zip (packedStrides (swapFrontBack L)) (swapFrontBack L)) := by
        rw [← swapFrontBack_zip _ _ (packedStrides_length _), swapFrontBack_involutive]
      rw [e]
      exact swapFrontBack_perm _
    rw [checkRightStride_congr_perm dev
      ⟨L, swapFrontBack (packedStrides (swapFrontBack L)), t⟩
      ⟨swapFrontBack L, packedStrides (swapFrontBack L), t⟩ hperm]
    exact checkRightStride_packed dev _ t hpos2 (by omega)
  · rw [if_neg hc, map_wrapUInt64_natCast _ (hP64 L hpos hprod)]
    exact checkRightStride_packed dev L t hpos (by omega)

theorem GetStrides_accepted_witness :
    ∃ S, GetStrides (([2, 3, 4, 5] : List Nat).map (fun l : Nat => (l : Int))) 0 = some S ∧
      S = (if (0 : Int) = 0 then
          (swapFrontBack (packedStrides (swapFrontBack ([2, 3, 4, 5] : List Nat)))).map
            (fun l : Nat => (l : Int))
        else (packedStrides ([2, 3, 4, 5] : List Nat)).map (fun l : Nat => (l : Int))) ∧
      smoothl1loss.checkRightStride true
        (SetTensorNd (([2, 3, 4, 5] : List Nat).map (fun l : Nat => (l : Int))) S 0) = .ok true :=
  GetStrides_accepted true [2, 3, 4, 5] 0 0 (by decide) (by decide) (by decide)

/-! ## The grid of `make_hip_kernel` -/

theorem AlignUp_smallest_multiple (g l : Nat) (hl : 0 < l) (h64 : AlignUp g l < 2 ^ 64) :
    IsSmallestMultipleAtLeast l g (wrapUInt64 (AlignUp g l)) := by
  have hl0 : (0 : Int) < l := by exact_mod_cast hl
  have hq0 : 0 ≤ ((g : Int) + l - 1) / l := Int.ediv_nonneg (by omega) (by omega)
  have hnn : 0 ≤ AlignUp g l := Int.mul_nonneg hq0 (by omega)
  have hw : ((wrapUInt64 (AlignUp g l) : Nat) : Int) = AlignUp g l :=
    wrapUInt64_of_range _ hnn h64
  have hdvd : (l : Int) ∣ AlignUp g l := Dvd.intro_left _ rfl
  have hge : (g : Int) ≤ AlignUp g l := by
    unfold AlignUp
    have e1 := Int.emod_add_ediv ((g : Int) + l - 1) l
    have e2 := Int.emod_lt_of_pos ((g : Int) + l - 1) hl0
    have e3 : ((g : Int) + l - 1) / l * l = l * (((g : Int) + l - 1) / l) := Int.mul_comm _ _
    omega
  have hlt : AlignUp g l < (g : Int) + l := by
    unfold AlignUp
    have e1 := Int.emod_add_ediv ((g : Int) + l - 1) l
    have e2 := Int.emod_nonneg ((g : Int) + l - 1) (by omega : (l : Int) ≠ 0)
    have e3 : ((g : Int) + l - 1) / l * l = l * (((g : Int) + l - 1) / l) := Int.mul_comm _ _
    omega
  refine ⟨?_, ?_, ?_⟩
  · have : (l : Int) ∣ ((wrapUInt64 (AlignUp g l) : Nat) : Int) := by rw [hw]; exact hdvd
    exact Int.natCast_dvd_natCast.mp this
  · have : (g : Int) ≤ ((wrapUInt64 (AlignUp g l) : Nat) : Int) := by rw [hw]; exact hge
    exact_mod_cast this
  · intro m hm hgm
    by_contra hcon
    have hmlt : (m : Int) < AlignUp g l := by
      rw [← hw]
      exact_mod_cast not_le.mp hcon
    have hd2 : (l : Int) ∣ AlignUp g l - m := Int.dvd_sub hdvd (Int.natCast_dvd_natCast.mpr hm)
    have hle := Int.le_of_dvd (by omega) hd2
    have : (g : Int) ≤ m := by exact_mod_cast hgm
    omega

/-- The kernel descriptor of the counterexample to C29: for the local size 256 and the requested
grid size `2^64 - 1` the first grid entry of the descriptor is 0, which is below the requested
size; the smallest multiple of 256 from `2^64 - 1` on is `2^64`, which no `size_t` holds. -/
theorem make_hip_kernel_grid_wraps :
    (make_hip_kernel [256] [18446744073709551615] "MIOpenBCELogitsLoss.cpp"
        "BCELogitsLossReducedBackward5d" "").map (fun k => (k.l_wk, k.g_wk)) =
      some ([256, 1, 1], [0, 1, 1]) ∧
    ¬ IsSmallestMultipleAtLeast 256 18446744073709551615 0 ∧
    (∀ g : Nat, g < 2 ^ 64 → ¬ IsSmallestMultipleAtLeast 256 18446744073709551615 g) := by
  refine ⟨by decide, ?_, ?_⟩
  · rintro ⟨_, h, _⟩
    omega
  · rintro g hg ⟨hd, h, _⟩
    omega

/-- Claim C29, as amended: For every local-size list of at most 3 positive entries and every
grid-size list of at most 3 entries such that the multiples in question are below `2^64` (they
fit a `size_t`), `make_hip_kernel` returns a kernel descriptor whose local sizes are the given
ones filled up with 1 to three entries and in which each of the 3 grid entries is the smallest
multiple of the local entry that is at least the requested grid entry, missing entries taken
as 1. -/
theorem make_hip_kernel_grid (localsize gridsize : List Nat) (kernel_file kernel_name : String)
    (comp_options : String) (hl3 : localsize.length ≤ 3) (hg3 : gridsize.length ≤ 3)
    (hpos : ∀ l ∈ localsize, 0 < l)
    (h64 : ∀ i, i < 3 → AlignUp (gridsize.getD i 1) (localsize.getD i 1) < 2 ^ 64) :
    ∃ k, make_hip_kernel localsize gridsize kernel_file kernel_name comp_options = some k ∧
      k.kernel_file = kernel_file ∧ k.kernel_name = kernel_name ∧
      k.l_wk = [localsize.getD 0 1, localsize.getD 1 1, localsize.getD 2 1] ∧
      k.g_wk.length = 3 ∧
      ∀ i, i < 3 → IsSmallestMultipleAtLeast (localsize.getD i 1) (gridsize.getD i 1)
        (k.g_wk.getD i 0) := by
  have hposD : ∀ i, 0 < localsize.getD i 1 := by
    intro i
    by_cases hi : i < localsize.length
    · rw [List.getD_eq_getElem _ _ hi]
      exact hpos _ (List.getElem_mem hi)
    · rw [List.getD_eq_default _ _ (by omega)]
      exact Nat.one_pos
  have hL : localsize ++ List.replicate (3 - localsize.length) 1 =
      [localsize.getD 0 1, localsize.getD 1 1, localsize.getD 2 1] := by
    rcases localsize with _ | ⟨a, _ | ⟨b, _ | ⟨c, _ | ⟨d, r⟩⟩⟩⟩
    · rfl
    · rfl
    · rfl
    · rfl
    · simp at hl3
  have hG : gridsize ++ List.replicate (3 - gridsize.length) 1 =
      [gridsize.getD 0 1, gridsize.getD 1 1, gridsize.getD 2 1] := by
    rcases gridsize with _ | ⟨a, _ | ⟨b, _ | ⟨c, _ | ⟨d, r⟩⟩⟩⟩
    · rfl
    · rfl
    · rfl
    · rfl
    · simp at hg3
  have h0 := hposD 0
  have h1 := hposD 1
  have h2 := hposD 2
  refine ⟨⟨comp_options, [localsize.getD 0 1, localsize.getD 1 1, localsize.getD 2 1],
    [wrapUInt64 (AlignUp (gridsize.getD 0 1) (localsize.getD 0 1)),
      wrapUInt64 (AlignUp (gridsize.getD 1 1) (localsize.getD 1 1)),
      wrapUInt64 (AlignUp (gridsize.getD 2 1) (localsize.getD 2 1))], kernel_file, kernel_name⟩,
    ?_, rfl, rfl, rfl, rfl, ?_⟩
  · unfold make_hip_kernel
    simp only [hL, hG]
    have hr : List.range ([localsize.getD 0 1, localsize.getD 1 1, localsize.getD 2 1]).length =
        [0, 1, 2] := rfl
    rw [hr]
    generalize localsize.getD 0 1 = a0 at h0 ⊢
    generalize localsize.getD 1 1 = a1 at h1 ⊢
    generalize localsize.getD 2 1 = a2 at h2 ⊢
    simp [make_hip_kernel_align, Nat.pos_iff_ne_zero.mp h0, Nat.pos_iff_ne_zero.mp h1,
      Nat.pos_iff_ne_zero.mp h2]
  · intro i hi
    have hs := AlignUp_smallest_multiple (gridsize.getD i 1) (localsize.getD i 1) (hposD i)
      (h64 i hi)
    rcases i with _ | _ | _ | i
    · exact hs
    · exact hs
    · exact hs
    · omega

theorem make_hip_kernel_grid_witness :
    ∃ k, make_hip_kernel [256] [1000] "MIOpenBCELogitsLoss.cpp" "BCELogitsLossReducedBackward5d"
        "" = some k ∧
      k.kernel_file = "MIOpenBCELogitsLoss.cpp" ∧
      k.kernel_name = "BCELogitsLossReducedBackward5d" ∧
      k.l_wk = [([256] : List Nat).getD 0 1, ([256] : List Nat).getD 1 1,
        ([256] : List Nat).getD 2 1] ∧
      k.g_wk.length = 3 ∧
      ∀ i, i < 3 → IsSmallestMultipleAtLeast (([256] : List Nat).getD i 1)
        (([1000] : List Nat).getD i 1) (k.g_wk.getD i 0) :=
  make_hip_kernel_grid [256] [1000] _ _ _ (by decide) (by decide) (by decide) (by decide)

/-! ## Injectivity of the fingerprint -/

theorem digitChar_isDigit (n : Nat) (h : n < 10) :
    (Nat.digitChar n).isDigit = true ∧ (Nat.digitChar n).toNat - 48 = n := by
  interval_cases n <;> exact ⟨rfl, rfl⟩

theorem toDigitsCore_spec (fuel : Nat) :
    ∀ (n : Nat) (ds : List Char), n < fuel →
      ∃ d : List Char, Nat.toDigitsCore 10 fuel n ds = d ++ ds ∧ d ≠ [] ∧
        (∀ c ∈ d, c.isDigit = true) ∧
        ∀ a : Nat, d.foldl (fun acc c => 10 * acc + (c.toNat - 48)) a = a * 10 ^ d.length + n := by
  induction fuel with
  | zero => intro n ds h; omega
  | succ fuel ih =>
    intro n ds h
    have hd := digitChar_isDigit (n % 10) (Nat.mod_lt _ (by decide))
    unfold Nat.toDigitsCore
    by_cases h0 : n / 10 = 0
    · simp only [h0, if_true]
      refine ⟨[Nat.digitChar (n % 10)], rfl, by simp, ?_, ?_⟩
      · intro c hc
        rw [List.mem_singleton] at hc
        rw [hc]
        exact hd.1
      · intro a
        simp only [List.foldl_cons, List.foldl_nil, List.length_singleton, pow_one]
        rw [hd.2]
        omega
    · simp only [h0, if_false]
      obtain ⟨d, hd1, hd2, hd3, hd4⟩ := ih (n / 10) (Nat.digitChar (n % 10) :: ds) (by omega)
      refine ⟨d ++ [Nat.digitChar (n % 10)], ?_, by simp, ?_, ?_⟩
      · rw [hd1]
        simp
      · intro c hc
        rw [List.mem_append, List.mem_singleton] at hc
        rcases hc with hc | hc
        · exact hd3 c hc
        · rw [hc]
          exact hd.1
      · intro a
        rw [List.foldl_append, hd4 a]
        simp only [List.foldl_cons, List.foldl_nil, List.length_append, List.length_singleton]
        rw [hd.2, pow_succ]
        have := Nat.div_add_mod n 10
        ring_nf
        ring_nf at this
        omega

theorem toString_nat_spec (n : Nat) :
    (toString n).data ≠ [] ∧ (∀ c ∈ (toString n).data, c.isDigit = true) ∧
      (toString n).data.foldl (fun acc c => 10 * acc + (c.toNat - 48)) 0 = n := by
  obtain ⟨d, hd1, hd2, hd3, hd4⟩ := toDigitsCore_spec (n + 1) n [] (Nat.lt_succ_self n)
  have e : (toString n).data = d := by
    show (Nat.repr n).data = d
    unfold Nat.repr Nat.toDigits
    rw [hd1]
    simp [List.asString]
  rw [e]
  refine ⟨hd2, hd3, ?_⟩
  rw [hd4 0]
  omega

theorem toString_nat_injective (m n : Nat) (h : toString m = toString n) : m = n := by
  have h1 := (toString_nat_spec m).2.2
  rw [h, (toString_nat_spec n).2.2] at h1
  exact h1.symm

/-- Two runs of digits, each followed by the end of the text or by a character that is not a
digit, are equal when the texts are equal. -/
theorem digits_split (d1 : List Char) :
    ∀ (d2 r1 r2 : List Char), (∀ c ∈ d1, c.isDigit = true) → (∀ c ∈ d2, c.isDigit = true) →
      (∀ c ∈ r1.head?, c.isDigit = false) → (∀ c ∈ r2.head?, c.isDigit = false) →
      d1 ++ r1 = d2 ++ r2 → d1 = d2 ∧ r1 = r2 := by
  induction d1 with
  | nil =>
    intro d2 r1 r2 _ h2 hr1 _ h
    cases d2 with
    | nil => exact ⟨rfl, h⟩
    | cons c d2 =>
      exfalso
      rw [List.nil_append, List.cons_append] at h
      have hc := hr1 c (by rw [h]; rfl)
      rw [h2 c (List.mem_cons_self c d2)] at hc
      exact Bool.noConfusion hc
  | cons c d1 ih =>
    intro d2 r1 r2 h1 h2 hr1 hr2 h
    cases d2 with
    | nil =>
      exfalso
      rw [List.nil_append, List.cons_append] at h
      have hc := hr2 c (by rw [← h]; rfl)
      rw [h1 c (List.mem_cons_self c d1)] at hc
      exact Bool.noConfusion hc
    | cons c2 d2 =>
      rw [List.cons_append, List.cons_append] at h
      injection h with hc ht
      obtain ⟨e1, e2⟩ := ih d2 r1 r2 (fun x hx => h1 x (List.mem_cons_of_mem c hx))
        (fun x hx => h2 x (List.mem_cons_of_mem c2 hx)) hr1 hr2 ht
      exact ⟨by rw [hc, e1], e2⟩

/-- A number written in decimal and followed by a text that does not start with a digit
determines the number and the text. -/
theorem toString_append_inj (m n : Nat) (r1 r2 : List Char)
    (hr1 : ∀ c ∈ r1.head?, c.isDigit = false) (hr2 : ∀ c ∈ r2.head?, c.isDigit = false)
    (h : (toString m).data ++ r1 = (toString n).data ++ r2) : m = n ∧ r1 = r2 := by
  obtain ⟨e1, e2⟩ := digits_split _ _ _ _ (toString_nat_spec m).2.1 (toString_nat_spec n).2.1
    hr1 hr2 h
  exact ⟨toString_nat_injective m n (String.ext e1), e2⟩

theorem reduced_fwd_fingerprint_inj (a b c n a2 b2 c2 n2 : Nat)
    (h : "smoothl1loss_reduced_fwd" ++ "i_dtype" ++ toString a ++ "t_dtype" ++ toString b
        ++ "o_dtype" ++ toString c ++ "size" ++ toString n =
      "smoothl1loss_reduced_fwd" ++ "i_dtype" ++ toString a2 ++ "t_dtype" ++ toString b2
        ++ "o_dtype" ++ toString c2 ++ "size" ++ toString n2) :
    a = a2 ∧ b = b2 ∧ c = c2 ∧ n = n2 := by
  have hd := congrArg String.data h
  simp only [String.data_append, List.append_assoc] at hd
  have hd1 := List.append_cancel_left (List.append_cancel_left hd)
  obtain ⟨e1, hd2⟩ := toString_append_inj a a2 _ _ (by simp) (by simp) hd1
  obtain ⟨e2, hd3⟩ := toString_append_inj b b2 _ _ (by simp) (by simp)
    (List.append_cancel_left hd2)
  obtain ⟨e3, hd4⟩ := toString_append_inj c c2 _ _ (by simp) (by simp)
    (List.append_cancel_left hd3)
  have hd5 := List.append_cancel_left hd4
  exact ⟨e1, e2, e3, toString_nat_injective n n2 (String.ext hd5)⟩

theorem unreduced_fwd_fingerprint_inj (f f2 : Bool) (a b c n a2 b2 c2 n2 : Nat)
    (h : "smoothl1loss_unreduced_fwd" ++ "contiguous" ++ streamBool f ++ "i_dtype" ++ toString a
        ++ "t_dtype" ++ toString b ++ "o_dtype" ++ toString c ++ "size" ++ toString n =
      "smoothl1loss_unreduced_fwd" ++ "contiguous" ++ streamBool f2 ++ "i_dtype" ++ toString a2
        ++ "t_dtype" ++ toString b2 ++ "o_dtype" ++ toString c2 ++ "size" ++ toString n2) :
    f = f2 ∧ a = a2 ∧ b = b2 ∧ c = c2 ∧ n = n2 := by
  have hd := congrArg String.data h
  simp only [String.data_append, List.append_assoc] at hd
  have hd0 := List.append_cancel_left (List.append_cancel_left hd)
  have hf : f = f2 := by
    cases f <;> cases f2 <;> simp [streamBool] at hd0 <;> rfl
  subst hf
  have hd1 := List.append_cancel_left (List.append_cancel_left hd0)
  obtain ⟨e1, hd2⟩ := toString_append_inj a a2 _ _ (by simp) (by simp) hd1
  obtain ⟨e2, hd3⟩ := toString_append_inj b b2 _ _ (by simp) (by simp)
    (List.append_cancel_left hd2)
  obtain ⟨e3, hd4⟩ := toString_append_inj c c2 _ _ (by simp) (by simp)
    (List.append_cancel_left hd3)
  have hd5 := List.append_cancel_left hd4
  exact ⟨rfl, e1, e2, e3, toString_nat_injective n n2 (String.ext hd5)⟩

theorem reduced_bwd_fingerprint_inj (a c n a2 c2 n2 : Nat)
    (h : "smoothl1loss_reduced_bwd" ++ "i_dtype" ++ toString a ++ "o_dtype" ++ toString c
        ++ "size" ++ toString n =
      "smoothl1loss_reduced_bwd" ++ "i_dtype" ++ toString a2 ++ "o_dtype" ++ toString c2
        ++ "size" ++ toString n2) :
    a = a2 ∧ c = c2 ∧ n = n2 := by
  have hd := congrArg String.data h
  simp only [String.data_append, List.append_assoc] at hd
  have hd1 := List.append_cancel_left (List.append_cancel_left hd)
  obtain ⟨e1, hd2⟩ := toString_append_inj a a2 _ _ (by simp) (by simp) hd1
  obtain ⟨e3, hd4⟩ := toString_append_inj c c2 _ _ (by simp) (by simp)
    (List.append_cancel_left hd2)
  have hd5 := List.append_cancel_left hd4
  exact ⟨e1, e3, toString_nat_injective n n2 (String.ext hd5)⟩

/-- Claim C30: The SmoothL1Loss fingerprint is injective on its keyed inputs.  Two problem
descriptions of the same variant whose keys differ (the element types of input, target and
output and the input element count for the forward variants, with the all-contiguous flag for
the unreduced one; the element types of input and output gradient and the input element count
for reduced backward) have different fingerprints. -/
theorem MakeNetworkConfig_injective_on_key
    (IsAllContiguous : smoothl1loss.ForwardProblemDescription → Except miopenStatus_t Bool) :
    (∀ p q : smoothl1loss.ForwardProblemDescription,
      (p.iDesc.GetType, p.tDesc.GetType, p.oDesc.GetType, p.iDesc.GetElementSize) ≠
        (q.iDesc.GetType, q.tDesc.GetType, q.oDesc.GetType, q.iDesc.GetElementSize) →
      smoothl1loss.ReducedForwardProblemDescription.MakeNetworkConfig p ≠
        smoothl1loss.ReducedForwardProblemDescription.MakeNetworkConfig q) ∧
    (∀ (p q : smoothl1loss.ForwardProblemDescription) (f g : Bool),
      IsAllContiguous p = .ok f → IsAllContiguous q = .ok g →
      (f, p.iDesc.GetType, p.tDesc.GetType, p.oDesc.GetType, p.iDesc.GetElementSize) ≠
        (g, q.iDesc.GetType, q.tDesc.GetType, q.oDesc.GetType, q.iDesc.GetElementSize) →
      ∃ s t, smoothl1loss.UnreducedForwardProblemDescription.MakeNetworkConfig IsAllContiguous p
          = .ok s ∧
        smoothl1loss.UnreducedForwardProblemDescription.MakeNetworkConfig IsAllContiguous q
          = .ok t ∧ s ≠ t) ∧
    (∀ p q : smoothl1loss.BackwardProblemDescription,
      (p.iDesc.GetType, p.doDesc.GetType, p.iDesc.GetElementSize) ≠
        (q.iDesc.GetType, q.doDesc.GetType, q.iDesc.GetElementSize) →
      smoothl1loss.ReducedBackwardProblemDescription.MakeNetworkConfig p ≠
        smoothl1loss.ReducedBackwardProblemDescription.MakeNetworkConfig q) := by
  refine ⟨?_, ?_, ?_⟩
  · intro p q hne h
    apply hne
    obtain ⟨e1, e2, e3, e4⟩ := reduced_fwd_fingerprint_inj _ _ _ _ _ _ _ _ h
    rw [e1, e2, e3, e4]
  · intro p q f g hp hq hne
    have hs : ∀ (r : smoothl1loss.ForwardProblemDescription) (c : Bool),
        IsAllContiguous r = .ok c →
        smoothl1loss.UnreducedForwardProblemDescription.MakeNetworkConfig IsAllContiguous r =
          .ok ("smoothl1loss_unreduced_fwd" ++ "contiguous" ++ streamBool c ++ "i_dtype"
            ++ toString r.iDesc.GetType ++ "t_dtype" ++ toString r.tDesc.GetType ++ "o_dtype"
            ++ toString r.oDesc.GetType ++ "size" ++ toString r.iDesc.GetElementSize) := by
      intro r c hr
      unfold smoothl1loss.UnreducedForwardProblemDescription.MakeNetworkConfig
      rw [hr]
      rfl
    refine ⟨_, _, hs p f hp, hs q g hq, ?_⟩
    · intro h
      apply hne
      obtain ⟨e0, e1, e2, e3, e4⟩ := unreduced_fwd_fingerprint_inj _ _ _ _ _ _ _ _ _ _ h
      rw [e0, e1, e2, e3, e4]
  · intro p q hne h
    apply hne
    obtain ⟨e1, e2, e3⟩ := reduced_bwd_fingerprint_inj _ _ _ _ _ _ h
    rw [e1, e2, e3]

theorem MakeNetworkConfig_injective_on_key_witness :
    smoothl1loss.ReducedForwardProblemDescription.MakeNetworkConfig
        ⟨⟨[4, 3], [3, 1], 1⟩, ⟨[4, 3], [3, 1], 1⟩, ⟨[1], [1], 1⟩⟩ ≠
      smoothl1loss.ReducedForwardProblemDescription.MakeNetworkConfig
        ⟨⟨[4, 3], [3, 1], 1⟩, ⟨[4, 3], [3, 1], 12⟩, ⟨[1], [1], 1⟩⟩ :=
  (MakeNetworkConfig_injective_on_key (fun _ => .ok true)).1 _ _ (by decide)

/-! ## What the fingerprint of the reduced backward problem leaves open -/

/-- Claim C21, as amended: The fingerprint of a SmoothL1Loss reduced-backward problem does not
determine the answer of `SmoothL1LossReducedBackward5d::IsApplicable`.  Two problem descriptions
have the same fingerprint exactly when they agree in the input element type, the
output-gradient element type and the input element count; and every problem description shares
its fingerprint with one that `IsApplicable` refuses, the same problem with the input laid out
in the six lengths `[E, 1, 1, 1, 1, 1]`: a problem that `IsApplicable` accepts and this one have
the same fingerprint and different answers. -/
theorem same_fingerprint_refused_twin (pred : smoothl1loss.BackwardPredicates)
    (p : smoothl1loss.BackwardProblemDescription) :
    (∀ q : smoothl1loss.BackwardProblemDescription,
      smoothl1loss.ReducedBackwardProblemDescription.MakeNetworkConfig q =
          smoothl1loss.ReducedBackwardProblemDescription.MakeNetworkConfig p ↔
        q.iDesc.GetType = p.iDesc.GetType ∧ q.doDesc.GetType = p.doDesc.GetType ∧
          q.iDesc.GetElementSize = p.iDesc.GetElementSize) ∧
    ∃ q : smoothl1loss.BackwardProblemDescription,
      smoothl1loss.ReducedBackwardProblemDescription.MakeNetworkConfig q =
        smoothl1loss.ReducedBackwardProblemDescription.MakeNetworkConfig p ∧
      q.iDesc = ⟨[p.iDesc.GetElementSize, 1, 1, 1, 1, 1], [1, 1, 1, 1, 1, 1], p.iDesc.GetType⟩ ∧
      q.tDesc = p.tDesc ∧ q.doDesc = p.doDesc ∧ q.diDesc = p.diDesc ∧ q.dtDesc = p.dtDesc ∧
      solver.smoothl1loss.SmoothL1LossReducedBackward5d.IsApplicable pred q = .ok false ∧
      (solver.smoothl1loss.SmoothL1LossReducedBackward5d.IsApplicable pred p = .ok true →
        solver.smoothl1loss.SmoothL1LossReducedBackward5d.IsApplicable pred q ≠
          solver.smoothl1loss.SmoothL1LossReducedBackward5d.IsApplicable pred p) := by
  constructor
  · intro q
    constructor
    · intro h
      exact reduced_bwd_fingerprint_inj _ _ _ _ _ _ h
    · rintro ⟨h1, h2, h3⟩
      unfold smoothl1loss.ReducedBackwardProblemDescription.MakeNetworkConfig
      simp only [h1, h2, h3]
  · have hq : solver.smoothl1loss.SmoothL1LossReducedBackward5d.IsApplicable pred
        ⟨⟨[p.iDesc.GetElementSize, 1, 1, 1, 1, 1], [1, 1, 1, 1, 1, 1], p.iDesc.GetType⟩,
          p.tDesc, p.doDesc, p.diDesc, p.dtDesc⟩ = .ok false := by
      unfold solver.smoothl1loss.SmoothL1LossReducedBackward5d.IsApplicable
      rw [if_pos (by simp [TensorDescriptor.GetSize])]
      rfl
    refine ⟨⟨⟨[p.iDesc.GetElementSize, 1, 1, 1, 1, 1], [1, 1, 1, 1, 1, 1], p.iDesc.GetType⟩,
      p.tDesc, p.doDesc, p.diDesc, p.dtDesc⟩, ?_, rfl, rfl, rfl, rfl, rfl, hq, ?_⟩
    · unfold smoothl1loss.ReducedBackwardProblemDescription.MakeNetworkConfig
      simp [TensorDescriptor.GetType, TensorDescriptor.GetElementSize]
    · intro hp
      rw [hq, hp]
      intro h
      cases h

end MIOpen
